import Mathlib

/-!
Verification of the minim streaming XML lexer (`src/python3/minim`).

This file shallowly embeds the chunk-spanning buffer
(`minim/iterseq.py`, class `IterableAsSequence`), the restartable
sub-parsers and the token scanner (`minim/lex.py`), and the namespace
filter (`minim/nslex.py`) as executable Lean functions over `List Char`,
and proves the specification claims about them.

Conventions of the embedding:
* A Python `str` becomes `List Char`; the lazy chunk iterator becomes a
  `List (List Char)` of not-yet-delivered chunks.
* The generator protocol (`next` / `send`) is collapsed: every token
  piece is emitted together with its materialised literal, which is what
  `send` would have produced.
* Python's regex character classes are modelled as `Char → Bool`
  predicates.  Python's `\w` is Unicode-aware; we use its ASCII
  fragment (letters, digits, underscore).  No claim in this development
  depends on the extent of the letter class, only on the scanner's
  control flow around it.
* The unbounded `while` loops of `TokenScanner.parse` take explicit
  fuel; running out of fuel is a distinguished outcome, never silently
  conflated with normal termination.
-/

set_option maxHeartbeats 1000000
set_option maxRecDepth 4096

namespace Minim

/-! ## The chunk buffer: `IterableAsSequence` (iterseq.py) -/

/-- State of `IterableAsSequence`: the not-yet-delivered chunks of the
upstream iterator, the current window (`None` before the first chunk is
read), and the `_start` / `_current` indices into the window. -/
structure IterSeq where
  chunks : List (List Char)
  buf : Option (List Char)
  start : Nat
  current : Nat
deriving Repr, DecidableEq

/-- Fresh buffer over a chunk iterator (`IterableAsSequence.__init__`). -/
def ofChunks (cs : List (List Char)) : IterSeq := ⟨cs, none, 0, 0⟩

/-- The `while len(buf) < n: buf += next(self._iter)` loop inside
`ensure`, together with the success / StopIteration returns that follow
it.  `b` is the window being grown, `cur` the (already trimmed) current
index, `start` the untouched `_start` field. -/
def readMore (b : List Char) (cur n start : Nat) :
    List (List Char) → Option Nat × IterSeq
  | [] =>
    if b.length < n then (none, ⟨[], some b, start, cur⟩)
    else (some cur, ⟨[], some b, start, cur⟩)
  | c :: cs =>
    if b.length < n then readMore (b ++ c) cur n start cs
    else (some cur, ⟨c :: cs, some b, start, cur⟩)

/-- Body of `ensure` once the window exists: trim the processed prefix
if the request does not fit, then read more chunks. -/
def ensureCore (s : IterSeq) (n : Nat) : Option Nat × IterSeq :=
  let b := s.buf.getD []
  if b.length < s.current + n then
    if 0 < s.current then readMore (b.drop s.current) 0 n s.start s.chunks
    else readMore b s.current n s.start s.chunks
  else (some s.current, s)

/-- `IterableAsSequence.ensure`: guarantee `n` code units are available
from `_current`.  Returns the current position, or `none` for Python's
`-1` when the stream ends first. -/
def ensure (s : IterSeq) (n : Nat) : Option Nat × IterSeq :=
  match s.buf with
  | none =>
    match s.chunks with
    | [] => (none, s)
    | c :: cs => ensureCore ⟨cs, some c, s.start, s.current⟩ n
  | some _ => ensureCore s n

/-- Result of `IterableAsSequence.get`: Python's `None` (no chunk was
ever delivered), the empty slice at end-of-stream, or a code unit. -/
inductive GetR where
  | noBuf
  | eos
  | chr (c : Char)
deriving Repr, DecidableEq

/-- `IterableAsSequence.get`: the code unit at `_current`, without
advancing.  The `'?'` default is unreachable: a successful `ensure`
guarantees the index is inside the window. -/
def get (s : IterSeq) : GetR × IterSeq :=
  match ensure s 1 with
  | (none, s') => (if s'.buf = none then .noBuf else .eos, s')
  | (some cur, s') => (.chr ((s'.buf.getD []).getD cur '?'), s')

/-- `IterableAsSequence.advance` with the default `n = 1` (the scanner
never calls it with another argument).  On a failed `ensure` Python
stores `_start = -1`, `_current = 0`; the rump window is empty there, so
every later operation behaves identically with `start = 0`, which is
what we store. -/
def advance (s : IterSeq) : IterSeq :=
  match ensure s 1 with
  | (some cur, s') => { s' with start := cur, current := cur + 1 }
  | (none, s') => { s' with start := 0, current := 0 }

/-- `IterableAsSequence.next`: advance by one and return `get`. -/
def next (s : IterSeq) : GetR × IterSeq := get (advance s)

/-- `IterableAsSequence.extract`: the slice `buf[start:current]`, or
`None` when no chunk was ever delivered. -/
def extract (s : IterSeq) : Option (List Char) :=
  s.buf.map fun b => (b.take s.current).drop s.start

/-- `extract` with Python's `None` collapsed to the empty slice; this is
the literal a sub-parser's `send` stores into the text holder. -/
def extractL (s : IterSeq) : List Char := (extract s).getD []

/-- `IterableAsSequence.matching` for a one-or-more character-class
pattern (the only patterns the scanner uses), with the default
`extract=True`.  Greedy regex matching of `[class]+` anchored at
`start` is `takeWhile`. -/
def matching (cls : Char → Bool) (s : IterSeq) : Int × IterSeq :=
  match ensure s 1 with
  | (none, s') => (0, { s' with start := s'.current })
  | (some st, s') =>
    let b := s'.buf.getD []
    let len := ((b.drop st).takeWhile cls).length
    if len = 0 then (0, { s' with start := s'.current })
    else if st + len = b.length then ((len : Int), { s' with start := st, current := st + len })
    else (-(len : Int), { s' with start := st, current := st + len })

/-- Python's `buf.find(sentinel, start)`: the least index `i ≥ start`
with `pat` occurring at `i`, or `none`. -/
def strFind (b pat : List Char) (i : Nat) : Option Nat :=
  if i + pat.length ≤ b.length then
    if pat.isPrefixOf (b.drop i) then some i else strFind b pat (i + 1)
  else none
termination_by b.length + 1 - i

/-- The sentinel-trimming loop of `match_to_sentinel`: the largest
`k ≤ bound` such that `sent.take k` is a suffix of `b` (the loop
`while not buf.endswith(sentinel): sentinel = sentinel[:-1]`, started
from `sentinel[:-1]`). -/
def overlapAux (b sent : List Char) : Nat → Nat
  | 0 => 0
  | k + 1 => if (sent.take (k + 1)).isSuffixOf b then k + 1 else overlapAux b sent k

/-- Length of the longest proper prefix of `sent` that is a suffix of
`b`. -/
def overlapLen (b sent : List Char) : Nat := overlapAux b sent (sent.length - 1)

/-- `IterableAsSequence.match_to_sentinel`. -/
def matchToSentinel (sent : List Char) (s : IterSeq) : Int × IterSeq :=
  match ensure s sent.length with
  | (none, s') =>
    match s'.buf with
    | none => (0, s')
    | some b =>
      let st := s'.current
      ((st : Int) - b.length, { s' with start := st, current := b.length })
  | (some st, s') =>
    let b := s'.buf.getD []
    match strFind b sent st with
    | some loc =>
      if loc = st then (0, { s' with start := st, current := st })
      else ((st : Int) - loc, { s' with start := st, current := loc })
    | none =>
      let cur : Nat :=
        match b.getLast? with
        | some c => if sent.contains c then b.length - overlapLen b sent else b.length
        | none => b.length
      ((cur : Int) - st, { s' with start := st, current := cur })

/-- `IterableAsSequence.starts_with`. -/
def startsWith (p : List Char) (s : IterSeq) : Bool × IterSeq :=
  match ensure s p.length with
  | (none, s') => (false, s')
  | (some st, s') =>
    if p.isPrefixOf ((s'.buf.getD []).drop st) then
      (true, { s' with start := st, current := st + p.length })
    else (false, s')

/-- The content not yet consumed: the window past `_current`, then the
undelivered chunks. -/
def remaining (s : IterSeq) : List Char :=
  (match s.buf with
   | none => []
   | some b => b.drop s.current) ++ s.chunks.flatten

/-- Well-formedness of reachable buffer states: before the first chunk
the cursor is zero, and the cursor never passes the window end. -/
def Inv (s : IterSeq) : Prop :=
  (s.buf = none → s.current = 0) ∧ (∀ b, s.buf = some b → s.current ≤ b.length)

/-- Termination measure for the sub-parser loops: unread window plus
undelivered chunk mass. -/
def seqMeasure (s : IterSeq) : Nat :=
  ((s.buf.getD []).length - s.current) + (s.chunks.map List.length).sum

/-! ## Character classes (lex.py regex patterns) -/

/-- `WhitespaceParser.pattern = re.compile(r'[ \t\r\n]+')`. -/
def isSpaceCh (c : Char) : Bool :=
  c == ' ' || c == '\t' || c == '\r' || c == '\n'

/-- ASCII fragment of Python's `\w` (word character). -/
def isWordCh (c : Char) : Bool := c.isAlpha || c.isDigit || c == '_'

/-- `NmTokenParser.nm_token_pattern = re.compile(r'[\w:.-]+')`. -/
def isNmCh (c : Char) : Bool := isWordCh c || c == ':' || c == '.' || c == '-'

/-- `NmTokenParser.name_initial_pattern = re.compile(r':|[^\W\d]')`:
a colon, or a word character that is not a digit. -/
def isNameInitial (c : Char) : Bool := c == ':' || (isWordCh c && !c.isDigit)

/-- `NmTokenParser.matches_initial` applied to the result of
`buf.get()` / `buf.next()`: the empty string and `None` match
nothing. -/
def matchesInitialG : GetR → Bool
  | .chr c => isNameInitial c
  | _ => false

/-! ## Buffer lemmas -/

theorem readMore_spec (chunks : List (List Char)) (b : List Char) (n start : Nat) :
    (readMore b 0 n start chunks).2.start = start ∧
    (readMore b 0 n start chunks).2.current = 0 ∧
    ∃ b', (readMore b 0 n start chunks).2.buf = some b' ∧
      b' ++ (readMore b 0 n start chunks).2.chunks.flatten = b ++ chunks.flatten ∧
      (((readMore b 0 n start chunks).1 = none ∧
          (readMore b 0 n start chunks).2.chunks = [] ∧ b'.length < n) ∨
        ((readMore b 0 n start chunks).1 = some 0 ∧ n ≤ b'.length)) := by
  induction chunks generalizing b with
  | nil =>
    by_cases h : b.length < n
    · simp [readMore, h]
    · simp [readMore, h]; omega
  | cons c cs ih =>
    by_cases h : b.length < n
    · simpa [readMore, h] using ih (b ++ c)
    · refine ⟨by simp [readMore, h], by simp [readMore, h], b, ?_⟩
      simp [readMore, h]
      omega

theorem readMore_measure (chunks : List (List Char)) (b : List Char) (cur n start : Nat) :
    seqMeasure (readMore b cur n start chunks).2 ≤
      (b.length - cur) + (chunks.map List.length).sum := by
  induction chunks generalizing b with
  | nil =>
    by_cases h : b.length < n <;> simp [readMore, h, seqMeasure]
  | cons c cs ih =>
    by_cases h : b.length < n
    · have h1 := ih (b ++ c)
      have h2 : (b ++ c).length - cur + (cs.map List.length).sum ≤
          b.length - cur + ((c :: cs).map List.length).sum := by
        simp; omega
      simpa [readMore, h] using h1.trans h2
    · simp [readMore, h, seqMeasure]

theorem ensureCore_spec (s : IterSeq) (n : Nat) (b : List Char) (hb : s.buf = some b)
    (hc : s.current ≤ b.length) :
    (ensureCore s n).2.start = s.start ∧
    remaining (ensureCore s n).2 = remaining s ∧
    ∃ b', (ensureCore s n).2.buf = some b' ∧
      (ensureCore s n).2.current ≤ b'.length ∧
      (((ensureCore s n).1 = some (ensureCore s n).2.current ∧
          (ensureCore s n).2.current + n ≤ b'.length) ∨
        ((ensureCore s n).1 = none ∧ (ensureCore s n).2.chunks = [] ∧
          (ensureCore s n).2.current = 0 ∧ b'.length < n)) := by
  by_cases h1 : b.length < s.current + n
  · by_cases h2 : 0 < s.current
    · have he : ensureCore s n = readMore (b.drop s.current) 0 n s.start s.chunks := by
        unfold ensureCore; rw [hb]; simp only [Option.getD_some]
        rw [if_pos h1, if_pos h2]
      obtain ⟨hs, hc', b', hbuf, hrem, hres⟩ :=
        readMore_spec s.chunks (b.drop s.current) n s.start
      rw [he]
      refine ⟨hs, ?_, b', hbuf, by omega, ?_⟩
      · simp only [remaining, hb, hbuf, hc', List.drop_zero]
        exact hrem
      · rcases hres with ⟨h3, h4, h5⟩ | ⟨h3, h4⟩
        · exact Or.inr ⟨h3, h4, hc', h5⟩
        · exact Or.inl ⟨by rw [h3, hc'], by omega⟩
    · have hz : s.current = 0 := by omega
      have he : ensureCore s n = readMore b 0 n s.start s.chunks := by
        unfold ensureCore; rw [hb]; simp only [Option.getD_some]
        rw [if_pos h1, if_neg h2, hz]
      obtain ⟨hs, hc', b', hbuf, hrem, hres⟩ := readMore_spec s.chunks b n s.start
      rw [he]
      refine ⟨hs, ?_, b', hbuf, by omega, ?_⟩
      · simp only [remaining, hb, hbuf, hc', List.drop_zero, hz]
        exact hrem
      · rcases hres with ⟨h3, h4, h5⟩ | ⟨h3, h4⟩
        · exact Or.inr ⟨h3, h4, hc', h5⟩
        · exact Or.inl ⟨by rw [h3, hc'], by omega⟩
  · have he : ensureCore s n = (some s.current, s) := by
      unfold ensureCore; rw [hb]; simp only [Option.getD_some]
      rw [if_neg h1]
    rw [he]
    exact ⟨rfl, rfl, b, hb, hc, Or.inl ⟨rfl, Nat.not_lt.mp h1⟩⟩

theorem ensure_spec (s : IterSeq) (n : Nat) (hs : Inv s) :
    (ensure s n).2.start = s.start ∧
    remaining (ensure s n).2 = remaining s ∧
    Inv (ensure s n).2 ∧
    ((∃ b', (ensure s n).2.buf = some b' ∧
        (ensure s n).1 = some (ensure s n).2.current ∧
        (ensure s n).2.current + n ≤ b'.length) ∨
      ((ensure s n).1 = none ∧
        ((remaining (ensure s n).2).length < n ∨ remaining (ensure s n).2 = []) ∧
        (ensure s n).2.chunks.flatten = [] ∧
        ((ensure s n).2.buf = none ↔ s.buf = none ∧ s.chunks = []) ∧
        (∀ b', (ensure s n).2.buf = some b' →
          (ensure s n).2.current = 0 ∧ b'.length < n ∧
            b' = remaining (ensure s n).2))) := by
  match h : s.buf with
  | none =>
    match h2 : s.chunks with
    | [] =>
      have hen : ensure s n = (none, s) := by simp [ensure, h, h2]
      rw [hen]
      exact ⟨rfl, rfl, hs, Or.inr ⟨rfl, Or.inr (by simp [remaining, h, h2]),
        by simp [h2], by simp [h, h2], by simp [h]⟩⟩
    | c :: cs =>
      have h0 : s.current = 0 := hs.1 h
      set t : IterSeq := ⟨cs, some c, s.start, s.current⟩ with ht
      have htb : t.buf = some c := rfl
      have htc : t.current ≤ c.length := by simp [ht, h0]
      obtain ⟨e1, e2, b', e3, e4, e5⟩ := ensureCore_spec t n c htb htc
      have hrt : remaining t = remaining s := by
        simp [remaining, ht, h, h2, h0]
      have hen : ensure s n = ensureCore t n := by
        simp [ensure, h, h2, ht]
      rw [hen]
      refine ⟨e1, by rw [e2, hrt], ⟨by simp [e3], ?_⟩, ?_⟩
      · intro b'' hb''; rw [e3] at hb''; cases hb''; exact e4
      · rcases e5 with ⟨f1, f2⟩ | ⟨f1, f2, f3, f4⟩
        · exact Or.inl ⟨b', e3, f1, f2⟩
        · have hrb : remaining (ensureCore t n).2 = b' := by
            simp [remaining, e3, f2, f3]
          refine Or.inr ⟨f1, Or.inl (by rw [hrb]; exact f4), by simp [f2],
            by simp [e3, h, h2], ?_⟩
          intro b'' hb''; rw [e3] at hb''; cases hb''
          exact ⟨f3, f4, hrb.symm⟩
  | some b =>
    have hcb : s.current ≤ b.length := hs.2 b h
    obtain ⟨e1, e2, b', e3, e4, e5⟩ := ensureCore_spec s n b h hcb
    have hen : ensure s n = ensureCore s n := by simp [ensure, h]
    rw [hen]
    refine ⟨e1, e2, ⟨by simp [e3], ?_⟩, ?_⟩
    · intro b'' hb''; rw [e3] at hb''; cases hb''; exact e4
    · rcases e5 with ⟨f1, f2⟩ | ⟨f1, f2, f3, f4⟩
      · exact Or.inl ⟨b', e3, f1, f2⟩
      · have hrb : remaining (ensureCore s n).2 = b' := by
          simp [remaining, e3, f2, f3]
        refine Or.inr ⟨f1, Or.inl (by rw [hrb]; exact f4), by simp [f2],
          by simp [e3, h], ?_⟩
        intro b'' hb''; rw [e3] at hb''; cases hb''
        exact ⟨f3, f4, hrb.symm⟩

theorem ensureCore_measure (s : IterSeq) (n : Nat) :
    seqMeasure (ensureCore s n).2 ≤ seqMeasure s := by
  unfold ensureCore
  by_cases h1 : (s.buf.getD []).length < s.current + n
  · by_cases h2 : 0 < s.current
    · simp only [h1, h2, if_true]
      have := readMore_measure s.chunks ((s.buf.getD []).drop s.current) 0 n s.start
      simp only [List.length_drop, Nat.sub_zero] at this
      exact this.trans (by simp [seqMeasure])
    · simp only [h1, h2, if_true, if_false]
      have := readMore_measure s.chunks (s.buf.getD []) s.current n s.start
      exact this.trans (by simp [seqMeasure])
  · simp [h1]

theorem ensure_measure (s : IterSeq) (n : Nat) :
    seqMeasure (ensure s n).2 ≤ seqMeasure s := by
  cases h : s.buf with
  | none =>
    cases h2 : s.chunks with
    | nil => simp [ensure, h, h2]
    | cons c cs =>
      have hen : ensure s n = ensureCore ⟨cs, some c, s.start, s.current⟩ n := by
        simp [ensure, h, h2]
      rw [hen]
      refine (ensureCore_measure _ n).trans ?_
      simp [seqMeasure, h, h2]
  | some b =>
    have hen : ensure s n = ensureCore s n := by simp [ensure, h]
    rw [hen]
    exact ensureCore_measure s n

theorem readMore_success (chunks : List (List Char)) (b : List Char) (cur n start st : Nat)
    (h : (readMore b cur n start chunks).1 = some st) :
    st = cur ∧ ∃ b', (readMore b cur n start chunks).2.buf = some b' ∧
      (readMore b cur n start chunks).2.current = cur ∧ n ≤ b'.length := by
  induction chunks generalizing b with
  | nil =>
    by_cases hl : b.length < n
    · simp [readMore, hl] at h
    · simp [readMore, hl] at h ⊢
      omega
  | cons c cs ih =>
    by_cases hl : b.length < n
    · simp only [readMore, hl, if_true] at h ⊢
      exact ih (b ++ c) h
    · simp [readMore, hl] at h ⊢
      omega

/-- Success of `ensure` guarantees the returned position is the cursor
and `n` units fit in the window, with no hypotheses on the state (used
for termination of the sub-parser loops). -/
theorem ensure_success (s : IterSeq) (n st : Nat)
    (h : (ensure s n).1 = some st) :
    st = (ensure s n).2.current ∧ ∃ b', (ensure s n).2.buf = some b' ∧
      st + n ≤ b'.length := by
  have core : ∀ t : IterSeq, t.buf.isSome → (ensureCore t n).1 = some st →
      st = (ensureCore t n).2.current ∧ ∃ b', (ensureCore t n).2.buf = some b' ∧
        st + n ≤ b'.length := by
    intro t htb ht
    unfold ensureCore at ht ⊢
    by_cases h1 : (t.buf.getD []).length < t.current + n
    · by_cases h2 : 0 < t.current
      · simp only [h1, h2, if_true] at ht ⊢
        obtain ⟨hst, b', hb', hc', hn⟩ := readMore_success _ _ _ _ _ _ ht
        exact ⟨by rw [hst, hc'], b', hb', by omega⟩
      · simp only [h1, h2, if_true, if_false] at ht ⊢
        obtain ⟨hst, b', hb', hc', hn⟩ := readMore_success _ _ _ _ _ _ ht
        have hz : t.current = 0 := by omega
        exact ⟨by rw [hst, hc'], b', hb', by omega⟩
    · simp only [h1, if_false] at ht ⊢
      cases ht
      refine ⟨rfl, t.buf.getD [], ?_, by omega⟩
      cases hb : t.buf with
      | none => rw [hb] at htb; simp at htb
      | some b => simp [hb]
  cases hb : s.buf with
  | none =>
    cases h2 : s.chunks with
    | nil =>
      have hen : ensure s n = (none, s) := by simp [ensure, hb, h2]
      rw [hen] at h
      simp at h
    | cons c cs =>
      have hen : ensure s n = ensureCore ⟨cs, some c, s.start, s.current⟩ n := by
        simp [ensure, hb, h2]
      rw [hen] at h ⊢
      exact core _ rfl h
  | some b =>
    have hen : ensure s n = ensureCore s n := by simp [ensure, hb]
    rw [hen] at h ⊢
    exact core _ (by simp [hb]) h

/-! ### Small list helpers -/

theorem take_takeWhile_len (p : Char → Bool) (l : List Char) :
    l.take (l.takeWhile p).length = l.takeWhile p := by
  induction l with
  | nil => simp
  | cons a t ih =>
    by_cases h : p a
    · simp [List.takeWhile_cons, h, ih]
    · simp [List.takeWhile_cons, h]

theorem drop_takeWhile_len (p : Char → Bool) (l : List Char) :
    l.drop (l.takeWhile p).length = l.dropWhile p := by
  induction l with
  | nil => simp
  | cons a t ih =>
    by_cases h : p a
    · simp [List.takeWhile_cons, List.dropWhile_cons, h, ih]
    · simp [List.takeWhile_cons, List.dropWhile_cons, h]

theorem dropWhile_head_false (p : Char → Bool) (l : List Char) (c : Char) (r : List Char)
    (h : l.dropWhile p = c :: r) : p c = false := by
  induction l with
  | nil => simp at h
  | cons a t ih =>
    by_cases ha : p a
    · rw [List.dropWhile_cons_of_pos ha] at h; exact ih h
    · rw [List.dropWhile_cons_of_neg ha] at h
      cases h
      simpa using ha

theorem takeWhile_append_all (p : Char → Bool) (l1 l2 : List Char)
    (h : ∀ c ∈ l1, p c) : (l1 ++ l2).takeWhile p = l1 ++ l2.takeWhile p := by
  induction l1 with
  | nil => simp
  | cons a t ih =>
    have ha : p a := h a (by simp)
    simp only [List.cons_append, List.takeWhile_cons, ha, if_true]
    rw [ih (fun c hc => h c (by simp [hc]))]

theorem dropWhile_append_all (p : Char → Bool) (l1 l2 : List Char)
    (h : ∀ c ∈ l1, p c) : (l1 ++ l2).dropWhile p = l2.dropWhile p := by
  induction l1 with
  | nil => simp
  | cons a t ih =>
    have ha : p a := h a (by simp)
    simp only [List.cons_append, List.dropWhile_cons, ha, if_true]
    exact ih (fun c hc => h c (by simp [hc]))

theorem remaining_some {s : IterSeq} {b : List Char} (h : s.buf = some b) :
    remaining s = b.drop s.current ++ s.chunks.flatten := by
  unfold remaining; rw [h]

theorem remaining_none {s : IterSeq} (h : s.buf = none) :
    remaining s = s.chunks.flatten := by
  unfold remaining; rw [h]; rfl

/-! ### `get`, `advance`, `next` -/

theorem get_spec (s : IterSeq) (hs : Inv s) :
    Inv (get s).2 ∧ remaining (get s).2 = remaining s ∧ (get s).2.start = s.start ∧
    (remaining s = [] → ((get s).1 = .noBuf ∨ (get s).1 = .eos) ∧
      ((get s).1 = .noBuf ↔ s.buf = none ∧ s.chunks = [])) ∧
    (∀ c r, remaining s = c :: r → (get s).1 = .chr c) := by
  obtain ⟨e1, e2, e3, e4⟩ := ensure_spec s 1 hs
  rcases h : ensure s 1 with ⟨res, t⟩
  rw [h] at e1 e2 e3 e4
  dsimp only at e1 e2 e3 e4
  rcases e4 with ⟨b', hb', hres, hbound⟩ | ⟨hres, hlen, hfl, hiff, hdrop⟩
  · have hcur : t.current < b'.length := by omega
    have hg : get s = (.chr (b'.getD t.current '?'), t) := by
      unfold get
      rw [h, hres]
      simp only [hb', Option.getD_some]
    rw [hg]
    have hdr : b'.drop t.current = b'[t.current] :: b'.drop (t.current + 1) :=
      List.drop_eq_getElem_cons hcur
    have hgd : b'.getD t.current '?' = b'[t.current] := List.getD_eq_getElem b' '?' hcur
    have hrem : remaining t = b'[t.current] :: (b'.drop (t.current + 1) ++ t.chunks.flatten) := by
      rw [remaining_some hb', hdr]
      rfl
    refine ⟨e3, e2, e1, ?_, ?_⟩
    · intro hnil; rw [hnil] at e2; rw [e2] at hrem; simp at hrem
    · intro c r hcr
      rw [← e2, hrem] at hcr
      cases hcr
      rw [hgd]
  · have hg : get s = (if t.buf = none then GetR.noBuf else GetR.eos, t) := by
      unfold get
      rw [h, hres]
    rw [hg]
    dsimp only
    refine ⟨e3, e2, e1, ?_, ?_⟩
    · intro _
      constructor
      · by_cases hbn : t.buf = none
        · exact Or.inl (by simp [hbn])
        · exact Or.inr (by simp [hbn])
      · by_cases hbn : t.buf = none
        · simp [hbn, hiff.mp hbn]
        · simp [hbn]
          intro hc1 hc2
          exact hbn (hiff.mpr ⟨hc1, hc2⟩)
    · intro c r hcr
      exfalso
      rcases hlen with hl | hl
      · rw [e2, hcr] at hl; simp at hl
      · rw [e2, hcr] at hl; simp at hl

theorem advance_spec (s : IterSeq) (hs : Inv s) :
    Inv (advance s) ∧ (advance s).start = (advance s).current - 1 ∧
    (∀ c r, remaining s = c :: r →
      remaining (advance s) = r ∧ extract (advance s) = some [c]) ∧
    (remaining s = [] → remaining (advance s) = []) := by
  obtain ⟨e1, e2, e3, e4⟩ := ensure_spec s 1 hs
  rcases h : ensure s 1 with ⟨res, t⟩
  rw [h] at e1 e2 e3 e4
  dsimp only at e1 e2 e3 e4
  rcases e4 with ⟨b', hb', hres, hbound⟩ | ⟨hres, hlen, hfl, hiff, hdrop⟩
  · have ha : advance s = { t with start := t.current, current := t.current + 1 } := by
      unfold advance
      rw [h, hres]
    rw [ha]
    have hcur : t.current < b'.length := by omega
    have hdr : b'.drop t.current = b'[t.current] :: b'.drop (t.current + 1) :=
      List.drop_eq_getElem_cons hcur
    have hrem : remaining t = b'[t.current] :: (b'.drop (t.current + 1) ++ t.chunks.flatten) := by
      rw [remaining_some hb', hdr]
      rfl
    refine ⟨⟨by simp [hb'], ?_⟩, by simp, ?_, ?_⟩
    · intro b'' hb''
      simp only [hb'] at hb''
      cases hb''
      simpa using hcur
    · intro c r hcr
      rw [← e2, hrem] at hcr
      cases hcr
      constructor
      · rw [remaining_some (s := { t with start := t.current, current := t.current + 1 }) hb']
      · have hx : extract { t with start := t.current, current := t.current + 1 } =
            some ((b'.take (t.current + 1)).drop t.current) := by
          unfold extract
          rw [hb']
          rfl
        rw [hx, List.drop_take]
        have h1 : t.current + 1 - t.current = 1 := by omega
        rw [h1]
        have hd1 : List.take 1 (List.drop t.current b') = [b'[t.current]] := by
          rw [hdr]; rfl
        rw [hd1]
    · intro hnil
      rw [← e2] at hnil
      rw [hnil] at hrem
      simp at hrem
  · have ha : advance s = { t with start := 0, current := 0 } := by
      unfold advance
      rw [h, hres]
    rw [ha]
    have hrem : remaining { t with start := 0, current := 0 } = remaining t := by
      cases hb : t.buf with
      | none =>
        rw [remaining_none (s := ⟨t.chunks, none, 0, 0⟩) rfl, remaining_none hb]
      | some b' =>
        obtain ⟨hc0, _, hb'⟩ := hdrop b' hb
        rw [remaining_some (s := ⟨t.chunks, some b', 0, 0⟩) rfl,
          remaining_some hb, hc0]
    refine ⟨⟨fun _ => rfl, ?_⟩, by simp, ?_, ?_⟩
    · intro b'' hb''
      simp only at hb''
      simp
    · intro c r hcr
      exfalso
      rcases hlen with hl | hl
      · rw [e2, hcr] at hl; simp at hl
      · rw [e2, hcr] at hl; simp at hl
    · intro _
      rw [hrem]
      rcases hlen with hl | hl
      · exact List.eq_nil_of_length_eq_zero (by omega)
      · exact hl

theorem next_spec (s : IterSeq) (hs : Inv s) :
    Inv (next s).2 ∧
    (∀ c r, remaining s = c :: r →
      remaining (next s).2 = r ∧
      (r = [] → (next s).1 ≠ .noBuf → (next s).1 = .eos) ∧
      (∀ c' r', r = c' :: r' → (next s).1 = .chr c')) ∧
    (remaining s = [] → remaining (next s).2 = [] ∧ ∀ c', (next s).1 ≠ .chr c') := by
  obtain ⟨a1, a2, a3, a4⟩ := advance_spec s hs
  obtain ⟨g1, g2, g3, g4, g5⟩ := get_spec (advance s) a1
  refine ⟨by unfold next; exact g1, ?_, ?_⟩
  · intro c r hcr
    obtain ⟨hr, _⟩ := a3 c r hcr
    refine ⟨by unfold next; rw [g2, hr], ?_, ?_⟩
    · intro hrnil hnb
      have := (g4 (by rw [hr, hrnil])).1
      unfold next at hnb ⊢
      tauto
    · intro c' r' hr'
      unfold next
      exact g5 c' r' (by rw [hr, hr'])
  · intro hnil
    have hr := a4 hnil
    refine ⟨by unfold next; rw [g2, hr], ?_⟩
    intro c'
    have := (g4 hr).1
    unfold next
    rcases this with h | h <;> simp [h]

/-! ### `matching` -/

/-- Set the slice indices `_start` and `_current`, as the buffer
operations do on success. -/
def setPos (t : IterSeq) (x y : Nat) : IterSeq := { t with start := x, current := y }

theorem remaining_start_irrel (t : IterSeq) (x : Nat) :
    remaining { t with start := x } = remaining t := rfl

theorem extractL_start_nil (t : IterSeq) :
    extractL { t with start := t.current } = [] := by
  cases hb : t.buf with
  | none =>
    unfold extractL extract
    rfl
  | some b =>
    unfold extractL extract
    simp [List.drop_take]

theorem remaining_setPos {t : IterSeq} {b : List Char} (hb : t.buf = some b) (x y : Nat) :
    remaining (setPos t x y) = b.drop y ++ t.chunks.flatten := by
  unfold setPos
  rw [remaining_some (s := { t with start := x, current := y }) hb]

theorem extractL_setPos {t : IterSeq} {b : List Char} (hb : t.buf = some b) (x y : Nat) :
    extractL (setPos t x y) = (b.take y).drop x := by
  unfold setPos extractL extract
  rw [show ({ t with start := x, current := y } : IterSeq).buf = t.buf from rfl, hb]
  rfl

theorem Inv_setPos {t : IterSeq} {b : List Char} (hb : t.buf = some b) (x y : Nat)
    (h : y ≤ b.length) : Inv (setPos t x y) := by
  constructor
  · intro hn
    rw [show (setPos t x y).buf = t.buf from rfl, hb] at hn
    cases hn
  · intro b'' hb''
    rw [show (setPos t x y).buf = t.buf from rfl, hb] at hb''
    cases hb''
    exact h

theorem takeWhile_nil_head (p : Char → Bool) (c : Char) (r : List Char)
    (h : (c :: r).takeWhile p = []) : p c = false := by
  by_cases hc : p c
  · rw [List.takeWhile_cons_of_pos hc] at h; simp at h
  · simpa using hc

theorem takeWhile_len_le (p : Char → Bool) (l : List Char) :
    (l.takeWhile p).length ≤ l.length :=
  List.Sublist.length_le (List.takeWhile_sublist p)

theorem matching_spec (cls : Char → Bool) (s : IterSeq) (hs : Inv s) :
    Inv (matching cls s).2 ∧
    extractL (matching cls s).2 ++ remaining (matching cls s).2 = remaining s ∧
    (∀ c ∈ extractL (matching cls s).2, cls c) ∧
    ((matching cls s).1 = 0 ↔ extractL (matching cls s).2 = []) ∧
    ((matching cls s).1 = 0 → remaining (matching cls s).2 = remaining s ∧
      (remaining s).takeWhile cls = []) ∧
    ((matching cls s).1 < 0 →
      ∃ c r', remaining (matching cls s).2 = c :: r' ∧ cls c = false) := by
  obtain ⟨e1, e2, e3, e4⟩ := ensure_spec s 1 hs
  rcases h : ensure s 1 with ⟨res, t⟩
  rw [h] at e1 e2 e3 e4
  dsimp only at e1 e2 e3 e4
  rcases e4 with ⟨b', hb', hres, hbound⟩ | ⟨hres, hlen, hfl, hiff, hdrop⟩
  · -- ensure succeeded: one unit is available at the cursor
    have hcur : t.current < b'.length := by omega
    have hwne : b'.drop t.current ≠ [] := by
      intro hnil
      have := List.drop_eq_nil_iff.mp hnil
      omega
    have hremt : remaining t = b'.drop t.current ++ t.chunks.flatten := remaining_some hb'
    by_cases h0 : (((b'.drop t.current).takeWhile cls)).length = 0
    · -- no match at the cursor
      have hm : matching cls s = (0, { t with start := t.current }) := by
        unfold matching
        rw [h, hres]
        simp [hb', h0]
      rw [hm]
      have hex : extractL { t with start := t.current } = [] := extractL_start_nil t
      have htwn : (b'.drop t.current).takeWhile cls = [] := List.length_eq_zero.mp h0
      have htw : (remaining s).takeWhile cls = [] := by
        rw [← e2, hremt]
        obtain ⟨c, r, hcr⟩ := List.exists_cons_of_ne_nil hwne
        rw [hcr] at htwn ⊢
        have hc : cls c = false := takeWhile_nil_head cls c r htwn
        rw [List.cons_append, List.takeWhile_cons_of_neg (by simp [hc])]
      refine ⟨e3, ?_, by rw [hex]; simp, by simp [hex], ?_, ?_⟩
      · rw [hex, remaining_start_irrel]
        simpa using e2
      · intro _
        exact ⟨by rw [remaining_start_irrel]; exact e2, htw⟩
      · intro h6
        exact absurd h6 (by simp)
    · -- a non-empty run matched
      have hlenw : ((b'.drop t.current).takeWhile cls).length ≤ b'.length - t.current := by
        have := takeWhile_len_le cls (b'.drop t.current)
        simpa using this
      have hex : extractL (setPos t t.current
            (t.current + ((b'.drop t.current).takeWhile cls).length)) =
          (b'.drop t.current).takeWhile cls := by
        rw [extractL_setPos hb', List.drop_take]
        have h1 : t.current + ((b'.drop t.current).takeWhile cls).length - t.current =
            ((b'.drop t.current).takeWhile cls).length := by omega
        rw [h1, take_takeWhile_len]
      have hdrop2 : b'.drop (t.current + ((b'.drop t.current).takeWhile cls).length) =
          (b'.drop t.current).dropWhile cls := by
        rw [← drop_takeWhile_len cls (b'.drop t.current), List.drop_drop]
      have hrem2 : remaining (setPos t t.current
            (t.current + ((b'.drop t.current).takeWhile cls).length)) =
          (b'.drop t.current).dropWhile cls ++ t.chunks.flatten := by
        rw [remaining_setPos hb', hdrop2]
      have hinv : Inv (setPos t t.current
          (t.current + ((b'.drop t.current).takeWhile cls).length)) :=
        Inv_setPos hb' _ _ (by omega)
      have hsplit : extractL (setPos t t.current
            (t.current + ((b'.drop t.current).takeWhile cls).length)) ++
          remaining (setPos t t.current
            (t.current + ((b'.drop t.current).takeWhile cls).length)) =
          remaining s := by
        rw [hex, hrem2, ← e2, hremt, ← List.append_assoc,
          List.takeWhile_append_dropWhile]
      by_cases hend : t.current + ((b'.drop t.current).takeWhile cls).length = b'.length
      · -- matched to the end of the window: positive return
        have hm : matching cls s = ((((b'.drop t.current).takeWhile cls).length : Int),
            setPos t t.current
              (t.current + ((b'.drop t.current).takeWhile cls).length)) := by
          unfold matching
          rw [h, hres]
          simp [hb', h0, hend, setPos]
        rw [hm]
        refine ⟨hinv, hsplit, ?_, ?_, ?_, ?_⟩
        · rw [hex]
          exact fun c hc => List.mem_takeWhile_imp hc
        · constructor
          · intro hz
            exact absurd hz (by simp; omega)
          · intro hz
            rw [hex] at hz
            rw [hz] at h0
            simp at h0
        · intro hz
          exact absurd hz (by simp; omega)
        · intro h6
          exact absurd h6 (by simp)
      · -- bounded inside the window: negative return
        have hm : matching cls s = (-(((b'.drop t.current).takeWhile cls).length : Int),
            setPos t t.current
              (t.current + ((b'.drop t.current).takeWhile cls).length)) := by
          unfold matching
          rw [h, hres]
          simp [hb', h0, hend, setPos]
        rw [hm]
        refine ⟨hinv, hsplit, ?_, ?_, ?_, ?_⟩
        · rw [hex]
          exact fun c hc => List.mem_takeWhile_imp hc
        · constructor
          · intro hz
            exact absurd hz (by simp; omega)
          · intro hz
            rw [hex] at hz
            rw [hz] at h0
            simp at h0
        · intro hz
          exact absurd hz (by simp; omega)
        · intro _
          have hne : (b'.drop t.current).dropWhile cls ≠ [] := by
            rw [← hdrop2]
            intro hnil
            have := List.drop_eq_nil_iff.mp hnil
            omega
          obtain ⟨c, r', hcr⟩ := List.exists_cons_of_ne_nil hne
          refine ⟨c, r' ++ t.chunks.flatten, ?_, dropWhile_head_false cls _ c r' hcr⟩
          rw [hrem2, hcr]
          rfl
  · -- ensure failed: the stream is exhausted
    have hrt : remaining t = [] := by
      rcases hlen with hl | hl
      · exact List.eq_nil_of_length_eq_zero (by omega)
      · exact hl
    have hm : matching cls s = (0, { t with start := t.current }) := by
      unfold matching
      rw [h, hres]
    rw [hm]
    have hex : extractL { t with start := t.current } = [] := extractL_start_nil t
    refine ⟨e3, ?_, by rw [hex]; simp, by simp [hex], ?_, ?_⟩
    · rw [hex, remaining_start_irrel]
      simpa using e2
    · intro _
      refine ⟨by rw [remaining_start_irrel]; exact e2, ?_⟩
      rw [← e2, hrt]
      rfl
    · intro h6
      exact absurd h6 (by simp)

/-! ### `strFind` and the sentinel-overlap loop -/

theorem isPrefixOf_length {p l : List Char} (h : p.isPrefixOf l = true) :
    p.length ≤ l.length := (List.isPrefixOf_iff_prefix.mp h).length_le

theorem isPrefixOf_append_left {p l r : List Char} (h : p.isPrefixOf l = true) :
    p.isPrefixOf (l ++ r) = true := by
  rw [List.isPrefixOf_iff_prefix] at *
  exact h.trans (List.prefix_append l r)

theorem strFind_some (b pat : List Char) (i j : Nat) (h : strFind b pat i = some j) :
    i ≤ j ∧ j + pat.length ≤ b.length ∧ pat.isPrefixOf (b.drop j) = true ∧
      ∀ m, i ≤ m → m < j → ¬ pat.isPrefixOf (b.drop m) := by
  induction i using strFind.induct b pat with
  | case1 i hle hpre =>
    rw [strFind, if_pos hle, if_pos hpre] at h
    cases h
    exact ⟨le_refl _, hle, hpre, fun m h1 h2 => absurd h1 (by omega)⟩
  | case2 i hle hpre ih =>
    rw [strFind, if_pos hle, if_neg hpre] at h
    obtain ⟨ih1, ih2, ih3, ih4⟩ := ih h
    refine ⟨by omega, ih2, ih3, ?_⟩
    intro m h1 h2
    rcases Nat.eq_or_lt_of_le h1 with rfl | hlt
    · simpa using hpre
    · exact ih4 m hlt h2
  | case3 i hle =>
    rw [strFind, if_neg hle] at h
    cases h

theorem strFind_none (b pat : List Char) (i : Nat) (h : strFind b pat i = none)
    (hpat : pat ≠ []) : ∀ m, i ≤ m → ¬ pat.isPrefixOf (b.drop m) := by
  induction i using strFind.induct b pat with
  | case1 i hle hpre =>
    rw [strFind, if_pos hle, if_pos hpre] at h
    cases h
  | case2 i hle hpre ih =>
    rw [strFind, if_pos hle, if_neg hpre] at h
    intro m h1 hm
    rcases Nat.eq_or_lt_of_le h1 with rfl | hlt
    · exact absurd hm (by simpa using hpre)
    · exact ih h m hlt hm
  | case3 i hle =>
    intro m h1 hm
    have hl := isPrefixOf_length hm
    simp only [List.length_drop] at hl
    have hp : 0 < pat.length := List.length_pos.mpr hpat
    omega

theorem strFind_nil (b : List Char) (i : Nat) (hi : i ≤ b.length) :
    strFind b [] i = some i := by
  rw [strFind]
  simp [hi]

theorem overlapAux_le (b sent : List Char) (k : Nat) : overlapAux b sent k ≤ k := by
  induction k with
  | zero => simp [overlapAux]
  | succ k ih =>
    unfold overlapAux
    by_cases h : (sent.take (k + 1)).isSuffixOf b
    · simp [h]
    · simp [h]
      omega

theorem overlapAux_suffix (b sent : List Char) (k : Nat) :
    (sent.take (overlapAux b sent k)).isSuffixOf b = true := by
  induction k with
  | zero =>
    simp [overlapAux, List.isSuffixOf_iff_suffix]
  | succ k ih =>
    unfold overlapAux
    by_cases h : (sent.take (k + 1)).isSuffixOf b
    · simp [h]
    · simp only [h, if_false]
      exact ih

theorem overlapAux_max (b sent : List Char) (k j : Nat) (hj : j ≤ k)
    (hs : (sent.take j).isSuffixOf b = true) : j ≤ overlapAux b sent k := by
  induction k with
  | zero => omega
  | succ k ih =>
    unfold overlapAux
    by_cases h : (sent.take (k + 1)).isSuffixOf b
    · simpa [h] using hj
    · simp [h]
      apply ih
      rcases Nat.eq_or_lt_of_le hj with rfl | hlt
      · exact absurd hs (by simpa using h)
      · omega

theorem take_mem_of_mem {sent : List Char} {k : Nat} {c : Char}
    (h : c ∈ sent.take k) : c ∈ sent := List.mem_of_mem_take h

theorem suffix_drop_eq {u b : List Char} (h : u <:+ b) :
    b.drop (b.length - u.length) = u := by
  obtain ⟨v, rfl⟩ := h
  simp [List.drop_append_eq_append_drop]

theorem extractL_none {s : IterSeq} (h : s.buf = none) : extractL s = [] := by
  unfold extractL extract
  rw [h]
  rfl

theorem drop_take_append (b : List Char) (st loc : Nat) (h1 : st ≤ loc)
    (h2 : st ≤ b.length) : (b.take loc).drop st ++ b.drop loc = b.drop st := by
  conv_rhs => rw [← List.take_append_drop loc b]
  rw [List.drop_append_eq_append_drop]
  have h3 : st - (b.take loc).length = 0 := by
    simp only [List.length_take]
    omega
  rw [h3, List.drop_zero]

theorem prefix_append_iff_of_le (p u v : List Char) (h : p.length ≤ u.length) :
    (p.isPrefixOf (u ++ v) = true ↔ p.isPrefixOf u = true) := by
  rw [List.isPrefixOf_iff_prefix, List.isPrefixOf_iff_prefix]
  constructor
  · intro hp
    have hq := List.prefix_iff_eq_take.mp hp
    rw [List.take_append_of_le_length h] at hq
    rw [hq]
    exact List.take_prefix _ _
  · intro hp
    exact hp.trans (List.prefix_append u v)

theorem suffix_getLast_mem (u b : List Char) (hs : u.isSuffixOf b = true)
    (hu : u ≠ []) (hb : b ≠ []) : b.getLast hb ∈ u := by
  obtain ⟨v, rfl⟩ := List.isSuffixOf_iff_suffix.mp hs
  rw [List.getLast_append' v u hu]
  exact List.getLast_mem hu

/-- Master specification of `match_to_sentinel` for a non-empty
sentinel, covering the three return-value cases of its docstring. -/
theorem matchToSentinel_spec (sent : List Char) (s : IterSeq) (hs : Inv s)
    (hsent : sent ≠ []) :
    Inv (matchToSentinel sent s).2 ∧
    extractL (matchToSentinel sent s).2 ++ remaining (matchToSentinel sent s).2 =
      remaining s ∧
    ((matchToSentinel sent s).1 = 0 ↔
      (sent.isPrefixOf (remaining s) = true ∨ remaining s = [])) ∧
    ((matchToSentinel sent s).1 = 0 →
      remaining (matchToSentinel sent s).2 = remaining s ∧
      extractL (matchToSentinel sent s).2 = []) ∧
    ((matchToSentinel sent s).1 < 0 →
      extractL (matchToSentinel sent s).2 ≠ [] ∧
      ((extractL (matchToSentinel sent s).2).length : Int) = -(matchToSentinel sent s).1 ∧
      (sent.isPrefixOf (remaining (matchToSentinel sent s).2) = true ∨
        remaining (matchToSentinel sent s).2 = [])) ∧
    (0 < (matchToSentinel sent s).1 →
      ((extractL (matchToSentinel sent s).2).length : Int) = (matchToSentinel sent s).1 ∧
      ∃ b k, (matchToSentinel sent s).2.buf = some b ∧
        (matchToSentinel sent s).2.start < (matchToSentinel sent s).2.current ∧
        (matchToSentinel sent s).2.current ≤ b.length ∧
        extractL (matchToSentinel sent s).2 =
          (b.take (matchToSentinel sent s).2.current).drop (matchToSentinel sent s).2.start ∧
        (∀ m, (matchToSentinel sent s).2.start ≤ m → ¬ sent.isPrefixOf (b.drop m)) ∧
        k < sent.length ∧
        b.drop (matchToSentinel sent s).2.current = sent.take k ∧
        (∀ k', k' < sent.length → (sent.take k').isSuffixOf b = true → k' ≤ k)) := by
  have hsl : 1 ≤ sent.length := List.length_pos.mpr hsent
  obtain ⟨e1, e2, e3, e4⟩ := ensure_spec s sent.length hs
  rcases h : ensure s sent.length with ⟨res, t⟩
  rw [h] at e1 e2 e3 e4
  dsimp only at e1 e2 e3 e4
  rcases e4 with ⟨b', hb', hres, hbound⟩ | ⟨hres, hlen, hfl, hiff, hdrop⟩
  · -- B: ensure succeeded
    have hwlen : sent.length ≤ b'.length - t.current := by omega
    have hremt : remaining t = b'.drop t.current ++ t.chunks.flatten := remaining_some hb'
    have hrlen : sent.length ≤ (b'.drop t.current).length := by
      simp only [List.length_drop]
      omega
    have hprefix_iff : sent.isPrefixOf (remaining s) = true ↔
        sent.isPrefixOf (b'.drop t.current) = true := by
      rw [← e2, hremt]
      exact prefix_append_iff_of_le sent _ _ hrlen
    have hrs_ne : remaining s ≠ [] := by
      rw [← e2, hremt]
      intro hnil
      have h1 : (List.drop t.current b' ++ t.chunks.flatten).length = 0 := by
        rw [hnil]; rfl
      simp only [List.length_append, List.length_drop] at h1
      omega
    cases hf : strFind b' sent t.current with
    | some loc =>
      obtain ⟨hge, hlocb, hpre, hmin⟩ := strFind_some b' sent t.current loc hf
      by_cases heq : loc = t.current
      · -- sentinel found exactly at the cursor: return 0
        have hm : matchToSentinel sent s = (0, setPos t t.current t.current) := by
          unfold matchToSentinel
          rw [h, hres]
          simp [hb', hf, heq, setPos]
        rw [hm]
        have hex : extractL (setPos t t.current t.current) = [] := by
          rw [extractL_setPos hb', List.drop_take]
          simp
        have hrm : remaining (setPos t t.current t.current) = remaining s := by
          rw [remaining_setPos hb', ← hremt, e2]
        refine ⟨Inv_setPos hb' _ _ (by omega), by rw [hex, hrm]; rfl, ?_, ?_, ?_, ?_⟩
        · simp only [true_iff]
          left
          rw [hprefix_iff]
          rw [heq] at hpre
          exact hpre
        · intro _
          exact ⟨hrm, hex⟩
        · intro hneg
          exact absurd hneg (by simp)
        · intro hpos
          exact absurd hpos (by simp)
      · -- sentinel found after some content: negative return
        have hlt : t.current < loc := by omega
        have hm : matchToSentinel sent s =
            ((t.current : Int) - loc, setPos t t.current loc) := by
          unfold matchToSentinel
          rw [h, hres]
          simp [hb', hf, heq, setPos]
        rw [hm]
        have hexval : extractL (setPos t t.current loc) = (b'.take loc).drop t.current :=
          extractL_setPos hb' _ _
        have hexlen : (extractL (setPos t t.current loc)).length = loc - t.current := by
          rw [hexval]
          simp only [List.length_drop, List.length_take]
          omega
        have hrm : remaining (setPos t t.current loc) = b'.drop loc ++ t.chunks.flatten :=
          remaining_setPos hb' _ _
        refine ⟨Inv_setPos hb' _ _ (by omega), ?_, ?_, ?_, ?_, ?_⟩
        · rw [hexval, hrm, ← e2, hremt, ← List.append_assoc,
            drop_take_append b' t.current loc (by omega) (by omega)]
        · constructor
          · intro hz
            exfalso
            omega
          · intro hz
            exfalso
            rcases hz with hz | hz
            · rw [hprefix_iff] at hz
              exact hmin t.current (le_refl _) hlt hz
            · exact hrs_ne hz
        · intro hz
          exfalso
          omega
        · intro _
          refine ⟨?_, by rw [hexlen]; omega, Or.inl ?_⟩
          · intro hnil
            rw [hnil] at hexlen
            simp at hexlen
            omega
          · rw [hrm]
            exact isPrefixOf_append_left hpre
        · intro hpos
          exfalso
          omega
    | none =>
      -- sentinel not in the window: positive return with the tie-break trim
      have hbne : b' ≠ [] := by
        intro hnil
        rw [hnil] at hbound
        simp only [List.length_nil, Nat.le_zero, Nat.add_eq_zero] at hbound
        omega
      have hnotin := strFind_none b' sent t.current hf hsent
      have hcurdef : ∃ L, L < sent.length ∧
          (matchToSentinel sent s = ((b'.length - L : Nat) - (t.current : Int),
            setPos t t.current (b'.length - L)) ∨ False) ∧
          (sent.take L).isSuffixOf b' = true ∧
          (∀ k', k' < sent.length → (sent.take k').isSuffixOf b' = true → k' ≤ L) := by
        have hgl : b'.getLast? = some (b'.getLast hbne) := List.getLast?_eq_getLast b' hbne
        by_cases hcont : sent.contains (b'.getLast hbne)
        · refine ⟨overlapLen b' sent, by have := overlapAux_le b' sent (sent.length - 1); unfold overlapLen; omega,
            Or.inl ?_, ?_, ?_⟩
          · unfold matchToSentinel
            rw [h, hres]
            simp only [hb', Option.getD_some, hf, hgl]
            rw [if_pos hcont]
            simp [setPos, hb']
          · exact overlapAux_suffix b' sent (sent.length - 1)
          · intro k' hk' hs'
            exact overlapAux_max b' sent (sent.length - 1) k' (by omega) hs'
        · refine ⟨0, by omega, Or.inl ?_, by simp [List.isSuffixOf_iff_suffix], ?_⟩
          · unfold matchToSentinel
            rw [h, hres]
            simp only [hb', Option.getD_some, hf, hgl]
            rw [if_neg hcont]
            simp [setPos, hb']
          · intro k' hk' hs'
            by_contra hgt
            push_neg at hgt
            have hk1 : sent.take k' ≠ [] := by
              intro hnil
              have hlen0 : (sent.take k').length = 0 := by rw [hnil]; rfl
              rw [List.length_take] at hlen0
              omega
            have := suffix_getLast_mem (sent.take k') b' hs' hk1 hbne
            have hmem : b'.getLast hbne ∈ sent := take_mem_of_mem this
            rw [List.elem_iff] at hcont
            exact hcont hmem
      obtain ⟨L, hL, hmeq, hsuf, hmax⟩ := hcurdef
      rcases hmeq with hm | hfalse
      on_goal 2 => exact absurd hfalse (by simp)
      rw [hm]
      have hcur_lt : t.current < b'.length - L := by omega
      have hcur_le : b'.length - L ≤ b'.length := by omega
      have hexval : extractL (setPos t t.current (b'.length - L)) =
          (b'.take (b'.length - L)).drop t.current := extractL_setPos hb' _ _
      have hexlen : (extractL (setPos t t.current (b'.length - L))).length =
          b'.length - L - t.current := by
        rw [hexval]
        simp only [List.length_drop, List.length_take]
        omega
      have hrm : remaining (setPos t t.current (b'.length - L)) =
          b'.drop (b'.length - L) ++ t.chunks.flatten := remaining_setPos hb' _ _
      have hdropL : b'.drop (b'.length - L) = sent.take L := by
        have hlt : (sent.take L).length = L := by
          simp only [List.length_take]
          omega
        have := suffix_drop_eq (List.isSuffixOf_iff_suffix.mp hsuf)
        rw [hlt] at this
        exact this
      refine ⟨Inv_setPos hb' _ _ hcur_le, ?_, ?_, ?_, ?_, ?_⟩
      · rw [hexval, hrm, ← e2, hremt, ← List.append_assoc,
          drop_take_append b' t.current (b'.length - L) (by omega) (by omega)]
      · constructor
        · intro hz
          exfalso
          omega
        · intro hz
          exfalso
          rcases hz with hz | hz
          · rw [hprefix_iff] at hz
            exact hnotin t.current (le_refl _) hz
          · exact hrs_ne hz
      · intro hz
        exfalso
        omega
      · intro hneg
        exfalso
        omega
      · intro _
        refine ⟨by rw [hexlen]; omega, b', L, hb', ?_, ?_, ?_, ?_, hL, ?_, ?_⟩
        · show t.current < b'.length - L
          omega
        · exact hcur_le
        · exact hexval
        · intro m hm'
          exact hnotin m hm'
        · exact hdropL
        · exact hmax
  · -- A: ensure failed
    cases hb : t.buf with
    | none =>
      have hm : matchToSentinel sent s = (0, t) := by
        unfold matchToSentinel
        rw [h, hres]
        dsimp only
        rw [hb]
      rw [hm]
      have hrt : remaining t = [] := by
        rw [remaining_none hb]
        exact hfl
      have hex : extractL t = [] := extractL_none hb
      refine ⟨e3, by rw [hex, e2]; rfl, ?_, fun _ => ⟨e2, hex⟩, ?_, ?_⟩
      · simp only [true_iff]
        right
        rw [← e2]
        exact hrt
      · intro hz
        exact absurd hz (by simp)
      · intro hz
        exact absurd hz (by simp)
    | some b =>
      obtain ⟨hc0, hblen, hbrem⟩ := hdrop b hb
      have hm : matchToSentinel sent s =
          ((t.current : Int) - b.length, setPos t t.current b.length) := by
        unfold matchToSentinel
        rw [h, hres]
        dsimp only
        rw [hb]
        simp [setPos, hb]
      rw [hm]
      have hrt : remaining t = b := hbrem.symm
      have hrs : remaining s = b := by rw [← e2]; exact hrt
      have hexval : extractL (setPos t t.current b.length) =
          (b.take b.length).drop t.current := extractL_setPos hb _ _
      have hexval2 : extractL (setPos t t.current b.length) = b := by
        rw [hexval, List.take_length, hc0, List.drop_zero]
      have hrm : remaining (setPos t t.current b.length) = [] := by
        rw [remaining_setPos hb _ _]
        simp [hfl]
      have hnopre : ¬ sent.isPrefixOf (remaining s) := by
        intro hp
        have := isPrefixOf_length hp
        rw [hrs] at this
        omega
      dsimp only
      by_cases hbe : b = []
      · -- the rump is empty: return 0 at end-of-stream
        have hblen0 : b.length = 0 := by rw [hbe]; rfl
        refine ⟨Inv_setPos hb _ _ (le_refl _), ?_, ?_, ?_, ?_, ?_⟩
        · rw [hexval2, hrm, hrs, hbe]
          rfl
        · constructor
          · intro _
            right
            rw [hrs, hbe]
          · intro _
            rw [hc0, hblen0]
            simp
        · intro _
          refine ⟨?_, by rw [hexval2, hbe]⟩
          rw [hrm, hrs, hbe]
        · intro hz
          exfalso
          rw [hc0, hblen0] at hz
          simp at hz
        · intro hz
          exfalso
          rw [hc0, hblen0] at hz
          simp at hz
      · -- content before end-of-stream: negative return
        have hbpos : 0 < b.length := List.length_pos.mpr hbe
        refine ⟨Inv_setPos hb _ _ (le_refl _), ?_, ?_, ?_, ?_, ?_⟩
        · rw [hexval2, hrm, hrs]
          simp
        · constructor
          · intro hz
            exfalso
            rw [hc0] at hz
            omega
          · intro hz
            exfalso
            rcases hz with hz | hz
            · exact hnopre hz
            · rw [hrs] at hz
              exact hbe hz
        · intro hz
          exfalso
          rw [hc0] at hz
          omega
        · intro _
          refine ⟨by rw [hexval2]; exact hbe, ?_, Or.inr hrm⟩
          rw [hexval2, hc0]
          omega
        · intro hz
          exfalso
          rw [hc0] at hz
          omega

/-! ### `starts_with` -/

theorem startsWith_spec (p : List Char) (s : IterSeq) (hs : Inv s) (hp : p ≠ []) :
    Inv (startsWith p s).2 ∧
    ((startsWith p s).1 = true ↔ p.isPrefixOf (remaining s) = true) ∧
    ((startsWith p s).1 = true →
      extract (startsWith p s).2 = some p ∧
      remaining s = p ++ remaining (startsWith p s).2) ∧
    ((startsWith p s).1 = false → remaining (startsWith p s).2 = remaining s) := by
  have hpl : 1 ≤ p.length := List.length_pos.mpr hp
  obtain ⟨e1, e2, e3, e4⟩ := ensure_spec s p.length hs
  rcases h : ensure s p.length with ⟨res, t⟩
  rw [h] at e1 e2 e3 e4
  dsimp only at e1 e2 e3 e4
  rcases e4 with ⟨b', hb', hres, hbound⟩ | ⟨hres, hlen, hfl, hiff, hdrop⟩
  · have hremt : remaining t = b'.drop t.current ++ t.chunks.flatten := remaining_some hb'
    have hrlen : p.length ≤ (b'.drop t.current).length := by
      simp only [List.length_drop]
      omega
    have hpiff : p.isPrefixOf (remaining s) = true ↔
        p.isPrefixOf (b'.drop t.current) = true := by
      rw [← e2, hremt]
      exact prefix_append_iff_of_le p _ _ hrlen
    by_cases hpre : p.isPrefixOf (b'.drop t.current)
    · have hm : startsWith p s = (true, setPos t t.current (t.current + p.length)) := by
        unfold startsWith
        rw [h, hres]
        simp [hb', hpre, setPos]
      rw [hm]
      have hdropeq : b'.drop t.current = p ++ b'.drop (t.current + p.length) := by
        have h1 := List.prefix_iff_eq_take.mp (List.isPrefixOf_iff_prefix.mp hpre)
        conv_lhs => rw [← List.take_append_drop p.length (b'.drop t.current)]
        rw [← h1, List.drop_drop]
      have hexv : extract (setPos t t.current (t.current + p.length)) = some p := by
        unfold setPos extract
        rw [show ({ t with start := t.current, current := t.current + p.length } :
          IterSeq).buf = t.buf from rfl, hb']
        simp only [Option.map_some']
        congr 1
        rw [List.drop_take]
        have h1 : t.current + p.length - t.current = p.length := by omega
        rw [h1]
        have h2 := List.prefix_iff_eq_take.mp (List.isPrefixOf_iff_prefix.mp hpre)
        exact h2.symm
      refine ⟨Inv_setPos hb' _ _ (by omega), ?_, ?_, ?_⟩
      · simp only [true_iff]
        rw [hpiff]
        exact hpre
      · intro _
        refine ⟨hexv, ?_⟩
        rw [← e2, hremt, remaining_setPos hb', hdropeq]
        rw [List.append_assoc]
      · intro hfalse
        cases hfalse
    · have hm : startsWith p s = (false, t) := by
        unfold startsWith
        rw [h, hres]
        simp [hb', hpre]
      rw [hm]
      refine ⟨e3, ?_, ?_, fun _ => e2⟩
      · constructor
        · intro hc
          cases hc
        · intro hc
          rw [hpiff] at hc
          exact absurd hc hpre
      · intro hc
        cases hc
  · have hm : startsWith p s = (false, t) := by
      unfold startsWith
      rw [h, hres]
    rw [hm]
    refine ⟨e3, ?_, ?_, fun _ => e2⟩
    · constructor
      · intro hc
        cases hc
      · intro hc
        exfalso
        have hle := isPrefixOf_length hc
        rw [e2] at hlen
        rcases hlen with hl | hl
        · omega
        · rw [hl] at hle
          simp only [List.length_nil, Nat.le_zero] at hle
          omega
    · intro hc
      cases hc

/-! ### Measure lemmas for the sub-parser loops -/

theorem readMore_fail (chunks : List (List Char)) (b : List Char) (cur n start : Nat)
    (h : (readMore b cur n start chunks).1 = none) :
    ∃ b', (readMore b cur n start chunks).2.buf = some b' ∧
      (readMore b cur n start chunks).2.current = cur ∧
      (readMore b cur n start chunks).2.chunks = [] ∧ b'.length < n := by
  induction chunks generalizing b with
  | nil =>
    by_cases hl : b.length < n
    · refine ⟨b, ?_, ?_, ?_, hl⟩ <;> simp [readMore, hl]
    · simp [readMore, hl] at h
  | cons c cs ih =>
    by_cases hl : b.length < n
    · simp only [readMore, hl, if_true] at h ⊢
      exact ih (b ++ c) h
    · simp [readMore, hl] at h

theorem ensure_fail_some (s : IterSeq) (n : Nat) (b : List Char)
    (h : (ensure s n).1 = none) (hb : (ensure s n).2.buf = some b) :
    (ensure s n).2.current = 0 ∧ (ensure s n).2.chunks = [] ∧ b.length < n := by
  have core : ∀ t : IterSeq, (ensureCore t n).1 = none →
      (ensureCore t n).2.buf = some b →
      (ensureCore t n).2.current = 0 ∧ (ensureCore t n).2.chunks = [] ∧
        b.length < n := by
    intro t ht htb
    unfold ensureCore at ht htb ⊢
    by_cases h1 : (t.buf.getD []).length < t.current + n
    · by_cases h2 : 0 < t.current
      · simp only [h1, h2, if_true] at ht htb ⊢
        obtain ⟨b', hb', hc', hch, hlen⟩ := readMore_fail _ _ _ _ _ ht
        rw [hb'] at htb
        cases htb
        exact ⟨hc', hch, hlen⟩
      · simp only [h1, h2, if_true, if_false] at ht htb ⊢
        obtain ⟨b', hb', hc', hch, hlen⟩ := readMore_fail _ _ _ _ _ ht
        rw [hb'] at htb
        cases htb
        have hz : t.current = 0 := by omega
        exact ⟨hc'.trans hz, hch, hlen⟩
    · simp [h1] at ht
  cases hsb : s.buf with
  | none =>
    cases h2 : s.chunks with
    | nil =>
      have hen : ensure s n = (none, s) := by simp [ensure, hsb, h2]
      rw [hen] at hb
      dsimp only at hb
      rw [hsb] at hb
      cases hb
    | cons c cs =>
      have hen : ensure s n = ensureCore ⟨cs, some c, s.start, s.current⟩ n := by
        simp [ensure, hsb, h2]
      rw [hen] at h hb ⊢
      exact core _ h hb
  | some b0 =>
    have hen : ensure s n = ensureCore s n := by simp [ensure, hsb]
    rw [hen] at h hb ⊢
    exact core _ h hb

theorem seqMeasure_setPos (t : IterSeq) (x y : Nat) :
    seqMeasure (setPos t x y) =
      ((t.buf.getD []).length - y) + (t.chunks.map List.length).sum := rfl

theorem matching_measure (cls : Char → Bool) (s : IterSeq)
    (hr : (matching cls s).1 ≠ 0) :
    seqMeasure (matching cls s).2 < seqMeasure s := by
  have hms : seqMeasure (ensure s 1).2 ≤ seqMeasure s := ensure_measure s 1
  rcases h : ensure s 1 with ⟨res, t⟩
  rw [h] at hms
  dsimp only at hms
  cases res with
  | none =>
    have hm : matching cls s = (0, { t with start := t.current }) := by
      unfold matching
      rw [h]
    rw [hm] at hr
    simp at hr
  | some st =>
    obtain ⟨hst, b', hb', hbound⟩ := ensure_success s 1 st (by rw [h])
    rw [h] at hst hb'
    dsimp only at hst hb'
    subst hst
    have hmt : seqMeasure t = (b'.length - t.current) + (t.chunks.map List.length).sum := by
      unfold seqMeasure
      rw [hb']
      simp
    rw [hmt] at hms
    by_cases h0 : ((b'.drop t.current).takeWhile cls).length = 0
    · have hm : matching cls s = (0, { t with start := t.current }) := by
        unfold matching
        rw [h]
        simp [hb', h0]
      rw [hm] at hr
      simp at hr
    · have hlt : seqMeasure (setPos t t.current
          (t.current + ((b'.drop t.current).takeWhile cls).length)) < seqMeasure s := by
        rw [seqMeasure_setPos, hb']
        simp only [Option.getD_some]
        omega
      by_cases hend : t.current + ((b'.drop t.current).takeWhile cls).length = b'.length
      · have hm : matching cls s = ((((b'.drop t.current).takeWhile cls).length : Int),
            setPos t t.current (t.current + ((b'.drop t.current).takeWhile cls).length)) := by
          unfold matching
          rw [h]
          simp [hb', h0, hend, setPos]
        rw [hm]
        exact hlt
      · have hm : matching cls s = (-(((b'.drop t.current).takeWhile cls).length : Int),
            setPos t t.current (t.current + ((b'.drop t.current).takeWhile cls).length)) := by
          unfold matching
          rw [h]
          simp [hb', h0, hend, setPos]
        rw [hm]
        exact hlt

theorem mts_measure (sent : List Char) (s : IterSeq)
    (hr : (matchToSentinel sent s).1 ≠ 0) :
    seqMeasure (matchToSentinel sent s).2 < seqMeasure s := by
  have hms : seqMeasure (ensure s sent.length).2 ≤ seqMeasure s :=
    ensure_measure s sent.length
  rcases h : ensure s sent.length with ⟨res, t⟩
  rw [h] at hms
  dsimp only at hms
  cases res with
  | none =>
    cases hb : t.buf with
    | none =>
      have hm : matchToSentinel sent s = (0, t) := by
        unfold matchToSentinel
        rw [h]
        dsimp only
        rw [hb]
      rw [hm] at hr
      simp at hr
    | some b =>
      have hm : matchToSentinel sent s =
          ((t.current : Int) - b.length, setPos t t.current b.length) := by
        unfold matchToSentinel
        rw [h]
        dsimp only
        rw [hb]
        simp [setPos, hb]
      obtain ⟨hc0, hch, hlen⟩ := ensure_fail_some s sent.length b
        (by rw [h]) (by rw [h]; dsimp only; exact hb)
      rw [h] at hc0 hch
      dsimp only at hc0 hch
      have hb1 : 0 < b.length := by
        by_contra hbz
        push_neg at hbz
        rw [hm] at hr
        dsimp only at hr
        omega
      have hmt : seqMeasure t = (b.length - t.current) + (t.chunks.map List.length).sum := by
        unfold seqMeasure
        rw [hb]
        simp
      rw [hm]
      dsimp only
      rw [seqMeasure_setPos, hb]
      simp only [Option.getD_some]
      rw [hmt] at hms
      omega
  | some st =>
    obtain ⟨hst, b', hb', hbound⟩ := ensure_success s sent.length st (by rw [h])
    rw [h] at hst hb'
    dsimp only at hst hb'
    subst hst
    have hmt : seqMeasure t = (b'.length - t.current) + (t.chunks.map List.length).sum := by
      unfold seqMeasure
      rw [hb']
      simp
    rw [hmt] at hms
    cases hf : strFind b' sent t.current with
    | some loc =>
      obtain ⟨hge, hlocb, hpre, hmin⟩ := strFind_some b' sent t.current loc hf
      by_cases heq : loc = t.current
      · have hm : matchToSentinel sent s = (0, setPos t t.current t.current) := by
          unfold matchToSentinel
          rw [h]
          simp [hb', hf, heq, setPos]
        rw [hm] at hr
        simp at hr
      · have hm : matchToSentinel sent s =
            ((t.current : Int) - loc, setPos t t.current loc) := by
          unfold matchToSentinel
          rw [h]
          simp [hb', hf, heq, setPos]
        rw [hm]
        dsimp only
        rw [seqMeasure_setPos, hb']
        simp only [Option.getD_some]
        omega
    | none =>
      have hsne : sent ≠ [] := by
        intro hnil
        rw [hnil] at hf
        rw [strFind_nil b' t.current (by omega)] at hf
        cases hf
      have hsl : 1 ≤ sent.length := List.length_pos.mpr hsne
      have hbne : b' ≠ [] := by
        intro hnil
        rw [hnil] at hbound
        simp only [List.length_nil, Nat.le_zero, Nat.add_eq_zero] at hbound
        omega
      have hgl : b'.getLast? = some (b'.getLast hbne) := List.getLast?_eq_getLast b' hbne
      have hov : overlapLen b' sent ≤ sent.length - 1 := overlapAux_le b' sent _
      by_cases hcont : sent.contains (b'.getLast hbne)
      · have hm : matchToSentinel sent s =
            (((b'.length - overlapLen b' sent : Nat) : Int) - t.current,
              setPos t t.current (b'.length - overlapLen b' sent)) := by
          unfold matchToSentinel
          rw [h]
          simp only [hb', Option.getD_some, hf, hgl]
          rw [if_pos hcont]
          simp [setPos, hb']
        rw [hm]
        dsimp only
        rw [seqMeasure_setPos, hb']
        simp only [Option.getD_some]
        omega
      · have hm : matchToSentinel sent s =
            ((b'.length : Int) - t.current, setPos t t.current b'.length) := by
          unfold matchToSentinel
          rw [h]
          simp only [hb', Option.getD_some, hf, hgl]
          rw [if_neg hcont]
          simp [setPos, hb']
        rw [hm]
        dsimp only
        rw [seqMeasure_setPos, hb']
        simp only [Option.getD_some]
        omega

/-! ## Token pieces (tokens.py instances as used by lex.py) -/

/-- Token kinds: one constructor per token class / singleton instance
that `lex.py` and `nslex.py` emit. -/
inductive TK where
  | markupWhitespace
  | pcdata
  | whitespaceContent
  | tagName
  | attributeName
  | attributeValue
  | piTarget
  | piData
  | commentData
  | cdata
  | startOrEmptyTagOpen
  | endTagOpen
  | attributeEquals
  | avDoubleOpen
  | avSingleOpen
  | avDoubleClose
  | avSingleClose
  | startTagClose
  | emptyTagClose
  | endTagClose
  | piOpen
  | piClose
  | commentOpen
  | commentClose
  | cdataOpen
  | cdataClose
  | badlyFormedLessThan
  | badlyFormedEndOfStream
  | namespaceDefault
  | namespacePrefixTok
  | namespaceUri
deriving Repr, DecidableEq

/-- One emitted token piece: kind, the literal text stored by `send`
into the text holder, the `is_initial` / `is_final` flags, and the
decoded content for the namespace identifier tokens. -/
structure Tok where
  kind : TK
  lit : List Char
  isInitial : Bool
  isFinal : Bool
  content : Option (List Char)
deriving Repr, DecidableEq

/-- A fixed-literal token (the pre-allocated `*TextToken` instances of
lex.py, whose flags are both true). -/
def mkTok (k : TK) (l : List Char) : Tok := ⟨k, l, true, true, none⟩

/-- Concatenation of the literals of a piece list (`literal()` of every
emitted token). -/
def litcat (ts : List Tok) : List Char := (ts.map Tok.lit).flatten

/-! ## The sub-parser loops of lex.py -/

/-- One complete `yield from` run of `PatternParser` (lex.py 145-193):
the iteration of `__next__` / `send` pairs, collapsed so that every
yielded token is materialised with `literal = buf.extract()`.  `found`
and `isInitial` are the parser's fields after `__iter__` /
previous iterations; a fresh run starts with `found = false`,
`isInitial = true`.  Returns the pieces, the `StopIteration` payload
(found), and the final buffer. -/
def patternRun (cls : Char → Bool) (k : TK) (found isInitial : Bool) (s : IterSeq) :
    List Tok × Bool × IterSeq :=
  let isInit := if found then false else isInitial
  let r := matching cls s
  if h0 : r.1 = 0 then
    if isInit then ([], found, r.2)
    else ([⟨k, extractL r.2, isInit, true, none⟩], found, r.2)
  else if r.1 < 0 then
    ([⟨k, extractL r.2, isInit, true, none⟩], true, r.2)
  else
    let rest := patternRun cls k true isInit r.2
    (⟨k, extractL r.2, isInit, false, none⟩ :: rest.1, rest.2.1, rest.2.2)
termination_by seqMeasure s
decreasing_by exact matching_measure cls s h0

/-- Python truthiness of a `get()` result: `None` and the empty string
are falsy, a character is truthy. -/
def isChr : GetR → Bool
  | .chr _ => true
  | _ => false

/-- One complete `yield from` run of `SentinelParser` (lex.py 62-119),
collapsed in the same way.  A fresh run starts with
`needsFinal = false`, `isInitial = true`. -/
def sentinelRun (sent : List Char) (k : TK) (needsFinal isInitial : Bool) (s : IterSeq) :
    List Tok × Bool × IterSeq :=
  let isInit := if needsFinal then false else isInitial
  let r := matchToSentinel sent s
  if h0 : r.1 = 0 then
    let g := get r.2
    if needsFinal then ([⟨k, extractL g.2, isInit, true, none⟩], isChr g.1, g.2)
    else ([], isChr g.1, g.2)
  else if r.1 < 0 then
    let rest := sentinelRun sent k false isInit r.2
    (⟨k, extractL r.2, isInit, true, none⟩ :: rest.1, rest.2.1, rest.2.2)
  else
    let rest := sentinelRun sent k true isInit r.2
    (⟨k, extractL r.2, isInit, false, none⟩ :: rest.1, rest.2.1, rest.2.2)
termination_by seqMeasure s
decreasing_by
  · exact mts_measure sent s h0
  · exact mts_measure sent s h0

/-- `TokenScanner.parse_space`: a fresh `WhitespaceParser` run. -/
def parseSpace (k : TK) (s : IterSeq) : List Tok × Bool × IterSeq :=
  patternRun isSpaceCh k false true s

/-- `TokenScanner.parse_name`: a fresh `NmTokenParser` run. -/
def parseName (k : TK) (s : IterSeq) : List Tok × Bool × IterSeq :=
  patternRun isNmCh k false true s

/-- `TokenScanner.parse_until`: a fresh `SentinelParser` run. -/
def parseUntil (sent : List Char) (k : TK) (s : IterSeq) : List Tok × Bool × IterSeq :=
  sentinelRun sent k false true s

/-! ### Helper facts about `extract` across `ensure` and `get` -/

theorem extractL_zero (t : IterSeq) (h : t.current = 0) : extractL t = [] := by
  unfold extractL extract
  cases hb : t.buf with
  | none => rfl
  | some b => simp [h]

theorem readMore_current (chunks : List (List Char)) (b : List Char) (cur n start : Nat) :
    (readMore b cur n start chunks).2.current = cur := by
  induction chunks generalizing b with
  | nil =>
    by_cases hl : b.length < n <;> simp [readMore, hl]
  | cons c cs ih =>
    by_cases hl : b.length < n <;> simp [readMore, hl, ih]

theorem ensure_keep_extract (s : IterSeq) (n : Nat) (hs : Inv s) (h : extractL s = []) :
    extractL (ensure s n).2 = [] := by
  have core : ∀ t : IterSeq, t.current = 0 ∨ extractL t = [] →
      extractL (ensureCore t n).2 = [] := by
    intro t ht
    unfold ensureCore
    by_cases h1 : (t.buf.getD []).length < t.current + n
    · by_cases h2 : 0 < t.current
      · simp only [h1, h2, if_true]
        exact extractL_zero _ (readMore_current _ _ _ _ _)
      · simp only [h1, h2, if_true, if_false]
        have hz : t.current = 0 := by omega
        rw [hz]
        exact extractL_zero _ (readMore_current _ _ _ _ _)
    · simp only [h1, if_false]
      rcases ht with h0 | hex
      · exact extractL_zero t h0
      · exact hex
  unfold ensure
  cases hb : s.buf with
  | none =>
    cases hc : s.chunks with
    | nil => simpa [hb] using h
    | cons c cs => exact core _ (Or.inl (hs.1 hb))
  | some b => exact core s (Or.inr h)

theorem get_state (s : IterSeq) : (get s).2 = (ensure s 1).2 := by
  unfold get
  rcases h : ensure s 1 with ⟨res, t⟩
  cases res <;> simp

theorem get_chr_of_ne_nil (s : IterSeq) (hs : Inv s) (h : remaining s ≠ []) :
    ∃ c, (get s).1 = .chr c := by
  obtain ⟨_, _, _, _, g5⟩ := get_spec s hs
  cases hr : remaining s with
  | nil => exact absurd hr h
  | cons c r => exact ⟨c, g5 c r hr⟩

theorem get_ne_chr_nil (s : IterSeq) (hs : Inv s) (h : ∀ c, (get s).1 ≠ .chr c) :
    remaining s = [] := by
  by_contra hne
  obtain ⟨c, hc⟩ := get_chr_of_ne_nil s hs hne
  exact h c hc

theorem dropWhile_of_takeWhile_nil (p : Char → Bool) (l : List Char)
    (h : l.takeWhile p = []) : l.dropWhile p = l := by
  cases l with
  | nil => rfl
  | cons c r =>
    have hp : p c = false := takeWhile_nil_head p c r h
    simp [List.dropWhile, hp]

/-! ### The `PatternParser` run specification -/

theorem patternRun_spec (cls : Char → Bool) (k : TK) (s : IterSeq)
    (found isInitial : Bool) (hs : Inv s) :
    Inv (patternRun cls k found isInitial s).2.2 ∧
    litcat (patternRun cls k found isInitial s).1 = (remaining s).takeWhile cls ∧
    remaining (patternRun cls k found isInitial s).2.2 = (remaining s).dropWhile cls ∧
    (patternRun cls k found isInitial s).2.1
      = (found || !((remaining s).takeWhile cls).isEmpty) ∧
    (∀ p ∈ (patternRun cls k found isInitial s).1, p.kind = k) ∧
    (found = true → (patternRun cls k found isInitial s).1 ≠ []) ∧
    ((patternRun cls k found isInitial s).1.countP (fun p => p.isFinal)
      = if (patternRun cls k found isInitial s).1.isEmpty then 0 else 1) := by
  have main : ∀ (n : Nat) (s : IterSeq) (found isInitial : Bool),
      seqMeasure s = n → Inv s →
      Inv (patternRun cls k found isInitial s).2.2 ∧
      litcat (patternRun cls k found isInitial s).1 = (remaining s).takeWhile cls ∧
      remaining (patternRun cls k found isInitial s).2.2 = (remaining s).dropWhile cls ∧
      (patternRun cls k found isInitial s).2.1
        = (found || !((remaining s).takeWhile cls).isEmpty) ∧
      (∀ p ∈ (patternRun cls k found isInitial s).1, p.kind = k) ∧
      (found = true → (patternRun cls k found isInitial s).1 ≠ []) ∧
      ((patternRun cls k found isInitial s).1.countP (fun p => p.isFinal)
        = if (patternRun cls k found isInitial s).1.isEmpty then 0 else 1) := by
    intro n
    induction n using Nat.strong_induction_on with
    | _ n ih =>
    intro s found isInitial hn hs
    obtain ⟨m1, m2, m3, m4, m5, m6⟩ := matching_spec cls s hs
    rcases hm : matching cls s with ⟨mv, t⟩
    rw [hm] at m1 m2 m3 m4 m5 m6
    dsimp only at m1 m2 m3 m4 m5 m6
    by_cases h0 : mv = 0
    · have he : extractL t = [] := m4.mp h0
      obtain ⟨hrem, htw⟩ := m5 h0
      have hdw : (remaining s).dropWhile cls = remaining s :=
        dropWhile_of_takeWhile_nil cls _ htw
      have hp : patternRun cls k found isInitial s =
          (if (if found then false else isInitial) = true then ([], found, t)
           else ([⟨k, extractL t, (if found then false else isInitial), true, none⟩],
             found, t)) := by
        unfold patternRun
        rw [hm]
        simp [h0]
      by_cases hii : (if found then false else isInitial) = true
      · rw [hii] at hp
        simp only [if_true] at hp
        rw [hp]
        have hfd : found = false := by
          cases found
          · rfl
          · simp at hii
        refine ⟨m1, by simp [litcat, htw], by rw [hrem, hdw], ?_, by simp, ?_, by simp⟩
        · simp [htw, hfd]
        · intro hf; rw [hf] at hfd; cases hfd
      · rw [if_neg hii] at hp
        rw [hp]
        refine ⟨m1, by simp [litcat, he, htw], by rw [hrem, hdw], by simp [htw], ?_, ?_, ?_⟩
        · intro p hp'
          simp at hp'
          rw [hp']
        · intro _; simp
        · simp [List.countP_cons]
    · have hne : extractL t ≠ [] := fun hnil => h0 (m4.mpr hnil)
      have htw_eq : (remaining s).takeWhile cls = extractL t ++ (remaining t).takeWhile cls := by
        rw [← m2]
        exact takeWhile_append_all cls _ _ m3
      have hdw_eq : (remaining s).dropWhile cls = (remaining t).dropWhile cls := by
        rw [← m2]
        exact dropWhile_append_all cls _ _ m3
      have htw_ne : (remaining s).takeWhile cls ≠ [] := by
        rw [htw_eq]
        simp [hne]
      by_cases hneg : mv < 0
      · obtain ⟨c, r', hcr, hc⟩ := m6 hneg
        have htw0 : (remaining t).takeWhile cls = [] := by
          rw [hcr]
          simp [List.takeWhile_cons, hc]
        have hdw0 : (remaining t).dropWhile cls = remaining t :=
          dropWhile_of_takeWhile_nil cls _ htw0
        have hp : patternRun cls k found isInitial s =
            ([⟨k, extractL t, (if found then false else isInitial), true, none⟩],
              true, t) := by
          unfold patternRun
          rw [hm]
          simp [h0, hneg]
        rw [hp]
        refine ⟨m1, ?_, ?_, by simp [htw_ne], ?_, ?_, by simp [List.countP_cons]⟩
        · simp [litcat, htw_eq, htw0]
        · rw [hdw_eq, hdw0]
        · intro p hp'
          simp at hp'
          rw [hp']
        · intro _; simp
      · have hpos : 0 < mv := by omega
        have hlt : seqMeasure t < n := by
          rw [← hn]
          have := matching_measure cls s (by rw [hm]; exact fun hc => h0 (by exact_mod_cast hc))
          rw [hm] at this
          exact this
        obtain ⟨i1, i2, i3, i4, i5, i6, i7⟩ :=
          ih (seqMeasure t) hlt t true (if found then false else isInitial) rfl m1
        have hp : patternRun cls k found isInitial s =
            (⟨k, extractL t, (if found then false else isInitial), false, none⟩ ::
              (patternRun cls k true (if found then false else isInitial) t).1,
             (patternRun cls k true (if found then false else isInitial) t).2.1,
             (patternRun cls k true (if found then false else isInitial) t).2.2) := by
          conv_lhs => rw [patternRun]
          rw [hm]
          simp [h0, hneg]
        rw [hp]
        have hr_ne := i6 rfl
        refine ⟨i1, ?_, ?_, ?_, ?_, ?_, ?_⟩
        · simp only [litcat, List.map_cons, List.flatten_cons]
          rw [show ((List.map Tok.lit
            (patternRun cls k true (if found then false else isInitial) t).1).flatten)
            = litcat (patternRun cls k true (if found then false else isInitial) t).1 from rfl]
          rw [i2, htw_eq]
        · rw [i3, hdw_eq]
        · dsimp only
          rw [i4]
          simp [List.isEmpty_iff, htw_ne]
        · intro p hp'
          rcases List.mem_cons.mp hp' with h | h
          · rw [h]
          · exact i5 p h
        · intro _; simp
        · dsimp only
          rw [List.countP_cons, i7]
          have hr_ne2 : (patternRun cls k true (!found && isInitial) t).1 ≠ [] := by
            cases found <;> simpa using hr_ne
          simp [List.isEmpty_iff, hr_ne, hr_ne2]
  exact main (seqMeasure s) s found isInitial rfl hs

/-! ### The `SentinelParser` run specification -/

theorem isChr_get_iff (s : IterSeq) (hs : Inv s) :
    isChr (get s).1 = true ↔ remaining s ≠ [] := by
  obtain ⟨_, _, _, g4, g5⟩ := get_spec s hs
  constructor
  · intro hc hnil
    rcases (g4 hnil).1 with h | h <;> rw [h] at hc <;> simp [isChr] at hc
  · intro hne
    cases hr : remaining s with
    | nil => exact absurd hr hne
    | cons c r => rw [g5 c r hr]; rfl

theorem sentinelRun_spec (sent : List Char) (k : TK) (s : IterSeq)
    (needsFinal isInitial : Bool) (hs : Inv s) (hsent : sent ≠ []) :
    Inv (sentinelRun sent k needsFinal isInitial s).2.2 ∧
    litcat (sentinelRun sent k needsFinal isInitial s).1 ++
      remaining (sentinelRun sent k needsFinal isInitial s).2.2 = remaining s ∧
    ((sentinelRun sent k needsFinal isInitial s).2.1 = true →
      sent.isPrefixOf (remaining (sentinelRun sent k needsFinal isInitial s).2.2) = true) ∧
    ((sentinelRun sent k needsFinal isInitial s).2.1 = false →
      remaining (sentinelRun sent k needsFinal isInitial s).2.2 = []) ∧
    (∀ p ∈ (sentinelRun sent k needsFinal isInitial s).1, p.kind = k) ∧
    (needsFinal = false → sent.isPrefixOf (remaining s) = true →
      (sentinelRun sent k needsFinal isInitial s).1 = [] ∧
      (sentinelRun sent k needsFinal isInitial s).2.1 = true ∧
      remaining (sentinelRun sent k needsFinal isInitial s).2.2 = remaining s) ∧
    (needsFinal = false → remaining s = [] →
      (sentinelRun sent k needsFinal isInitial s).1 = [] ∧
      (sentinelRun sent k needsFinal isInitial s).2.1 = false) := by
  have main : ∀ (n : Nat) (s : IterSeq) (needsFinal isInitial : Bool),
      seqMeasure s = n → Inv s →
      Inv (sentinelRun sent k needsFinal isInitial s).2.2 ∧
      litcat (sentinelRun sent k needsFinal isInitial s).1 ++
        remaining (sentinelRun sent k needsFinal isInitial s).2.2 = remaining s ∧
      ((sentinelRun sent k needsFinal isInitial s).2.1 = true →
        sent.isPrefixOf (remaining (sentinelRun sent k needsFinal isInitial s).2.2) = true) ∧
      ((sentinelRun sent k needsFinal isInitial s).2.1 = false →
        remaining (sentinelRun sent k needsFinal isInitial s).2.2 = []) ∧
      (∀ p ∈ (sentinelRun sent k needsFinal isInitial s).1, p.kind = k) ∧
      (needsFinal = false → sent.isPrefixOf (remaining s) = true →
        (sentinelRun sent k needsFinal isInitial s).1 = [] ∧
        (sentinelRun sent k needsFinal isInitial s).2.1 = true ∧
        remaining (sentinelRun sent k needsFinal isInitial s).2.2 = remaining s) ∧
      (needsFinal = false → remaining s = [] →
        (sentinelRun sent k needsFinal isInitial s).1 = [] ∧
        (sentinelRun sent k needsFinal isInitial s).2.1 = false) := by
    intro n
    induction n using Nat.strong_induction_on with
    | _ n ih =>
    intro s needsFinal isInitial hn hs
    obtain ⟨t1, t2, t3, t4, t5, t6⟩ := matchToSentinel_spec sent s hs hsent
    rcases hm : matchToSentinel sent s with ⟨mv, t⟩
    rw [hm] at t1 t2 t3 t4 t5 t6
    dsimp only at t1 t2 t3 t4 t5 t6
    by_cases h0 : mv = 0
    · obtain ⟨hrem, hex⟩ := t4 h0
      have hgs : (get t).2 = (ensure t 1).2 := get_state t
      have hgx : extractL (get t).2 = [] := by
        rw [hgs]
        exact ensure_keep_extract t 1 t1 hex
      obtain ⟨g1, g2, _, _, _⟩ := get_spec t t1
      have hfiff := isChr_get_iff t t1
      have hp : sentinelRun sent k needsFinal isInitial s =
          (if needsFinal then
            ([⟨k, extractL (get t).2, (if needsFinal then false else isInitial), true,
              none⟩], isChr (get t).1, (get t).2)
          else ([], isChr (get t).1, (get t).2)) := by
        conv_lhs => rw [sentinelRun]
        rw [hm]
        simp [h0]
      have hrg : remaining (get t).2 = remaining s := by rw [g2, hrem]
      cases needsFinal with
      | true =>
        simp at hp
        rw [hp]
        refine ⟨g1, ?_, ?_, ?_, ?_, ?_, ?_⟩
        · simp [litcat, hgx, hrg]
        · intro hf
          rw [hrg]
          have := hfiff.mp hf
          rw [hrem] at this
          rcases t3.mp h0 with hpre | hnil
          · exact hpre
          · exact absurd hnil this
        · intro hf
          rw [hrg, ← hrem]
          by_contra hne
          rw [hfiff.mpr hne] at hf
          cases hf
        · intro p hp'
          simp at hp'
          rw [hp']
        · intro hc; cases hc
        · intro hc; cases hc
      | false =>
        simp at hp
        rw [hp]
        refine ⟨g1, by simpa [litcat] using hrg, ?_, ?_, by simp, ?_, ?_⟩
        · intro hf
          rw [hrg]
          have := hfiff.mp hf
          rw [hrem] at this
          rcases t3.mp h0 with hpre | hnil
          · exact hpre
          · exact absurd hnil this
        · intro hf
          rw [hrg, ← hrem]
          by_contra hne
          rw [hfiff.mpr hne] at hf
          cases hf
        · intro _ hpre
          refine ⟨rfl, ?_, hrg⟩
          have hne : remaining s ≠ [] := by
            intro hnil
            rw [hnil] at hpre
            have := isPrefixOf_length hpre
            simp only [List.length_nil, Nat.le_zero] at this
            exact hsent (List.length_eq_zero.mp this)
          rw [hfiff.mpr (by rw [hrem]; exact hne)]
        · intro _ hnil
          refine ⟨rfl, ?_⟩
          have : remaining t = [] := by rw [hrem, hnil]
          by_contra hf
          have := hfiff.mp (by
            cases hh : isChr (get t).1
            · rw [hh] at hf; exact absurd rfl hf
            · rfl)
          rw [hrem, hnil] at this
          exact this rfl
    · have hpre_no : sent.isPrefixOf (remaining s) ≠ true := by
        intro hpre
        exact h0 (t3.mpr (Or.inl hpre))
      have hnil_no : remaining s ≠ [] := by
        intro hnil
        exact h0 (t3.mpr (Or.inr hnil))
      have hlt : seqMeasure t < n := by
        rw [← hn]
        have := mts_measure sent s (by rw [hm]; exact fun hc => h0 (by exact_mod_cast hc))
        rw [hm] at this
        exact this
      by_cases hneg : mv < 0
      · obtain ⟨i1, i2, i3, i4, i5, _, _⟩ :=
          ih (seqMeasure t) hlt t false (if needsFinal then false else isInitial) rfl t1
        have hp : sentinelRun sent k needsFinal isInitial s =
            (⟨k, extractL t, (if needsFinal then false else isInitial), true, none⟩ ::
              (sentinelRun sent k false (if needsFinal then false else isInitial) t).1,
             (sentinelRun sent k false (if needsFinal then false else isInitial) t).2.1,
             (sentinelRun sent k false (if needsFinal then false else isInitial) t).2.2) := by
          conv_lhs => rw [sentinelRun]
          rw [hm]
          simp [h0, hneg]
        rw [hp]
        refine ⟨i1, ?_, i3, i4, ?_, ?_, ?_⟩
        · simp only [litcat, List.map_cons, List.flatten_cons, List.append_assoc]
          rw [show ((List.map Tok.lit
            (sentinelRun sent k false (if needsFinal then false else isInitial) t).1).flatten)
            = litcat (sentinelRun sent k false (if needsFinal then false else isInitial) t).1
            from rfl]
          rw [i2, t2]
        · intro p hp'
          rcases List.mem_cons.mp hp' with h | h
          · rw [h]
          · exact i5 p h
        · intro _ hpre
          exact absurd hpre hpre_no
        · intro _ hnil
          exact absurd hnil hnil_no
      · obtain ⟨i1, i2, i3, i4, i5, _, _⟩ :=
          ih (seqMeasure t) hlt t true (if needsFinal then false else isInitial) rfl t1
        have hp : sentinelRun sent k needsFinal isInitial s =
            (⟨k, extractL t, (if needsFinal then false else isInitial), false, none⟩ ::
              (sentinelRun sent k true (if needsFinal then false else isInitial) t).1,
             (sentinelRun sent k true (if needsFinal then false else isInitial) t).2.1,
             (sentinelRun sent k true (if needsFinal then false else isInitial) t).2.2) := by
          conv_lhs => rw [sentinelRun]
          rw [hm]
          simp [h0, hneg]
        rw [hp]
        refine ⟨i1, ?_, i3, i4, ?_, ?_, ?_⟩
        · simp only [litcat, List.map_cons, List.flatten_cons, List.append_assoc]
          rw [show ((List.map Tok.lit
            (sentinelRun sent k true (if needsFinal then false else isInitial) t).1).flatten)
            = litcat (sentinelRun sent k true (if needsFinal then false else isInitial) t).1
            from rfl]
          rw [i2, t2]
        · intro p hp'
          rcases List.mem_cons.mp hp' with h | h
          · rw [h]
          · exact i5 p h
        · intro _ hpre
          exact absurd hpre hpre_no
        · intro _ hnil
          exact absurd hnil hnil_no
  exact main (seqMeasure s) s needsFinal isInitial rfl hs

/-! ## The scanner: `TokenScanner.parse` (lex.py 368-527) -/

/-- How a generator run ends: normal completion (`return` /
falling off the end), a `RuntimeError`, the `NotImplementedError` for
declarations, a failed `assert`, or exhaustion of the loop fuel (the
model's bound on outer-loop iterations, never reached by a terminating
run). -/
inductive Outcome where
  | ok
  | rtError (msg : List Char)
  | notImplemented
  | assertFailed
  | outOfFuel
deriving Repr, DecidableEq

/-- Exit status of the attribute `while` loop (lex.py 467-501): either
the loop condition failed with `g` the last `buf.get()` result, or a
`return` / `raise` ended the generator inside the loop body. -/
inductive ALExit where
  | done (g : GetR)
  | halt (o : Outcome)
deriving Repr, DecidableEq

/-- `_CDataOpenTextToken = tokens.CDataOpen(tokens.TextHolder('<![CDATA['))`
(lex.py 46-47): the fixed-literal token the scanner emits when a CDATA
section opens. -/
def cdataOpenTextToken : Tok := mkTok .cdataOpen "<![CDATA[".data

/-- `class CDataOpenToken(SingletonMarkup): literal = '<[CDATA['`
(tokens.py 210-211): the compile-time literal carried by the
fixed-literal CDataOpen token class of tokens.py. -/
def CDataOpenToken_literal : List Char := "<[CDATA[".data

/-- The attribute `while` loop of the start-or-empty-tag branch
(lex.py 467-501).  `wsFound` and `ch` are the loop locals entering the
condition check; pieces are accumulated in emission order. -/
def attrLoop : Nat → Bool → GetR → IterSeq → List Tok × ALExit × IterSeq
  | afuel, wsFound, ch, s =>
    if wsFound && matchesInitialG ch then
      match afuel with
      | 0 => ([], .halt .outOfFuel, s)
      | afuel + 1 =>
        let nm := parseName .attributeName s
        let sp := parseSpace .markupWhitespace nm.2.2
        let g2 := get sp.2.2
        let pre := nm.1 ++ sp.1
        if g2.1 = .chr '=' then
          let s3 := advance g2.2
          let sp2 := parseSpace .markupWhitespace s3
          let g3 := get sp2.2.2
          let pre2 := pre ++ [mkTok .attributeEquals "=".data] ++ sp2.1
          match g3.1 with
          | .chr c =>
            if c = '"' || c = '\'' then
              let openTok := if c = '"' then mkTok .avDoubleOpen "\"".data
                else mkTok .avSingleOpen "'".data
              let closeTok := if c = '"' then mkTok .avDoubleClose "\"".data
                else mkTok .avSingleClose "'".data
              let s4 := advance g3.2
              let su := sentinelRun [c] .attributeValue false true s4
              let sw := startsWith [c] su.2.2
              if sw.1 then
                let sp3 := parseSpace .markupWhitespace sw.2
                let g4 := get sp3.2.2
                let rest := attrLoop afuel sp3.2.1 g4.1 g4.2
                (pre2 ++ [openTok] ++ su.1 ++ [closeTok] ++ sp3.1 ++ rest.1,
                  rest.2.1, rest.2.2)
              else
                (pre2 ++ [openTok] ++ su.1 ++
                  [mkTok .badlyFormedEndOfStream []], .halt .ok, sw.2)
            else (pre2, .halt (.rtError []), g3.2)
          | _ => (pre2 ++ [mkTok .badlyFormedEndOfStream []], .halt .ok, g3.2)
        else
          let rest := attrLoop afuel wsFound g2.1 g2.2
          (pre ++ rest.1, rest.2.1, rest.2.2)
    else ([], .done ch, s)

/-- The `while buf.get() == '<':` loop of `TokenScanner.parse`
(lex.py 372-527), one fuel unit per iteration.  Each iteration ends by
falling through to `parse_space(_WhitespaceContentToken)` and
`parse_until(_PCDataToken, '<')` unless the generator returned or
raised. -/
def parseLoop : Nat → IterSeq → List Tok × Outcome × IterSeq
  | fuel, s =>
    let g := get s
    if g.1 = .chr '<' then
      match fuel with
      | 0 => ([], .outOfFuel, g.2)
      | fuel + 1 =>
        let n1 := next g.2
        let step : (List Tok × IterSeq) ⊕ (List Tok × Outcome × IterSeq) :=
          match n1.1 with
          | .chr ch1 =>
            if ch1 = '/' then
            let n2 := next n1.2
            if matchesInitialG n2.1 then
              let nm := parseName .tagName n2.2
              let sp := parseSpace .markupWhitespace nm.2.2
              let g2 := get sp.2.2
              let pre := mkTok .endTagOpen "</".data :: nm.1 ++ sp.1
              match g2.1 with
              | .chr c =>
                if c = '>' then
                  .inl (pre ++ [mkTok .endTagClose ">".data], advance g2.2)
                else .inr (pre, .rtError "extra data in close tag".data, g2.2)
              | _ =>
                .inr (pre ++ [mkTok .badlyFormedEndOfStream []], .ok, g2.2)
            else
              .inl ([mkTok .badlyFormedLessThan "<".data, mkTok .pcdata "/".data],
                n2.2)
            else if ch1 = '?' then
            let n2 := next n1.2
            if matchesInitialG n2.1 then
              let nm := parseName .piTarget n2.2
              let sp := parseSpace .markupWhitespace nm.2.2
              let pre := mkTok .piOpen "<?".data :: nm.1 ++ sp.1
              if sp.2.1 then
                let su := sentinelRun "?>".data .piData false true sp.2.2
                let sw := startsWith "?>".data su.2.2
                if sw.1 then
                  if su.2.1 then
                    .inl (pre ++ su.1 ++ [mkTok .piClose "?>".data], sw.2)
                  else .inr (pre ++ su.1, .assertFailed, sw.2)
                else
                  if su.2.1 then .inr (pre ++ su.1, .assertFailed, sw.2)
                  else .inr (pre ++ su.1 ++ [mkTok .badlyFormedEndOfStream []],
                    .ok, sw.2)
              else
                let g2 := get sp.2.2
                if isChr g2.1 then
                  let sw := startsWith "?>".data g2.2
                  if sw.1 then .inl (pre ++ [mkTok .piClose "?>".data], sw.2)
                  else .inr (pre, .rtError "Expected ?>".data, sw.2)
                else .inr (pre ++ [mkTok .badlyFormedEndOfStream []], .ok, g2.2)
            else
              .inl ([mkTok .badlyFormedLessThan "<".data, mkTok .pcdata "?".data],
                n2.2)
            else if ch1 = '!' then
            let n2 := next n1.2
            match n2.1 with
            | .chr ch2 =>
              if ch2 = '-' then
              let n3 := next n2.2
              if n3.1 = .chr '-' then
                let s2 := advance n3.2
                let su := sentinelRun "-->".data .commentData false true s2
                let sw := startsWith "-->".data su.2.2
                if sw.1 then
                  .inl (mkTok .commentOpen "<!--".data :: su.1 ++
                    [mkTok .commentClose "-->".data], sw.2)
                else
                  .inr (mkTok .commentOpen "<!--".data :: su.1 ++
                    [mkTok .badlyFormedEndOfStream []], .ok, sw.2)
              else
                .inl ([mkTok .badlyFormedLessThan "<".data, mkTok .pcdata "!-".data],
                  n3.2)
              else if ch2 = '[' then
              let s2 := advance n2.2
              let sw := startsWith "CDATA[".data s2
              if sw.1 then
                let su := sentinelRun "]]>".data .cdata false true sw.2
                let sw2 := startsWith "]]>".data su.2.2
                if sw2.1 then
                  .inl (cdataOpenTextToken :: su.1 ++
                    [mkTok .cdataClose "]]>".data], sw2.2)
                else
                  if su.2.1 then .inr (cdataOpenTextToken :: su.1, .assertFailed, sw2.2)
                  else
                    let g2 := get sw2.2
                    if isChr g2.1 then
                      .inr (cdataOpenTextToken :: su.1, .assertFailed, g2.2)
                    else
                      .inr (cdataOpenTextToken :: su.1 ++
                        [mkTok .badlyFormedEndOfStream []], .ok, g2.2)
              else .inr ([], .notImplemented, sw.2)
              else
                .inl ([mkTok .badlyFormedLessThan "<".data, mkTok .pcdata "!".data],
                  n2.2)
            | _ =>
              .inl ([mkTok .badlyFormedLessThan "<".data, mkTok .pcdata "!".data],
                n2.2)
            else if isNameInitial ch1 then
              let nm := parseName .tagName n1.2
              if nm.2.1 then
                let sp := parseSpace .markupWhitespace nm.2.2
                let g2 := get sp.2.2
                let pre := mkTok .startOrEmptyTagOpen "<".data :: nm.1 ++ sp.1
                let al := attrLoop fuel sp.2.1 g2.1 g2.2
                match al.2.1 with
                | .halt o => .inr (pre ++ al.1, o, al.2.2)
                | .done gd =>
                  match gd with
                  | .chr c2 =>
                    if c2 = '>' then
                      .inl (pre ++ al.1 ++ [mkTok .startTagClose ">".data],
                        advance al.2.2)
                    else if c2 = '/' then
                      let n3 := next al.2.2
                      match n3.1 with
                      | .chr c3 =>
                        if c3 = '>' then
                          .inl (pre ++ al.1 ++ [mkTok .emptyTagClose "/>".data],
                            advance n3.2)
                        else .inr (pre ++ al.1, .rtError "Expected />".data, n3.2)
                      | _ =>
                        .inr (pre ++ al.1 ++
                          [mkTok .badlyFormedEndOfStream "/".data], .ok, n3.2)
                    else
                      .inr (pre ++ al.1,
                        .rtError "Expected whitespace, >, or />".data, al.2.2)
                  | _ =>
                    .inr (pre ++ al.1 ++ [mkTok .badlyFormedEndOfStream []],
                      .ok, al.2.2)
              else
                .inr (mkTok .startOrEmptyTagOpen "<".data :: nm.1,
                  .rtError "Expected tag name".data, nm.2.2)
            else .inl ([mkTok .badlyFormedLessThan "<".data], n1.2)
          | _ => .inl ([mkTok .badlyFormedLessThan "<".data], n1.2)
        match step with
        | .inr halt => halt
        | .inl (ps, s1) =>
          let sp := parseSpace .whitespaceContent s1
          let pu := sentinelRun "<".data .pcdata false true sp.2.2
          let lp := parseLoop fuel pu.2.2
          (ps ++ sp.1 ++ pu.1 ++ lp.1, lp.2.1, lp.2.2)
    else ([], .ok, g.2)

/-- `TokenScanner.parse` (lex.py 368-527): leading markup whitespace,
content up to the first `<`, then the markup loop. -/
def parse (fuel : Nat) (s : IterSeq) : List Tok × Outcome × IterSeq :=
  let sp := parseSpace .markupWhitespace s
  let pu := sentinelRun "<".data .pcdata false true sp.2.2
  let lp := parseLoop fuel pu.2.2
  (sp.1 ++ pu.1 ++ lp.1, lp.2.1, lp.2.2)

/-! ## The namespace filter: `NamespaceTokenScanner.insert_namespace_tokens`
(nslex.py 51-133)

The filter runs over the already-materialised token pieces of the
underlying lexer.  Python's `token_stream.next()` on an exhausted
generator raises `StopIteration`, which PEP 479 converts to a
`RuntimeError` inside the generator; that is the `streamEnded` error.
-/

/-- How the namespace filter ends: success, one of the two
`RuntimeError('... too long')` limits, a `RuntimeError` from an
exhausted stream (PEP 479), a failed `assert`, or fuel exhaustion (the
model's recursion bound, never reached by a terminating run). -/
inductive NsErr where
  | nameTooLong
  | urlTooLong
  | streamEnded
  | assertFailed
  | outOfFuel
deriving Repr, DecidableEq

/-- The namespace-identifier tokens the filter synthesises.
`_NamespaceDefaultTextToken` carries the literal `''`;
`_NamespacePrefixToken` / `_NamespaceUriToken` are materialised by
`text.set('', content=...)`, so their literal is `''` and their content
is the prefix / URI. -/
def nsDefaultTok : Tok := ⟨.namespaceDefault, [], true, true, none⟩

def nsPrefixTokOf (pref : List Char) : Tok := ⟨.namespacePrefixTok, [], true, true, some pref⟩

def nsUriTokOf (uri : List Char) : Tok := ⟨.namespaceUri, [], true, true, some uri⟩

/-- Modelled from the spec: the cache loop runs
`while not isinstance(token, tokens.StartOrEmptyTagClose)`
(nslex.py 57) against a token-class hierarchy that is not part of this
source tree (this tree's tokens.py is an older model without a
`StartOrEmptyTagClose` class).  Following the spec's description of the
cached-tag pass, the loop ends at the tag-closing tokens
`StartTagClose` / `EmptyTagClose`; the repository's tests
(tests/test_nslex.py, `test_short_start_tag` and the other truncated-tag
cases) show that a `BadlyFormedEndOfStream` token also flushes the
cache and ends the tag, so it is included as a terminator. -/
def isTagTerminator (t : Tok) : Bool :=
  t.kind = .startTagClose || t.kind = .emptyTagClose ||
    t.kind = .badlyFormedEndOfStream

/-- `xmlns_name_limit = 512`, `xmlns_url_limit = 2048` (nslex.py 40-41). -/
def xmlnsNameLimit : Nat := 512

def xmlnsUrlLimit : Nat := 2048

mutual

/-- The `for token in token_stream:` loop (nslex.py 53-133): cache a
start-or-empty tag when one opens, otherwise pass the token through. -/
def insertNS : Nat → List Tok → Except NsErr (List Tok)
  | 0, _ => .error .outOfFuel
  | _ + 1, [] => .ok []
  | fuel + 1, t :: rest =>
    if t.kind = .startOrEmptyTagOpen then
      match rest with
      | [] => .error .streamEnded
      | t1 :: rest1 => tagLoop fuel [] [t] t1 rest1
    else
      match insertNS fuel rest with
      | .error e => .error e
      | .ok tail => .ok (t :: tail)

/-- The `while not isinstance(token, StartOrEmptyTagClose)` cache loop
(nslex.py 57-128).  `events` are the namespace tokens already yielded
for this tag, `cached` the cached clones. -/
def tagLoop : Nat → List Tok → List Tok → Tok → List Tok → Except NsErr (List Tok)
  | 0, _, _, _, _ => .error .outOfFuel
  | fuel + 1, events, cached, token, stream =>
    if isTagTerminator token then
      match insertNS fuel stream with
      | .error e => .error e
      | .ok tail => .ok (events ++ cached ++ token :: tail)
    else if token.kind = .attributeName then
      match stream with
      | [] => .error .streamEnded
      | t1 :: rest1 => nameLoop fuel events (cached ++ [token]) token.lit t1 rest1
    else
      match stream with
      | [] => .error .streamEnded
      | t1 :: rest1 => tagLoop fuel events (cached ++ [token]) t1 rest1

/-- The `while isinstance(token, AttributeName)` accumulation loop
(nslex.py 63-69): later pieces are appended to `name`, with the
512-unit check after each appended piece. -/
def nameLoop : Nat → List Tok → List Tok → List Char → Tok → List Tok →
    Except NsErr (List Tok)
  | 0, _, _, _, _, _ => .error .outOfFuel
  | fuel + 1, events, cached, name, token, stream =>
    if token.kind = .attributeName then
      let name2 := name ++ token.lit
      if xmlnsNameLimit < name2.length then .error .nameTooLong
      else
        match stream with
        | [] => .error .streamEnded
        | t1 :: rest1 => nameLoop fuel events (cached ++ [token]) name2 t1 rest1
    else
      if "xmlns".data.isPrefixOf name then xmWs1 fuel events cached name token stream
      else tagLoop fuel events cached token stream

/-- Whitespace before `=` in an xmlns declaration (nslex.py 71-81). -/
def xmWs1 : Nat → List Tok → List Tok → List Char → Tok → List Tok →
    Except NsErr (List Tok)
  | 0, _, _, _, _, _ => .error .outOfFuel
  | fuel + 1, events, cached, name, token, stream =>
    if token.kind = .markupWhitespace then
      match stream with
      | [] => .error .streamEnded
      | t1 :: rest1 => xmWs1 fuel events (cached ++ [token]) name t1 rest1
    else if token.kind = .badlyFormedEndOfStream then
      match insertNS fuel stream with
      | .error e => .error e
      | .ok tail => .ok (events ++ cached ++ token :: tail)
    else if token.kind = .attributeEquals then
      match stream with
      | [] => .error .streamEnded
      | t1 :: rest1 => xmWs2 fuel events (cached ++ [token]) name t1 rest1
    else .error .assertFailed

/-- Whitespace before the opening quote in an xmlns declaration
(nslex.py 83-94). -/
def xmWs2 : Nat → List Tok → List Tok → List Char → Tok → List Tok →
    Except NsErr (List Tok)
  | 0, _, _, _, _, _ => .error .outOfFuel
  | fuel + 1, events, cached, name, token, stream =>
    if token.kind = .markupWhitespace then
      match stream with
      | [] => .error .streamEnded
      | t1 :: rest1 => xmWs2 fuel events (cached ++ [token]) name t1 rest1
    else if token.kind = .badlyFormedEndOfStream then
      match insertNS fuel stream with
      | .error e => .error e
      | .ok tail => .ok (events ++ cached ++ token :: tail)
    else if token.kind = .avDoubleOpen || token.kind = .avSingleOpen then
      match stream with
      | [] => .error .streamEnded
      | t1 :: rest1 => valueLoop fuel events (cached ++ [token]) name [] t1 rest1
    else .error .assertFailed

/-- The `while isinstance(token, AttributeValue)` value accumulation
(nslex.py 95-124), with the 2048-unit check after every piece, followed
by the close-quote assert and the namespace-event yields. -/
def valueLoop : Nat → List Tok → List Tok → List Char → List Char → Tok →
    List Tok → Except NsErr (List Tok)
  | 0, _, _, _, _, _, _ => .error .outOfFuel
  | fuel + 1, events, cached, name, value, token, stream =>
    if token.kind = .attributeValue then
      let value2 := value ++ token.lit
      if xmlnsUrlLimit < value2.length then .error .urlTooLong
      else
        match stream with
        | [] => .error .streamEnded
        | t1 :: rest1 => valueLoop fuel events (cached ++ [token]) name value2 t1 rest1
    else if token.kind = .badlyFormedEndOfStream then
      match insertNS fuel stream with
      | .error e => .error e
      | .ok tail => .ok (events ++ cached ++ token :: tail)
    else if token.kind = .avDoubleClose || token.kind = .avSingleClose then
      if name = "xmlns".data then
        match stream with
        | [] => .error .streamEnded
        | t1 :: rest1 =>
          tagLoop fuel (events ++ [nsDefaultTok, nsUriTokOf value])
            (cached ++ [token]) t1 rest1
      else
        match name.drop 5 with
        | [] => .error .assertFailed
        | c :: pref =>
          if c = ':' then
            match stream with
            | [] => .error .streamEnded
            | t1 :: rest1 =>
              tagLoop fuel (events ++ [nsPrefixTokOf pref, nsUriTokOf value])
                (cached ++ [token]) t1 rest1
          else .error .assertFailed
    else .error .assertFailed

end

/-! ## Further buffer composition lemmas -/

theorem litcat_append (a b : List Tok) : litcat (a ++ b) = litcat a ++ litcat b := by
  simp [litcat]

theorem get_chr_cons (t : IterSeq) (ht : Inv t) (d : Char) (h : (get t).1 = .chr d) :
    ∃ r, remaining t = d :: r := by
  obtain ⟨_, _, _, g4, g5⟩ := get_spec t ht
  cases hr : remaining t with
  | nil =>
    rcases (g4 hr).1 with hg | hg <;> rw [hg] at h <;> cases h
  | cons c r =>
    have := g5 c r hr
    rw [this] at h
    cases h
    exact ⟨r, rfl⟩

theorem next_chr_cons (s : IterSeq) (hs : Inv s) (c : Char) (r : List Char)
    (hrem : remaining s = c :: r) (d : Char) (h : (next s).1 = .chr d) :
    ∃ r2, r = d :: r2 ∧ remaining (next s).2 = d :: r2 := by
  obtain ⟨a1, _, a3, _⟩ := advance_spec s hs
  obtain ⟨hr, _⟩ := a3 c r hrem
  obtain ⟨r2, hr2⟩ := get_chr_cons (advance s) a1 d h
  rw [hr] at hr2
  exact ⟨r2, hr2, by unfold next; rw [(get_spec (advance s) a1).2.1, hr, hr2]⟩

/-- The relation between the loop local `ch = buf.get()` and the buffer
state it was read from. -/
def GRel (g : GetR) (s : IterSeq) : Prop :=
  (∀ c, g = .chr c → ∃ r, remaining s = c :: r) ∧
  ((∀ c, g ≠ .chr c) → remaining s = [])

theorem get_GRel (s : IterSeq) (hs : Inv s) : GRel (get s).1 (get s).2 := by
  obtain ⟨g1, g2, _, g4, g5⟩ := get_spec s hs
  constructor
  · intro c hc
    obtain ⟨r, hr⟩ := get_chr_cons s hs c hc
    exact ⟨r, by rw [g2, hr]⟩
  · intro hnc
    rw [g2]
    by_contra hne
    cases hr : remaining s with
    | nil => exact hne hr
    | cons c r => exact hnc c (g5 c r hr)

/-! ## Claim C10 -/

/-- C10: `IterableAsSequence.get` never raises at end-of-stream.  It
consumes nothing (the unread content is unchanged), and at end-of-stream
it returns `None` exactly when the upstream iterator produced no chunk
at all, the empty slice otherwise; both are falsy and distinct from
every code unit. -/
theorem C10_get_no_raise (s : IterSeq) (hs : Inv s) :
    remaining (get s).2 = remaining s ∧
    (remaining s = [] →
      ((get s).1 = .noBuf ∨ (get s).1 = .eos) ∧
      ((get s).1 = .noBuf ↔ s.buf = none ∧ s.chunks = []) ∧
      isChr (get s).1 = false) ∧
    (∀ c r, remaining s = c :: r → (get s).1 = .chr c) := by
  obtain ⟨g1, g2, _, g4, g5⟩ := get_spec s hs
  refine ⟨g2, ?_, g5⟩
  intro hnil
  obtain ⟨hor, hiff⟩ := g4 hnil
  refine ⟨hor, hiff, ?_⟩
  rcases hor with h | h <;> rw [h] <;> rfl

theorem C10_get_no_raise_witness :
    remaining (get (ofChunks [])).2 = remaining (ofChunks []) ∧
    (remaining (ofChunks []) = [] →
      ((get (ofChunks [])).1 = .noBuf ∨ (get (ofChunks [])).1 = .eos) ∧
      ((get (ofChunks [])).1 = .noBuf ↔ (ofChunks []).buf = none ∧ (ofChunks []).chunks = []) ∧
      isChr (get (ofChunks [])).1 = false) ∧
    (∀ c r, remaining (ofChunks []) = c :: r → (get (ofChunks [])).1 = .chr c) :=
  C10_get_no_raise (ofChunks []) (by constructor <;> simp [ofChunks, Inv])

/-! ## Claim C3 -/

/-- C3: `match_to_sentinel` returns a positive `n` for `n` units of
content up to the window end with the sentinel not yet located (the
cursor is left before the longest window suffix that is a proper prefix
of the sentinel, so the next call can rescan across the chunk
boundary), a negative value of magnitude `n` for `n` units of content
followed by the sentinel or end-of-stream, and `0` when the sentinel or
end-of-stream is immediately at the cursor; the sentinel itself is
never consumed. -/
theorem C3_match_to_sentinel (sent : List Char) (s : IterSeq) (hs : Inv s)
    (hsent : sent ≠ []) :
    extractL (matchToSentinel sent s).2 ++ remaining (matchToSentinel sent s).2 =
      remaining s ∧
    ((matchToSentinel sent s).1 = 0 ↔
      sent.isPrefixOf (remaining s) = true ∨ remaining s = []) ∧
    ((matchToSentinel sent s).1 = 0 → remaining (matchToSentinel sent s).2 = remaining s) ∧
    ((matchToSentinel sent s).1 < 0 →
      ((extractL (matchToSentinel sent s).2).length : Int) = -(matchToSentinel sent s).1 ∧
      (sent.isPrefixOf (remaining (matchToSentinel sent s).2) = true ∨
        remaining (matchToSentinel sent s).2 = [])) ∧
    (0 < (matchToSentinel sent s).1 →
      ((extractL (matchToSentinel sent s).2).length : Int) = (matchToSentinel sent s).1 ∧
      ∃ b k, (matchToSentinel sent s).2.buf = some b ∧
        (∀ m, (matchToSentinel sent s).2.start ≤ m → ¬ sent.isPrefixOf (b.drop m) = true) ∧
        k < sent.length ∧
        b.drop (matchToSentinel sent s).2.current = sent.take k ∧
        (∀ k', k' < sent.length → (sent.take k').isSuffixOf b = true → k' ≤ k)) := by
  obtain ⟨t1, t2, t3, t4, t5, t6⟩ := matchToSentinel_spec sent s hs hsent
  refine ⟨t2, t3, fun h => (t4 h).1, fun h => ⟨(t5 h).2.1, (t5 h).2.2⟩, ?_⟩
  intro h
  obtain ⟨hlen, b, k, hb, _, _, _, hnp, hk, hdrop, hmax⟩ := t6 h
  exact ⟨hlen, b, k, hb, hnp, hk, hdrop, hmax⟩

theorem C3_match_to_sentinel_witness :
    extractL (matchToSentinel ['b'] (ofChunks [['a', 'b']])).2 ++
      remaining (matchToSentinel ['b'] (ofChunks [['a', 'b']])).2 =
      remaining (ofChunks [['a', 'b']]) ∧
    ((matchToSentinel ['b'] (ofChunks [['a', 'b']])).1 = 0 ↔
      List.isPrefixOf ['b'] (remaining (ofChunks [['a', 'b']])) = true ∨
      remaining (ofChunks [['a', 'b']]) = []) :=
  have h := C3_match_to_sentinel ['b'] (ofChunks [['a', 'b']])
    (by constructor <;> simp [ofChunks, Inv]) (by simp)
  ⟨h.1, h.2.1⟩

/-! ## Claim C4 -/

/-- C4: sentinel non-consumption.  When a `SentinelParser` run ends with
outcome `found`, the buffer's `get()` returns the first character of
the sentinel; when `starts_with(p)` returns true the buffer has
advanced exactly past `p`, so `extract()` returns `p` and `get()`
returns the first code unit past `p`; when it returns false nothing is
consumed. -/
theorem C4_sentinel_nonconsumption (c : Char) (rest : List Char) (k : TK)
    (p : List Char) (s t : IterSeq) (hs : Inv s) (ht : Inv t) (hp : p ≠ []) :
    ((sentinelRun (c :: rest) k false true s).2.1 = true →
      (get (sentinelRun (c :: rest) k false true s).2.2).1 = .chr c) ∧
    ((startsWith p t).1 = true →
      extract (startsWith p t).2 = some p ∧
      remaining t = p ++ remaining (startsWith p t).2 ∧
      (∀ d r, remaining (startsWith p t).2 = d :: r →
        (get (startsWith p t).2).1 = .chr d)) ∧
    ((startsWith p t).1 = false → remaining (startsWith p t).2 = remaining t) := by
  obtain ⟨r1, _, r3, _, _, _, _⟩ :=
    sentinelRun_spec (c :: rest) k s false true hs (by simp)
  obtain ⟨w1, _, w3, w4⟩ := startsWith_spec p t ht hp
  refine ⟨?_, ?_, w4⟩
  · intro hf
    have hpre := r3 hf
    cases hr : remaining (sentinelRun (c :: rest) k false true s).2.2 with
    | nil => rw [hr] at hpre; simp [List.isPrefixOf] at hpre
    | cons d r2 =>
      rw [hr] at hpre
      simp only [List.isPrefixOf, Bool.and_eq_true, beq_iff_eq] at hpre
      rw [← hpre.1] at hr
      exact (get_spec _ r1).2.2.2.2 c r2 hr
  · intro hf
    obtain ⟨hex, hrem⟩ := w3 hf
    refine ⟨hex, hrem, ?_⟩
    intro d r hr
    exact (get_spec _ w1).2.2.2.2 d r hr

theorem C4_sentinel_nonconsumption_witness :
    ((sentinelRun ['<'] .pcdata false true (ofChunks [['a', '<', 'b']])).2.1 = true →
      (get (sentinelRun ['<'] .pcdata false true (ofChunks [['a', '<', 'b']])).2.2).1 =
        .chr '<') ∧
    ((startsWith ['a'] (ofChunks [['a', 'b']])).1 = true →
      extract (startsWith ['a'] (ofChunks [['a', 'b']])).2 = some ['a'] ∧
      remaining (ofChunks [['a', 'b']]) =
        ['a'] ++ remaining (startsWith ['a'] (ofChunks [['a', 'b']])).2 ∧
      (∀ d r, remaining (startsWith ['a'] (ofChunks [['a', 'b']])).2 = d :: r →
        (get (startsWith ['a'] (ofChunks [['a', 'b']])).2).1 = .chr d)) ∧
    ((startsWith ['a'] (ofChunks [['a', 'b']])).1 = false →
      remaining (startsWith ['a'] (ofChunks [['a', 'b']])).2 =
        remaining (ofChunks [['a', 'b']])) :=
  C4_sentinel_nonconsumption '<' [] .pcdata ['a'] (ofChunks [['a', '<', 'b']])
    (ofChunks [['a', 'b']]) (by constructor <;> simp [ofChunks, Inv])
    (by constructor <;> simp [ofChunks, Inv]) (by simp)

/-! ## Claim C7 -/

/-- C7: the spec says the fixed-literal CDataOpen token carries the
constant `"<![CDATA["`.  The scanner's pre-allocated instance
(lex.py 46) does, and scanning a CDATA section emits it; but the
fixed-literal token class `CDataOpenToken` of tokens.py 210-211 carries
`'<[CDATA['` — the `'!'` is missing, so the class constant contradicts
both the spec and the scanner. -/
theorem C7_cdata_open_literal :
    cdataOpenTextToken.lit = "<![CDATA[".data ∧
    (parse 1 (ofChunks ["<![CDATA[x]]>".data])).1.head? = some cdataOpenTextToken ∧
    CDataOpenToken_literal ≠ "<![CDATA[".data ∧
    CDataOpenToken_literal ≠ cdataOpenTextToken.lit := by
  refine ⟨rfl, ?_, by decide, by decide⟩
  simp [parse, parseLoop, patternRun, sentinelRun, parseSpace, parseUntil, matching,
    matchToSentinel, ensure, ensureCore, readMore, get, advance, next, extract,
    extractL, strFind, overlapAux, overlapLen, startsWith, isChr, matchesInitialG,
    isNameInitial, isWordCh, isSpaceCh, mkTok, ofChunks, cdataOpenTextToken]

/-! ## Claim C6 -/

theorem parseLoop_declaration (fuel : Nat) (s : IterSeq) (hs : Inv s) (rest : List Char)
    (hrem : remaining s = '<' :: '!' :: '[' :: rest)
    (hnp : "CDATA[".data.isPrefixOf rest = false) :
    (parseLoop (fuel + 1) s).2.1 = .notImplemented := by
  obtain ⟨g1, g2, _, _, g5⟩ := get_spec s hs
  rcases hg : get s with ⟨gv, s1⟩
  rw [hg] at g1 g2 g5
  dsimp only at g1 g2 g5
  have hgv : gv = .chr '<' := g5 '<' _ hrem
  subst hgv
  have hrem1 : remaining s1 = '<' :: '!' :: '[' :: rest := by rw [g2, hrem]
  obtain ⟨a1, a2, _⟩ := next_spec s1 g1
  rcases hn1 : next s1 with ⟨nv, s2⟩
  rw [hn1] at a1 a2
  dsimp only at a1 a2
  obtain ⟨hrem2, _, hchr⟩ := a2 '<' _ hrem1
  have hnv : nv = .chr '!' := hchr '!' _ rfl
  subst hnv
  obtain ⟨b1, b2, _⟩ := next_spec s2 a1
  rcases hn2 : next s2 with ⟨mv, s3⟩
  rw [hn2] at b1 b2
  dsimp only at b1 b2
  obtain ⟨hrem3, _, hchr2⟩ := b2 '!' _ hrem2
  have hmv : mv = .chr '[' := hchr2 '[' _ rfl
  subst hmv
  obtain ⟨c1, _, c3, _⟩ := advance_spec s3 b1
  obtain ⟨hrem4, _⟩ := c3 '[' _ hrem3
  obtain ⟨_, w2, _, _⟩ := startsWith_spec "CDATA[".data (advance s3) c1 (by decide)
  rcases hsw : startsWith "CDATA[".data (advance s3) with ⟨swv, s4⟩
  rw [hsw] at w2
  dsimp only at w2
  have hswf : swv = false := by
    cases hswv : swv
    · rfl
    · rw [hswv] at w2
      rw [hrem4] at w2
      rw [w2.mp rfl] at hnp
      cases hnp
  subst hswf
  rw [parseLoop]
  rw [hg]
  dsimp only
  rw [if_pos rfl]
  rw [hn1]
  dsimp only
  rw [if_neg (by decide), if_neg (by decide), if_pos rfl]
  rw [hn2]
  dsimp only
  rw [if_neg (by decide), if_pos rfl]
  rw [hsw]
  simp

/-- C6 (corrected): the scanner raises its not-implemented error exactly
for a `<![` opener whose continuation is not `CDATA[`; a `<!` construct
that is neither a comment nor `<![...` — `<!DOCTYPE` in particular — is
recovered as badly-formed content instead of signalling
not-implemented. -/
theorem C6_declaration_not_implemented (fuel : Nat) (rest : List Char)
    (hnp : "CDATA[".data.isPrefixOf rest = false) :
    (parse (fuel + 1) (ofChunks ['<' :: '!' :: '[' :: rest])).2.1 = .notImplemented := by
  have hs0 : Inv (ofChunks ['<' :: '!' :: '[' :: rest]) := by
    constructor <;> simp [ofChunks]
  have hrem0 : remaining (ofChunks ['<' :: '!' :: '[' :: rest]) =
      '<' :: '!' :: '[' :: rest := by
    simp [remaining, ofChunks]
  obtain ⟨p1, _, p3, _, _, _, _⟩ :=
    patternRun_spec isSpaceCh .markupWhitespace (ofChunks ['<' :: '!' :: '[' :: rest])
      false true hs0
  rw [hrem0] at p3
  have hdw : List.dropWhile isSpaceCh ('<' :: '!' :: '[' :: rest) =
      '<' :: '!' :: '[' :: rest := by
    rw [List.dropWhile_cons_of_neg]
    decide
  rw [hdw] at p3
  obtain ⟨q1, _, _, _, _, q6, _⟩ :=
    sentinelRun_spec "<".data .pcdata
      (patternRun isSpaceCh .markupWhitespace false true
        (ofChunks ['<' :: '!' :: '[' :: rest])).2.2 false true p1 (by decide)
  obtain ⟨_, _, hqr⟩ := q6 rfl (by rw [p3]; rfl)
  have hproj : (parse (fuel + 1) (ofChunks ['<' :: '!' :: '[' :: rest])).2.1 =
      (parseLoop (fuel + 1)
        (sentinelRun "<".data .pcdata false true
          (patternRun isSpaceCh .markupWhitespace false true
            (ofChunks ['<' :: '!' :: '[' :: rest])).2.2).2.2).2.1 := rfl
  rw [hproj]
  exact parseLoop_declaration fuel _ q1 rest (by rw [hqr, p3]) hnp

theorem C6_declaration_not_implemented_witness :
    (parse 1 (ofChunks ['<' :: '!' :: '[' :: "DOC".data])).2.1 = .notImplemented :=
  C6_declaration_not_implemented 0 "DOC".data (by decide)

theorem C6_counterexample :
    (parse 1 (ofChunks ["<!DOCTYPE x>".data])).2.1 = .ok ∧
    (parse 1 (ofChunks ["<!DOCTYPE x>".data])).2.1 ≠ .notImplemented := by
  constructor <;>
  simp [parse, parseLoop, patternRun, sentinelRun, parseSpace, parseUntil, matching,
    matchToSentinel, ensure, ensureCore, readMore, get, advance, next, extract,
    extractL, strFind, overlapAux, overlapLen, startsWith, isChr, matchesInitialG,
    isNameInitial, isWordCh, isSpaceCh, mkTok, ofChunks]

/-! ## Claim C5 -/

theorem parseLoop_empty (fuel : Nat) (s : IterSeq) (hs : Inv s)
    (hrem : remaining s = []) : parseLoop fuel s = ([], .ok, (get s).2) := by
  obtain ⟨_, _, _, g4, _⟩ := get_spec s hs
  rcases hg : get s with ⟨gv, s1⟩
  rw [hg] at g4
  dsimp only at g4
  have hne : ¬ gv = .chr '<' := by
    rcases (g4 hrem).1 with h | h <;> rw [h] <;> intro hc <;> cases hc
  rw [parseLoop.eq_def]
  dsimp only
  rw [hg]
  dsimp only
  rw [if_neg hne]

/-- C5: a non-empty input of whitespace code units only (space, tab, CR,
LF), in any chunking, scans to markup-whitespace pieces only: the run
is non-empty, its literals concatenate to the input, exactly one piece
carries `is_final` (one logical MarkupWhitespace token), and the
generator then completes without emitting anything further. -/
theorem C5_whitespace_only (fuel : Nat) (chunks : List (List Char))
    (hne : chunks.flatten ≠ [])
    (hws : ∀ c ∈ chunks.flatten, isSpaceCh c = true) :
    (parse fuel (ofChunks chunks)).2.1 = .ok ∧
    (∀ p ∈ (parse fuel (ofChunks chunks)).1, p.kind = .markupWhitespace) ∧
    (parse fuel (ofChunks chunks)).1 ≠ [] ∧
    litcat (parse fuel (ofChunks chunks)).1 = chunks.flatten ∧
    (parse fuel (ofChunks chunks)).1.countP (fun p => p.isFinal) = 1 := by
  have hs0 : Inv (ofChunks chunks) := by constructor <;> simp [ofChunks]
  have hrem0 : remaining (ofChunks chunks) = chunks.flatten := by
    simp [remaining, ofChunks]
  obtain ⟨p1, p2, p3, _, p5, _, p7⟩ :=
    patternRun_spec isSpaceCh .markupWhitespace (ofChunks chunks) false true hs0
  rw [hrem0] at p2 p3
  have htw : List.takeWhile isSpaceCh chunks.flatten = chunks.flatten := by
    have := takeWhile_append_all isSpaceCh chunks.flatten [] hws
    simpa using this
  have hdw : List.dropWhile isSpaceCh chunks.flatten = [] := by
    have := dropWhile_append_all isSpaceCh chunks.flatten [] hws
    simpa using this
  rw [htw] at p2
  rw [hdw] at p3
  obtain ⟨q1, _, _, _, _, _, q7⟩ :=
    sentinelRun_spec "<".data .pcdata
      (patternRun isSpaceCh .markupWhitespace false true (ofChunks chunks)).2.2
      false true p1 (by decide)
  obtain ⟨hq_nil, hq_found⟩ := q7 rfl p3
  obtain ⟨_, _, _, q4, _, _, _⟩ :=
    sentinelRun_spec "<".data .pcdata
      (patternRun isSpaceCh .markupWhitespace false true (ofChunks chunks)).2.2
      false true p1 (by decide)
  have hq_rem := q4 hq_found
  have hlp := parseLoop_empty fuel _ q1 hq_rem
  have hproj : parse fuel (ofChunks chunks) =
      ((patternRun isSpaceCh .markupWhitespace false true (ofChunks chunks)).1 ++
        (sentinelRun "<".data .pcdata false true
          (patternRun isSpaceCh .markupWhitespace false true (ofChunks chunks)).2.2).1 ++
        (parseLoop fuel
          (sentinelRun "<".data .pcdata false true
            (patternRun isSpaceCh .markupWhitespace false true
              (ofChunks chunks)).2.2).2.2).1,
       (parseLoop fuel
          (sentinelRun "<".data .pcdata false true
            (patternRun isSpaceCh .markupWhitespace false true
              (ofChunks chunks)).2.2).2.2).2.1,
       (parseLoop fuel
          (sentinelRun "<".data .pcdata false true
            (patternRun isSpaceCh .markupWhitespace false true
              (ofChunks chunks)).2.2).2.2).2.2) := rfl
  rw [hproj, hq_nil, hlp]
  dsimp only
  simp only [List.append_nil]
  have hpne : (patternRun isSpaceCh .markupWhitespace false true (ofChunks chunks)).1 ≠ [] := by
    intro hnil
    apply hne
    rw [← p2, hnil]
    rfl
  refine ⟨trivial, p5, hpne, p2, ?_⟩
  rw [p7]
  simp [List.isEmpty_iff, hpne]

theorem C5_whitespace_only_witness :
    (parse 0 (ofChunks [[' '], ['\t', '\n']])).2.1 = .ok ∧
    (∀ p ∈ (parse 0 (ofChunks [[' '], ['\t', '\n']])).1, p.kind = .markupWhitespace) ∧
    (parse 0 (ofChunks [[' '], ['\t', '\n']])).1 ≠ [] ∧
    litcat (parse 0 (ofChunks [[' '], ['\t', '\n']])).1 = [[' '], ['\t', '\n']].flatten ∧
    (parse 0 (ofChunks [[' '], ['\t', '\n']])).1.countP (fun p => p.isFinal) = 1 :=
  C5_whitespace_only 0 [[' '], ['\t', '\n']] (by decide) (by decide)

/-! ## Claim C8 -/

/-- A single start tag with one attribute whose name arrives in one
piece: the shape the lexer produces for `<t name="value">` in one
chunk. -/
def mkAttrTag (name value : List Char) : List Tok :=
  [mkTok .startOrEmptyTagOpen "<".data, mkTok .tagName "t".data,
   mkTok .markupWhitespace " ".data, mkTok .attributeName name,
   mkTok .attributeEquals "=".data, mkTok .avDoubleOpen ['"'],
   mkTok .attributeValue value, mkTok .avDoubleClose ['"'],
   mkTok .startTagClose ">".data]

/-- C8 (corrected): inside a cached tag the filter synthesises
`NamespaceDefault` followed by `NamespaceUri` when the re-assembled
attribute name is exactly `xmlns`, and `NamespacePrefix` (content: the
text after `xmlns:`) followed by `NamespaceUri` when the name is
`xmlns:<prefix>`; a name without the `xmlns` prefix passes through with
no namespace event.  But a name that merely begins with `xmlns` without
a colon at position five — `xmlnsx` — does not pass through: the filter
crashes on its `assert name[5] == ':'` with a fatal AssertionError. -/
theorem C8_xmlns_synthesis (name value : List Char)
    (hv : value.length ≤ xmlnsUrlLimit) :
    (name = "xmlns".data →
      insertNS 12 (mkAttrTag name value) =
        .ok (nsDefaultTok :: nsUriTokOf value :: mkAttrTag name value)) ∧
    (∀ pref, name = "xmlns:".data ++ pref →
      insertNS 12 (mkAttrTag name value) =
        .ok (nsPrefixTokOf pref :: nsUriTokOf value :: mkAttrTag name value)) ∧
    ("xmlns".data.isPrefixOf name = false →
      insertNS 12 (mkAttrTag name value) = .ok (mkAttrTag name value)) ∧
    (∀ c rest2, name = "xmlns".data ++ c :: rest2 → ¬ c = ':' →
      insertNS 12 (mkAttrTag name value) = .error .assertFailed) := by
  have hv2 : ¬ xmlnsUrlLimit < value.length := by omega
  refine ⟨?_, ?_, ?_, ?_⟩
  · intro hn
    subst hn
    simp [insertNS, tagLoop, nameLoop, xmWs1, xmWs2, valueLoop, mkAttrTag, mkTok,
      isTagTerminator, hv2, List.isPrefixOf]
  · intro pref hn
    subst hn
    simp [insertNS, tagLoop, nameLoop, xmWs1, xmWs2, valueLoop, mkAttrTag, mkTok,
      isTagTerminator, hv2, List.isPrefixOf]
  · intro hn
    simp [insertNS, tagLoop, nameLoop, xmWs1, xmWs2, valueLoop, mkAttrTag, mkTok,
      isTagTerminator, hn, List.isPrefixOf]
  · intro c rest2 hn hc
    subst hn
    simp [insertNS, tagLoop, nameLoop, xmWs1, xmWs2, valueLoop, mkAttrTag, mkTok,
      isTagTerminator, hv2, hc, List.isPrefixOf]

theorem C8_xmlns_synthesis_witness :
    insertNS 12 (mkAttrTag "xmlns".data "u".data) =
      .ok (nsDefaultTok :: nsUriTokOf "u".data :: mkAttrTag "xmlns".data "u".data) ∧
    insertNS 12 (mkAttrTag "xmlns:p".data "u".data) =
      .ok (nsPrefixTokOf "p".data :: nsUriTokOf "u".data ::
        mkAttrTag "xmlns:p".data "u".data) ∧
    insertNS 12 (mkAttrTag "q".data "u".data) = .ok (mkAttrTag "q".data "u".data) :=
  have h1 := C8_xmlns_synthesis "xmlns".data "u".data (by decide)
  have h2 := C8_xmlns_synthesis "xmlns:p".data "u".data (by decide)
  have h3 := C8_xmlns_synthesis "q".data "u".data (by decide)
  ⟨h1.1 rfl, h2.2.1 "p".data rfl, h3.2.2.1 (by decide)⟩

theorem C8_counterexample :
    insertNS 12 (mkAttrTag "xmlnsx".data "u".data) = .error .assertFailed := by
  rfl

/-! ## Claim C9 -/

/-- The same single-attribute tag with the attribute name split over a
chunk boundary into two `AttributeName` pieces. -/
def mkSplitTag (n1 n2 value : List Char) : List Tok :=
  [mkTok .startOrEmptyTagOpen "<".data, mkTok .tagName "t".data,
   mkTok .markupWhitespace " ".data,
   ⟨.attributeName, n1, true, false, none⟩,
   ⟨.attributeName, n2, false, true, none⟩,
   mkTok .attributeEquals "=".data, mkTok .avDoubleOpen ['"'],
   mkTok .attributeValue value, mkTok .avDoubleClose ['"'],
   mkTok .startTagClose ">".data]

theorem splitTag_nameTooLong (n1 n2 value : List Char)
    (hlong : xmlnsNameLimit < n1.length + n2.length) :
    insertNS 12 (mkSplitTag n1 n2 value) = .error .nameTooLong := by
  simp [insertNS, tagLoop, nameLoop, mkSplitTag, mkTok, isTagTerminator]
  intro hle
  exact absurd hlong (by omega)

theorem attrTag_passThrough (name value : List Char)
    (hname : "xmlns".data.isPrefixOf name = false) :
    insertNS 12 (mkAttrTag name value) = .ok (mkAttrTag name value) := by
  simp [insertNS, tagLoop, nameLoop, xmWs1, xmWs2, valueLoop, mkAttrTag, mkTok,
    isTagTerminator, hname]

theorem attrTag_urlTooLong (value : List Char)
    (hvlong : xmlnsUrlLimit < value.length) :
    insertNS 12 (mkAttrTag "xmlns".data value) = .error .urlTooLong := by
  simp [insertNS, tagLoop, nameLoop, xmWs1, xmWs2, valueLoop, mkAttrTag, mkTok,
    isTagTerminator, hvlong, List.isPrefixOf]

/-- C9 (corrected): the 512-unit name check runs only when a later name
piece is appended, and it runs for every attribute, xmlns or not: a
multi-piece name longer than 512 units raises `name too long` even for
an attribute that is no xmlns declaration, while a single-piece name of
any length never does (a non-xmlns single-piece attribute passes
through whole, however long).  The 2048-unit check runs on every value
piece, but only on the value of an `xmlns...` attribute; a non-xmlns
attribute's value of any length passes through. -/
theorem C9_limits (n1 n2 name value : List Char)
    (hlong : xmlnsNameLimit < n1.length + n2.length)
    (hname : "xmlns".data.isPrefixOf name = false)
    (hvlong : xmlnsUrlLimit < value.length) :
    insertNS 12 (mkSplitTag n1 n2 value) = .error .nameTooLong ∧
    insertNS 12 (mkAttrTag name value) = .ok (mkAttrTag name value) ∧
    insertNS 12 (mkAttrTag "xmlns".data value) = .error .urlTooLong :=
  ⟨splitTag_nameTooLong n1 n2 value hlong,
   attrTag_passThrough name value hname,
   attrTag_urlTooLong value hvlong⟩

theorem C9_limits_witness :
    insertNS 12 (mkSplitTag (List.replicate 300 'a') (List.replicate 300 'b')
      (List.replicate 3000 'u')) = .error .nameTooLong ∧
    insertNS 12 (mkAttrTag "q".data (List.replicate 3000 'u')) =
      .ok (mkAttrTag "q".data (List.replicate 3000 'u')) ∧
    insertNS 12 (mkAttrTag "xmlns".data (List.replicate 3000 'u')) =
      .error .urlTooLong := by
  have h1 : xmlnsNameLimit < (List.replicate 300 'a').length +
      (List.replicate 300 'b').length := by
    rw [List.length_replicate, List.length_replicate]
    decide
  have h2 : "xmlns".data.isPrefixOf "q".data = false := by decide
  have h3 : xmlnsUrlLimit < (List.replicate 3000 'u').length := by
    rw [List.length_replicate]
    decide
  exact C9_limits (List.replicate 300 'a') (List.replicate 300 'b') "q".data
    (List.replicate 3000 'u') h1 h2 h3

theorem C9_counterexample :
    insertNS 12 (mkSplitTag (List.replicate 300 'a') (List.replicate 300 'b')
      "u".data) = .error .nameTooLong ∧
    "xmlns".data.isPrefixOf (List.replicate 300 'a' ++ List.replicate 300 'b') = false ∧
    insertNS 12 (mkAttrTag (List.replicate 600 'a') "u".data) =
      .ok (mkAttrTag (List.replicate 600 'a') "u".data) ∧
    xmlnsNameLimit < (List.replicate 600 'a').length :=
  ⟨splitTag_nameTooLong _ _ _
     (by rw [List.length_replicate, List.length_replicate]; decide),
   by decide,
   attrTag_passThrough _ _ (by decide),
   by rw [List.length_replicate]; decide⟩

/-! ## Claim C2 -/

/-- The token kinds the namespace filter synthesises. -/
def isNsKind : TK → Bool
  | .namespaceDefault => true
  | .namespacePrefixTok => true
  | .namespaceUri => true
  | _ => false

/-- Delete the synthesised namespace tokens from a stream. -/
def eraseNS (ts : List Tok) : List Tok := ts.filter fun t => !isNsKind t.kind

theorem eraseNS_append (a b : List Tok) : eraseNS (a ++ b) = eraseNS a ++ eraseNS b := by
  simp [eraseNS]

theorem eraseNS_cons_no (t : Tok) (ts : List Tok) (h : isNsKind t.kind = false) :
    eraseNS (t :: ts) = t :: eraseNS ts := by
  simp [eraseNS, h]

theorem eraseNS_of_noNs (ts : List Tok) (h : ∀ t ∈ ts, isNsKind t.kind = false) :
    eraseNS ts = ts := by
  induction ts with
  | nil => rfl
  | cons t r ih =>
    rw [eraseNS_cons_no t r (h t (by simp))]
    rw [ih (fun x hx => h x (by simp [hx]))]

theorem eraseNS_of_allNs (ts : List Tok) (h : ∀ t ∈ ts, isNsKind t.kind = true) :
    eraseNS ts = [] := by
  induction ts with
  | nil => rfl
  | cons t r ih =>
    have := h t (by simp)
    simp only [eraseNS, List.filter_cons, this]
    exact ih (fun x hx => h x (by simp [hx]))

theorem nslex_erase : ∀ fuel : Nat,
    (∀ ts out, insertNS fuel ts = .ok out →
      (∀ t ∈ ts, isNsKind t.kind = false) → eraseNS out = ts) ∧
    (∀ events cached token stream out,
      tagLoop fuel events cached token stream = .ok out →
      (∀ t ∈ events, isNsKind t.kind = true) →
      (∀ t ∈ cached, isNsKind t.kind = false) →
      isNsKind token.kind = false →
      (∀ t ∈ stream, isNsKind t.kind = false) →
      eraseNS out = cached ++ token :: stream) ∧
    (∀ events cached name token stream out,
      nameLoop fuel events cached name token stream = .ok out →
      (∀ t ∈ events, isNsKind t.kind = true) →
      (∀ t ∈ cached, isNsKind t.kind = false) →
      isNsKind token.kind = false →
      (∀ t ∈ stream, isNsKind t.kind = false) →
      eraseNS out = cached ++ token :: stream) ∧
    (∀ events cached name token stream out,
      xmWs1 fuel events cached name token stream = .ok out →
      (∀ t ∈ events, isNsKind t.kind = true) →
      (∀ t ∈ cached, isNsKind t.kind = false) →
      isNsKind token.kind = false →
      (∀ t ∈ stream, isNsKind t.kind = false) →
      eraseNS out = cached ++ token :: stream) ∧
    (∀ events cached name token stream out,
      xmWs2 fuel events cached name token stream = .ok out →
      (∀ t ∈ events, isNsKind t.kind = true) →
      (∀ t ∈ cached, isNsKind t.kind = false) →
      isNsKind token.kind = false →
      (∀ t ∈ stream, isNsKind t.kind = false) →
      eraseNS out = cached ++ token :: stream) ∧
    (∀ events cached name value token stream out,
      valueLoop fuel events cached name value token stream = .ok out →
      (∀ t ∈ events, isNsKind t.kind = true) →
      (∀ t ∈ cached, isNsKind t.kind = false) →
      isNsKind token.kind = false →
      (∀ t ∈ stream, isNsKind t.kind = false) →
      eraseNS out = cached ++ token :: stream) := by
  intro fuel
  induction fuel with
  | zero =>
    refine ⟨?_, ?_, ?_, ?_, ?_, ?_⟩ <;> intros <;>
      simp_all [insertNS, tagLoop, nameLoop, xmWs1, xmWs2, valueLoop]
  | succ fuel ih =>
    obtain ⟨ihI, ihT, ihN, ih1, ih2, ihV⟩ := ih
    have flush : ∀ (events cached : List Tok) (token : Tok) (stream : List Tok)
        (out tail : List Tok), insertNS fuel stream = .ok tail →
        out = events ++ cached ++ token :: tail →
        (∀ t ∈ events, isNsKind t.kind = true) →
        (∀ t ∈ cached, isNsKind t.kind = false) →
        isNsKind token.kind = false →
        (∀ t ∈ stream, isNsKind t.kind = false) →
        eraseNS out = cached ++ token :: stream := by
      intro events cached token stream out tail htail hout hev hca htok hst
      subst hout
      rw [eraseNS_append, eraseNS_append, eraseNS_of_allNs events hev,
        eraseNS_of_noNs cached hca, eraseNS_cons_no token _ htok,
        ihI stream tail htail hst]
      simp
    refine ⟨?_, ?_, ?_, ?_, ?_, ?_⟩
    · -- insertNS
      intro ts out h hin
      cases ts with
      | nil =>
        simp only [insertNS] at h
        cases h
        rfl
      | cons t rest =>
        simp only [insertNS] at h
        by_cases hk : t.kind = .startOrEmptyTagOpen
        · rw [if_pos hk] at h
          cases rest with
          | nil => cases h
          | cons t1 rest1 =>
            exact ihT [] [t] t1 rest1 out h (by simp)
              (by intro x hx; simp at hx; rw [hx]; exact hin t (by simp))
              (hin t1 (by simp))
              (fun x hx => hin x (by simp [hx]))
        · rw [if_neg hk] at h
          cases htail : insertNS fuel rest with
          | error e => rw [htail] at h; cases h
          | ok tail =>
            rw [htail] at h
            cases h
            rw [eraseNS_cons_no t _ (hin t (by simp))]
            rw [ihI rest tail htail (fun x hx => hin x (by simp [hx]))]
    · -- tagLoop
      intro events cached token stream out h hev hca htok hst
      simp only [tagLoop] at h
      by_cases hterm : isTagTerminator token = true
      · rw [if_pos hterm] at h
        cases htail : insertNS fuel stream with
        | error e => rw [htail] at h; cases h
        | ok tail =>
          rw [htail] at h
          cases h
          exact flush events cached token stream _ tail htail (by simp) hev hca htok hst
      · rw [if_neg hterm] at h
        by_cases hattr : token.kind = .attributeName
        · rw [if_pos hattr] at h
          match stream, h with
          | t1 :: rest1, h =>
            have := ihN events (cached ++ [token]) token.lit t1 rest1 out h hev
              (by intro x hx; rcases List.mem_append.mp hx with hx | hx
                  · exact hca x hx
                  · simp at hx; subst hx; exact htok)
              (hst t1 (by simp))
              (fun x hx => hst x (by simp [hx]))
            rw [this]
            simp
        · rw [if_neg hattr] at h
          match stream, h with
          | t1 :: rest1, h =>
            have := ihT events (cached ++ [token]) t1 rest1 out h hev
              (by intro x hx; rcases List.mem_append.mp hx with hx | hx
                  · exact hca x hx
                  · simp at hx; subst hx; exact htok)
              (hst t1 (by simp))
              (fun x hx => hst x (by simp [hx]))
            rw [this]
            simp
    · -- nameLoop
      intro events cached name token stream out h hev hca htok hst
      simp only [nameLoop] at h
      by_cases hattr : token.kind = .attributeName
      · rw [if_pos hattr] at h
        by_cases hlim : xmlnsNameLimit < (name ++ token.lit).length
        · rw [if_pos hlim] at h; cases h
        · rw [if_neg hlim] at h
          match stream, h with
          | t1 :: rest1, h =>
            have := ihN events (cached ++ [token]) (name ++ token.lit) t1 rest1 out h hev
              (by intro x hx; rcases List.mem_append.mp hx with hx | hx
                  · exact hca x hx
                  · simp at hx; subst hx; exact htok)
              (hst t1 (by simp))
              (fun x hx => hst x (by simp [hx]))
            rw [this]
            simp
      · rw [if_neg hattr] at h
        by_cases hpre : "xmlns".data.isPrefixOf name = true
        · rw [if_pos hpre] at h
          exact ih1 events cached name token stream out h hev hca htok hst
        · rw [if_neg hpre] at h
          exact ihT events cached token stream out h hev hca htok hst
    · -- xmWs1
      intro events cached name token stream out h hev hca htok hst
      simp only [xmWs1] at h
      by_cases hmw : token.kind = .markupWhitespace
      · rw [if_pos hmw] at h
        match stream, h with
        | t1 :: rest1, h =>
          have := ih1 events (cached ++ [token]) name t1 rest1 out h hev
            (by intro x hx; rcases List.mem_append.mp hx with hx | hx
                · exact hca x hx
                · simp at hx; subst hx; exact htok)
            (hst t1 (by simp))
            (fun x hx => hst x (by simp [hx]))
          rw [this]
          simp
      · rw [if_neg hmw] at h
        by_cases hbf : token.kind = .badlyFormedEndOfStream
        · rw [if_pos hbf] at h
          cases htail : insertNS fuel stream with
          | error e => rw [htail] at h; cases h
          | ok tail =>
            rw [htail] at h
            cases h
            exact flush events cached token stream _ tail htail (by simp) hev hca htok hst
        · rw [if_neg hbf] at h
          by_cases heq : token.kind = .attributeEquals
          · rw [if_pos heq] at h
            match stream, h with
            | t1 :: rest1, h =>
              have := ih2 events (cached ++ [token]) name t1 rest1 out h hev
                (by intro x hx; rcases List.mem_append.mp hx with hx | hx
                    · exact hca x hx
                    · simp at hx; subst hx; exact htok)
                (hst t1 (by simp))
                (fun x hx => hst x (by simp [hx]))
              rw [this]
              simp
          · rw [if_neg heq] at h
            cases h
    · -- xmWs2
      intro events cached name token stream out h hev hca htok hst
      simp only [xmWs2] at h
      by_cases hmw : token.kind = .markupWhitespace
      · rw [if_pos hmw] at h
        match stream, h with
        | t1 :: rest1, h =>
          have := ih2 events (cached ++ [token]) name t1 rest1 out h hev
            (by intro x hx; rcases List.mem_append.mp hx with hx | hx
                · exact hca x hx
                · simp at hx; subst hx; exact htok)
            (hst t1 (by simp))
            (fun x hx => hst x (by simp [hx]))
          rw [this]
          simp
      · rw [if_neg hmw] at h
        by_cases hbf : token.kind = .badlyFormedEndOfStream
        · rw [if_pos hbf] at h
          cases htail : insertNS fuel stream with
          | error e => rw [htail] at h; cases h
          | ok tail =>
            rw [htail] at h
            cases h
            exact flush events cached token stream _ tail htail (by simp) hev hca htok hst
        · rw [if_neg hbf] at h
          by_cases hoq : (token.kind = .avDoubleOpen || token.kind = .avSingleOpen) = true
          · rw [if_pos hoq] at h
            match stream, h with
            | t1 :: rest1, h =>
              have := ihV events (cached ++ [token]) name [] t1 rest1 out h hev
                (by intro x hx; rcases List.mem_append.mp hx with hx | hx
                    · exact hca x hx
                    · simp at hx; subst hx; exact htok)
                (hst t1 (by simp))
                (fun x hx => hst x (by simp [hx]))
              rw [this]
              simp
          · rw [if_neg hoq] at h
            cases h
    · -- valueLoop
      intro events cached name value token stream out h hev hca htok hst
      simp only [valueLoop] at h
      by_cases hav : token.kind = .attributeValue
      · rw [if_pos hav] at h
        by_cases hlim : xmlnsUrlLimit < (value ++ token.lit).length
        · rw [if_pos hlim] at h; cases h
        · rw [if_neg hlim] at h
          match stream, h with
          | t1 :: rest1, h =>
            have := ihV events (cached ++ [token]) name (value ++ token.lit)
              t1 rest1 out h hev
              (by intro x hx; rcases List.mem_append.mp hx with hx | hx
                  · exact hca x hx
                  · simp at hx; subst hx; exact htok)
              (hst t1 (by simp))
              (fun x hx => hst x (by simp [hx]))
            rw [this]
            simp
      · rw [if_neg hav] at h
        by_cases hbf : token.kind = .badlyFormedEndOfStream
        · rw [if_pos hbf] at h
          cases htail : insertNS fuel stream with
          | error e => rw [htail] at h; cases h
          | ok tail =>
            rw [htail] at h
            cases h
            exact flush events cached token stream _ tail htail (by simp) hev hca htok hst
        · rw [if_neg hbf] at h
          by_cases hcq : (token.kind = .avDoubleClose || token.kind = .avSingleClose) = true
          · rw [if_pos hcq] at h
            by_cases hxm : name = "xmlns".data
            · rw [if_pos hxm] at h
              match stream, h with
              | t1 :: rest1, h =>
                have := ihT (events ++ [nsDefaultTok, nsUriTokOf value])
                  (cached ++ [token]) t1 rest1 out h
                  (by intro x hx; rcases List.mem_append.mp hx with hx | hx
                      · exact hev x hx
                      · simp at hx
                        rcases hx with hx | hx <;> subst hx <;> rfl)
                  (by intro x hx; rcases List.mem_append.mp hx with hx | hx
                      · exact hca x hx
                      · simp at hx; subst hx; exact htok)
                  (hst t1 (by simp))
                  (fun x hx => hst x (by simp [hx]))
                rw [this]
                simp
            · rw [if_neg hxm] at h
              match hdrop : name.drop 5, h with
              | [], h => cases h
              | c :: pref, h =>
                dsimp only at h
                by_cases hc : c = ':'
                · rw [if_pos hc] at h
                  match stream, h with
                  | t1 :: rest1, h =>
                    have := ihT (events ++ [nsPrefixTokOf pref, nsUriTokOf value])
                      (cached ++ [token]) t1 rest1 out h
                      (by intro x hx; rcases List.mem_append.mp hx with hx | hx
                          · exact hev x hx
                          · simp at hx
                            rcases hx with hx | hx <;> subst hx <;> rfl)
                      (by intro x hx; rcases List.mem_append.mp hx with hx | hx
                          · exact hca x hx
                          · simp at hx; subst hx; exact htok)
                      (hst t1 (by simp))
                      (fun x hx => hst x (by simp [hx]))
                    rw [this]
                    simp
                · rw [if_neg hc] at h
                  cases h
          · rw [if_neg hcq] at h
            cases h

/-- C2: namespace lift pass-through.  For every token stream on which
the filter completes, deleting the synthesised namespace tokens from
its output yields exactly the input stream: nothing else is discarded,
duplicated, reordered or mutated — the namespace events are only
inserted ahead of the cached tag. -/
theorem C2_namespace_lift (fuel : Nat) (ts out : List Tok)
    (h : insertNS fuel ts = .ok out)
    (hin : ∀ t ∈ ts, isNsKind t.kind = false) : eraseNS out = ts :=
  (nslex_erase fuel).1 ts out h hin

theorem C2_namespace_lift_witness :
    eraseNS (nsDefaultTok :: nsUriTokOf "u".data :: mkAttrTag "xmlns".data "u".data) =
      mkAttrTag "xmlns".data "u".data :=
  C2_namespace_lift 12 (mkAttrTag "xmlns".data "u".data)
    (nsDefaultTok :: nsUriTokOf "u".data :: mkAttrTag "xmlns".data "u".data)
    (by rfl) (by decide)

/-! ## Claim C1: literal preservation -/

theorem litcat_cons (t : Tok) (ts : List Tok) : litcat (t :: ts) = t.lit ++ litcat ts := by
  simp [litcat]

theorem litcat_nil : litcat [] = [] := rfl

theorem patternRun_bal (cls : Char → Bool) (k : TK) (found isInitial : Bool)
    (s : IterSeq) (hs : Inv s) :
    Inv (patternRun cls k found isInitial s).2.2 ∧
    litcat (patternRun cls k found isInitial s).1 ++
      remaining (patternRun cls k found isInitial s).2.2 = remaining s := by
  obtain ⟨h1, h2, h3, _⟩ := patternRun_spec cls k s found isInitial hs
  refine ⟨h1, ?_⟩
  rw [h2, h3]
  exact List.takeWhile_append_dropWhile _ _

theorem next_chr_any (s : IterSeq) (hs : Inv s) (d : Char) (h : (next s).1 = .chr d) :
    ∃ c r, remaining s = c :: d :: r ∧ remaining (next s).2 = d :: r := by
  cases hr : remaining s with
  | nil =>
    obtain ⟨_, hne⟩ := (next_spec s hs).2.2 hr
    exact absurd h (hne d)
  | cons c r =>
    obtain ⟨r2, hr2, hrem⟩ := next_chr_cons s hs c r hr d h
    exact ⟨c, r2, by rw [hr2], hrem⟩

theorem next_falsy_nil (s : IterSeq) (hs : Inv s) (c : Char) (r : List Char)
    (hrem : remaining s = c :: r) (h : ∀ d, (next s).1 ≠ .chr d) :
    remaining (next s).2 = [] := by
  obtain ⟨_, a2, _⟩ := next_spec s hs
  obtain ⟨hr, _, hchr⟩ := a2 c r hrem
  cases hrr : r with
  | nil => rw [hr, hrr]
  | cons d r2 => exact absurd (hchr d r2 hrr) (h d)

theorem attrLoop_ok : ∀ (afuel : Nat) (ws : Bool) (g : GetR) (s : IterSeq),
    Inv s → GRel g s →
    (∀ g2, (attrLoop afuel ws g s).2.1 = .done g2 →
      Inv (attrLoop afuel ws g s).2.2 ∧
      GRel g2 (attrLoop afuel ws g s).2.2 ∧
      litcat (attrLoop afuel ws g s).1 ++ remaining (attrLoop afuel ws g s).2.2 =
        remaining s) ∧
    ((attrLoop afuel ws g s).2.1 = .halt .ok →
      litcat (attrLoop afuel ws g s).1 = remaining s) := by
  intro afuel
  induction afuel with
  | zero =>
    intro ws g s hs hg
    rw [attrLoop.eq_def]
    dsimp only
    by_cases hcond : (ws && matchesInitialG g) = true
    · rw [if_pos hcond]
      exact ⟨fun g2 h => (nomatch h), fun h => (nomatch h)⟩
    · rw [if_neg hcond]
      refine ⟨?_, fun h => by cases h⟩
      intro g2 h
      cases h
      exact ⟨hs, hg, rfl⟩
  | succ afuel ih =>
    intro ws g s hs hg
    rw [attrLoop.eq_def]
    dsimp only
    by_cases hcond : (ws && matchesInitialG g) = true
    · rw [if_pos hcond]
      obtain ⟨nmInv, nmBal⟩ := patternRun_bal isNmCh .attributeName false true s hs
      rcases hnm : parseName .attributeName s with ⟨nmT, nmF, nmS⟩
      have hnm2 : patternRun isNmCh TK.attributeName false true s = (nmT, nmF, nmS) := hnm
      rw [hnm2] at nmInv nmBal
      dsimp only at nmInv nmBal
      obtain ⟨spInv, spBal⟩ :=
        patternRun_bal isSpaceCh .markupWhitespace false true nmS nmInv
      rcases hsp : parseSpace .markupWhitespace nmS with ⟨spT, spF, spS⟩
      have hsp2x : patternRun isSpaceCh TK.markupWhitespace false true nmS = (spT, spF, spS) := hsp
      rw [hsp2x] at spInv spBal
      dsimp only at spInv spBal
      have g2Inv := (get_spec spS spInv).1
      have g2Rem := (get_spec spS spInv).2.1
      have g2Rel := get_GRel spS spInv
      rcases hg2 : get spS with ⟨g2v, g2S⟩
      rw [hg2] at g2Inv g2Rem g2Rel
      dsimp only at g2Inv g2Rem g2Rel
      have hfull0 : remaining s = litcat nmT ++ (litcat spT ++ remaining g2S) := by
        rw [g2Rem, spBal, nmBal]
      by_cases heq : g2v = .chr '='
      · rw [if_pos heq]
        subst heq
        obtain ⟨rq, hrq⟩ := g2Rel.1 '=' rfl
        obtain ⟨adInv, _, ad3, _⟩ := advance_spec g2S g2Inv
        obtain ⟨adRem, _⟩ := ad3 '=' rq hrq
        obtain ⟨sp2Inv, sp2Bal⟩ :=
          patternRun_bal isSpaceCh .markupWhitespace false true (advance g2S) adInv
        rcases hsp2 : parseSpace .markupWhitespace (advance g2S) with ⟨sp2T, sp2F, sp2S⟩
        have hsp2b : patternRun isSpaceCh TK.markupWhitespace false true (advance g2S) = (sp2T, sp2F, sp2S) := hsp2
        rw [hsp2b] at sp2Inv sp2Bal
        dsimp only at sp2Inv sp2Bal
        have g3Inv := (get_spec sp2S sp2Inv).1
        have g3Rem := (get_spec sp2S sp2Inv).2.1
        have g3Rel := get_GRel sp2S sp2Inv
        rcases hg3 : get sp2S with ⟨g3v, g3S⟩
        rw [hg3] at g3Inv g3Rem g3Rel
        dsimp only at g3Inv g3Rem g3Rel
        have hfull1 : remaining s = litcat nmT ++ (litcat spT ++
            ('=' :: (litcat sp2T ++ remaining g3S))) := by
          rw [hfull0, hrq, ← adRem, ← sp2Bal, ← g3Rem]
        rcases g3v with _ | _ | c
        · dsimp only
          refine ⟨fun g2 h => (nomatch h), ?_⟩
          intro _
          have hnil : remaining g3S = [] := by
            apply g3Rel.2
            intro d hd
            cases hd
          rw [hfull1, hnil]
          simp [litcat_append, litcat_cons, litcat_nil, mkTok]
        · dsimp only
          refine ⟨fun g2 h => (nomatch h), ?_⟩
          intro _
          have hnil : remaining g3S = [] := by
            apply g3Rel.2
            intro d hd
            cases hd
          rw [hfull1, hnil]
          simp [litcat_append, litcat_cons, litcat_nil, mkTok]
        · dsimp only
          obtain ⟨rv, hrv⟩ := g3Rel.1 c rfl
          by_cases hquote : (c = '"' || c = '\'') = true
          · rw [if_pos hquote]
            have hc2 : c = '"' ∨ c = '\'' := by
              rcases Bool.or_eq_true_iff.mp hquote with hc | hc
              · exact Or.inl (by exact of_decide_eq_true hc)
              · exact Or.inr (by exact of_decide_eq_true hc)
            have hopen : (if c = '"' then mkTok .avDoubleOpen "\"".data
                else mkTok .avSingleOpen "'".data).lit = [c] := by
              rcases hc2 with hc | hc <;> subst hc <;> rfl
            have hclose : (if c = '"' then mkTok .avDoubleClose "\"".data
                else mkTok .avSingleClose "'".data).lit = [c] := by
              rcases hc2 with hc | hc <;> subst hc <;> rfl
            obtain ⟨ad2Inv, _, ad2c, _⟩ := advance_spec g3S g3Inv
            obtain ⟨ad2Rem, _⟩ := ad2c c rv hrv
            obtain ⟨suInv, suBal, suPre, suNil, _, _, _⟩ :=
              sentinelRun_spec [c] .attributeValue (advance g3S) false true ad2Inv
                (by simp)
            rcases hsu : sentinelRun [c] .attributeValue false true (advance g3S)
              with ⟨suT, suF, suS⟩
            rw [hsu] at suInv suBal suPre suNil
            dsimp only at suInv suBal suPre suNil
            obtain ⟨swInv, swIff, swTrue, swFalse⟩ :=
              startsWith_spec [c] suS suInv (by simp)
            rcases hsw : startsWith [c] suS with ⟨swv, swS⟩
            rw [hsw] at swInv swIff swTrue swFalse
            dsimp only at swInv swIff swTrue swFalse
            have hfull2 : remaining s = litcat nmT ++ (litcat spT ++
                ('=' :: (litcat sp2T ++ (c :: (litcat suT ++ remaining suS))))) := by
              rw [hfull1, hrv, ← ad2Rem, ← suBal]
            by_cases hswv : swv = true
            · rw [if_pos hswv]
              obtain ⟨sp3Inv, sp3Bal⟩ :=
                patternRun_bal isSpaceCh .markupWhitespace false true swS swInv
              rcases hsp3 : parseSpace .markupWhitespace swS with ⟨sp3T, sp3F, sp3S⟩
              have hsp3b : patternRun isSpaceCh TK.markupWhitespace false true swS = (sp3T, sp3F, sp3S) := hsp3
              rw [hsp3b] at sp3Inv sp3Bal
              dsimp only at sp3Inv sp3Bal
              have g4Inv := (get_spec sp3S sp3Inv).1
              have g4Rem := (get_spec sp3S sp3Inv).2.1
              have g4Rel := get_GRel sp3S sp3Inv
              rcases hg4 : get sp3S with ⟨g4v, g4S⟩
              rw [hg4] at g4Inv g4Rem g4Rel
              dsimp only at g4Inv g4Rem g4Rel
              obtain ⟨ihDone, ihOk⟩ := ih sp3F g4v g4S g4Inv g4Rel
              rcases hrest : attrLoop afuel sp3F g4v g4S with ⟨restT, restE, restS⟩
              rw [hrest] at ihDone ihOk
              dsimp only at ihDone ihOk
              have hsuC : remaining suS = c :: remaining swS := by
                have h := (swTrue hswv).2
                simpa using h
              have hfull3 : remaining s = litcat nmT ++ (litcat spT ++
                  ('=' :: (litcat sp2T ++ (c :: (litcat suT ++ (c :: (litcat sp3T ++
                    remaining g4S))))))) := by
                rw [hfull2, hsuC, ← sp3Bal, ← g4Rem]
              constructor
              · intro g2 h
                obtain ⟨rInv, rRel, rBal⟩ := ihDone g2 h
                refine ⟨rInv, rRel, ?_⟩
                rw [hfull3, ← rBal]
                rcases hc2 with hc | hc <;> subst hc <;>
                  simp [litcat_append, litcat_cons, litcat_nil, mkTok]
              · intro h
                rw [hfull3, ← ihOk h]
                rcases hc2 with hc | hc <;> subst hc <;>
                  simp [litcat_append, litcat_cons, litcat_nil, mkTok]
            · rw [if_neg hswv]
              refine ⟨fun g2 h => (nomatch h), ?_⟩
              intro _
              have hsuF : suF = false := by
                cases hsf : suF
                · rfl
                · exact absurd (swIff.mpr (suPre hsf)) hswv
              have hsuNil : remaining suS = [] := suNil hsuF
              rw [hfull2, hsuNil]
              rcases hc2 with hc | hc <;> subst hc <;>
                simp [litcat_append, litcat_cons, litcat_nil, mkTok]
          · rw [if_neg hquote]
            dsimp only
            exact ⟨fun g2 h => (nomatch h), fun h => (nomatch h)⟩
      · rw [if_neg heq]
        dsimp only
        have g2Inv2 := g2Inv
        obtain ⟨ihDone, ihOk⟩ := ih ws g2v g2S g2Inv g2Rel
        rcases hrest : attrLoop afuel ws g2v g2S with ⟨restT, restE, restS⟩
        rw [hrest] at ihDone ihOk
        dsimp only at ihDone ihOk
        constructor
        · intro g2 h
          obtain ⟨rInv, rRel, rBal⟩ := ihDone g2 h
          refine ⟨rInv, rRel, ?_⟩
          rw [litcat_append, List.append_assoc, litcat_append, List.append_assoc, rBal]
          rw [hfull0]
        · intro h
          rw [litcat_append, litcat_append, List.append_assoc, ihOk h]
          rw [hfull0]
    · rw [if_neg hcond]
      refine ⟨?_, fun h => by cases h⟩
      intro g2 h
      cases h
      exact ⟨hs, hg, rfl⟩

theorem isPrefixOf_singleton_cons {a : Char} {l : List Char}
    (h : List.isPrefixOf [a] l = true) : ∃ r, l = a :: r := by
  obtain ⟨t, ht⟩ := List.isPrefixOf_iff_prefix.mp h
  exact ⟨t, ht.symm.trans (by simp)⟩

theorem next_step (s : IterSeq) (hs : Inv s) (c : Char) (r : List Char)
    (hrem : remaining s = c :: r) :
    Inv (next s).2 ∧ remaining (next s).2 = r ∧ GRel (next s).1 (next s).2 := by
  obtain ⟨n1, n2, _⟩ := next_spec s hs
  obtain ⟨hr, _, _⟩ := n2 c r hrem
  refine ⟨n1, hr, ?_, ?_⟩
  · intro d hd
    obtain ⟨r2, _, h2⟩ := next_chr_cons s hs c r hrem d hd
    exact ⟨r2, h2⟩
  · intro hnc
    exact next_falsy_nil s hs c r hrem hnc

theorem parseTail_ok (fuel : Nat) (ps : List Tok) (s1 : IterSeq) (h1 : Inv s1)
    (ih : ∀ t, Inv t → remaining t = [] ∨ (∃ r, remaining t = '<' :: r) →
      (parseLoop fuel t).2.1 = .ok → litcat (parseLoop fuel t).1 = remaining t)
    (hok : (parseLoop fuel (sentinelRun "<".data .pcdata false true
        (parseSpace .whitespaceContent s1).2.2).2.2).2.1 = .ok) :
    litcat (ps ++ (parseSpace .whitespaceContent s1).1 ++
      (sentinelRun "<".data .pcdata false true
        (parseSpace .whitespaceContent s1).2.2).1 ++
      (parseLoop fuel (sentinelRun "<".data .pcdata false true
        (parseSpace .whitespaceContent s1).2.2).2.2).1) =
    litcat ps ++ remaining s1 := by
  obtain ⟨spInv, spBal⟩ := patternRun_bal isSpaceCh .whitespaceContent false true s1 h1
  rcases hsp : parseSpace .whitespaceContent s1 with ⟨spT, spF, spS⟩
  have hsp2 : patternRun isSpaceCh TK.whitespaceContent false true s1 = (spT, spF, spS) := hsp
  rw [hsp2] at spInv spBal
  dsimp only at spInv spBal
  rw [hsp] at hok
  dsimp only
  obtain ⟨suInv, suBal, suPre, suNil, _, _, _⟩ :=
    sentinelRun_spec "<".data .pcdata spS false true spInv (by simp)
  rcases hsu : sentinelRun "<".data .pcdata false true spS with ⟨puT, puF, puS⟩
  rw [hsu] at suInv suBal suPre suNil
  dsimp only at suInv suBal suPre suNil
  rw [hsu] at hok
  dsimp only at hok
  dsimp only
  have hpre : remaining puS = [] ∨ (∃ r, remaining puS = '<' :: r) := by
    cases hf : puF
    · exact Or.inl (suNil hf)
    · have hp : List.isPrefixOf ['<'] (remaining puS) = true := suPre hf
      exact Or.inr (isPrefixOf_singleton_cons hp)
  have hlast := ih puS suInv hpre hok
  rw [litcat_append, litcat_append, litcat_append, hlast,
    List.append_assoc, List.append_assoc, suBal, spBal]

theorem parseLoop_ok : ∀ (fuel : Nat) (s : IterSeq), Inv s →
    remaining s = [] ∨ (∃ r, remaining s = '<' :: r) →
    (parseLoop fuel s).2.1 = .ok →
    litcat (parseLoop fuel s).1 = remaining s := by
  intro fuel
  induction fuel with
  | zero =>
    intro s hs hpre
    have gInv := (get_spec s hs).1
    have gRem := (get_spec s hs).2.1
    have gChr := (get_spec s hs).2.2.2.2
    rw [parseLoop.eq_def]
    dsimp only
    rcases hg : get s with ⟨gv, gS⟩
    rw [hg] at gInv gRem gChr
    dsimp only at gInv gRem gChr
    dsimp only
    by_cases hlt : gv = GetR.chr '<'
    · rw [if_pos hlt]
      exact fun h => (nomatch h)
    · rw [if_neg hlt]
      intro _
      have hnil : remaining s = [] := by
        rcases hpre with h | ⟨r, hr⟩
        · exact h
        · exact absurd (gChr '<' r hr) hlt
      rw [hnil]
      rfl
  | succ fuel ih =>
    intro s hs hpre
    have gInv := (get_spec s hs).1
    have gRem := (get_spec s hs).2.1
    have gChr := (get_spec s hs).2.2.2.2
    have gCons := get_chr_cons s hs
    rw [parseLoop.eq_def]
    dsimp only
    rcases hg : get s with ⟨gv, gS⟩
    rw [hg] at gInv gRem gChr gCons
    dsimp only at gInv gRem gChr gCons
    dsimp only
    by_cases hlt : gv = GetR.chr '<'
    · rw [if_pos hlt]
      obtain ⟨r, hrs⟩ := gCons '<' hlt
      have hr1 : remaining gS = '<' :: r := by rw [gRem, hrs]
      obtain ⟨n1Inv, n1Rem, n1Rel⟩ := next_step gS gInv '<' r hr1
      rcases hn1 : next gS with ⟨n1v, n1S⟩
      rw [hn1] at n1Inv n1Rem n1Rel
      dsimp only at n1Inv n1Rem n1Rel
      dsimp only
      rcases n1v with _ | _ | ch1
      · -- next returned no-buffer: badly-formed '<', loop continues
        dsimp only
        intro h
        rw [parseTail_ok fuel [mkTok .badlyFormedLessThan "<".data] n1S n1Inv ih h]
        rw [n1Rem, hrs]
        simp [litcat_cons, litcat_nil, mkTok]
      · -- next returned end-of-stream: badly-formed '<', loop continues
        dsimp only
        intro h
        rw [parseTail_ok fuel [mkTok .badlyFormedLessThan "<".data] n1S n1Inv ih h]
        rw [n1Rem, hrs]
        simp [litcat_cons, litcat_nil, mkTok]
      · -- a character follows '<'
        dsimp only
        obtain ⟨r2, hr2⟩ := n1Rel.1 ch1 rfl
        have hrr2 : r = ch1 :: r2 := n1Rem.symm.trans hr2
        by_cases hc1 : ch1 = '/'
        · -- close tag
          rw [if_pos hc1]
          subst hc1
          obtain ⟨n2Inv, n2Rem, n2Rel⟩ := next_step n1S n1Inv '/' r2 hr2
          rcases hn2 : next n1S with ⟨n2v, n2S⟩
          rw [hn2] at n2Inv n2Rem n2Rel
          dsimp only at n2Inv n2Rem n2Rel
          dsimp only
          rcases n2v with _ | _ | c0
          · dsimp only [matchesInitialG]
            rw [if_neg (by decide : ¬(false = true))]
            dsimp only
            intro h
            rw [parseTail_ok fuel [mkTok .badlyFormedLessThan "<".data,
              mkTok .pcdata "/".data] n2S n2Inv ih h]
            rw [n2Rem, hrs, hrr2]
            simp [litcat_cons, litcat_nil, mkTok]
          · dsimp only [matchesInitialG]
            rw [if_neg (by decide : ¬(false = true))]
            dsimp only
            intro h
            rw [parseTail_ok fuel [mkTok .badlyFormedLessThan "<".data,
              mkTok .pcdata "/".data] n2S n2Inv ih h]
            rw [n2Rem, hrs, hrr2]
            simp [litcat_cons, litcat_nil, mkTok]
          · dsimp only [matchesInitialG]
            by_cases hni : isNameInitial c0 = true
            · rw [if_pos hni]
              obtain ⟨nmInv, nmBal⟩ := patternRun_bal isNmCh .tagName false true n2S n2Inv
              rcases hnm : parseName .tagName n2S with ⟨nmT, nmF, nmS⟩
              have hnm2 : patternRun isNmCh TK.tagName false true n2S = (nmT, nmF, nmS) := hnm
              rw [hnm2] at nmInv nmBal
              dsimp only at nmInv nmBal
              dsimp only
              obtain ⟨spInv, spBal⟩ := patternRun_bal isSpaceCh .markupWhitespace false true nmS nmInv
              rcases hsp : parseSpace .markupWhitespace nmS with ⟨spT, spF, spS⟩
              have hsp2 : patternRun isSpaceCh TK.markupWhitespace false true nmS = (spT, spF, spS) := hsp
              rw [hsp2] at spInv spBal
              dsimp only at spInv spBal
              dsimp only
              have g2Inv := (get_spec spS spInv).1
              have g2Rem := (get_spec spS spInv).2.1
              have g2Rel := get_GRel spS spInv
              rcases hg2 : get spS with ⟨g2v, g2S⟩
              rw [hg2] at g2Inv g2Rem g2Rel
              dsimp only at g2Inv g2Rem g2Rel
              dsimp only
              have hfull0 : remaining s =
                  '<' :: '/' :: (litcat nmT ++ (litcat spT ++ remaining g2S)) := by
                rw [hrs, hrr2, ← n2Rem, ← nmBal, ← spBal, ← g2Rem]
              rcases g2v with _ | _ | c
              · dsimp only
                intro _
                have hnil : remaining g2S = [] := g2Rel.2 (fun c hc => nomatch hc)
                rw [hfull0, hnil]
                simp [litcat_append, litcat_cons, litcat_nil, mkTok]
              · dsimp only
                intro _
                have hnil : remaining g2S = [] := g2Rel.2 (fun c hc => nomatch hc)
                rw [hfull0, hnil]
                simp [litcat_append, litcat_cons, litcat_nil, mkTok]
              · dsimp only
                by_cases hgt : c = '>'
                · rw [if_pos hgt]
                  subst hgt
                  obtain ⟨r4, hr4⟩ := g2Rel.1 '>' rfl
                  obtain ⟨adInv, _, ad3, _⟩ := advance_spec g2S g2Inv
                  obtain ⟨adRem, _⟩ := ad3 '>' r4 hr4
                  dsimp only
                  intro h
                  rw [parseTail_ok fuel ((mkTok .endTagOpen "</".data :: nmT ++ spT) ++
                    [mkTok .endTagClose ">".data]) (advance g2S) adInv ih h]
                  rw [adRem, hfull0, hr4]
                  simp [litcat_append, litcat_cons, litcat_nil, mkTok]
                · rw [if_neg hgt]
                  dsimp only
                  exact fun h => (nomatch h)
            · rw [if_neg hni]
              dsimp only
              intro h
              rw [parseTail_ok fuel [mkTok .badlyFormedLessThan "<".data,
                mkTok .pcdata "/".data] n2S n2Inv ih h]
              rw [n2Rem, hrs, hrr2]
              simp [litcat_cons, litcat_nil, mkTok]
        · rw [if_neg hc1]
          by_cases hc2 : ch1 = '?'
          · -- processing instruction
            rw [if_pos hc2]
            subst hc2
            obtain ⟨n2Inv, n2Rem, n2Rel⟩ := next_step n1S n1Inv '?' r2 hr2
            rcases hn2 : next n1S with ⟨n2v, n2S⟩
            rw [hn2] at n2Inv n2Rem n2Rel
            dsimp only at n2Inv n2Rem n2Rel
            dsimp only
            rcases n2v with _ | _ | c0
            · dsimp only [matchesInitialG]
              rw [if_neg (by decide : ¬(false = true))]
              dsimp only
              intro h
              rw [parseTail_ok fuel [mkTok .badlyFormedLessThan "<".data,
                mkTok .pcdata "?".data] n2S n2Inv ih h]
              rw [n2Rem, hrs, hrr2]
              simp [litcat_cons, litcat_nil, mkTok]
            · dsimp only [matchesInitialG]
              rw [if_neg (by decide : ¬(false = true))]
              dsimp only
              intro h
              rw [parseTail_ok fuel [mkTok .badlyFormedLessThan "<".data,
                mkTok .pcdata "?".data] n2S n2Inv ih h]
              rw [n2Rem, hrs, hrr2]
              simp [litcat_cons, litcat_nil, mkTok]
            · dsimp only [matchesInitialG]
              by_cases hni : isNameInitial c0 = true
              · rw [if_pos hni]
                obtain ⟨nmInv, nmBal⟩ := patternRun_bal isNmCh .piTarget false true n2S n2Inv
                rcases hnm : parseName .piTarget n2S with ⟨nmT, nmF, nmS⟩
                have hnm2 : patternRun isNmCh TK.piTarget false true n2S = (nmT, nmF, nmS) := hnm
                rw [hnm2] at nmInv nmBal
                dsimp only at nmInv nmBal
                dsimp only
                obtain ⟨spInv, spBal⟩ := patternRun_bal isSpaceCh .markupWhitespace false true nmS nmInv
                rcases hsp : parseSpace .markupWhitespace nmS with ⟨spT, spF, spS⟩
                have hsp2 : patternRun isSpaceCh TK.markupWhitespace false true nmS = (spT, spF, spS) := hsp
                rw [hsp2] at spInv spBal
                dsimp only at spInv spBal
                dsimp only
                have hfull0 : remaining s =
                    '<' :: '?' :: (litcat nmT ++ (litcat spT ++ remaining spS)) := by
                  rw [hrs, hrr2, ← n2Rem, ← nmBal, ← spBal]
                by_cases hspF : spF = true
                · rw [if_pos hspF]
                  obtain ⟨suInv, suBal, suPre, suNil, _, _, _⟩ :=
                    sentinelRun_spec "?>".data .piData spS false true spInv (by simp)
                  rcases hsu : sentinelRun "?>".data .piData false true spS with ⟨suT, suF, suS⟩
                  rw [hsu] at suInv suBal suPre suNil
                  dsimp only at suInv suBal suPre suNil
                  dsimp only
                  obtain ⟨swInv, swIff, swTrue, swFalse⟩ :=
                    startsWith_spec "?>".data suS suInv (by simp)
                  rcases hsw : startsWith "?>".data suS with ⟨swv, swS⟩
                  rw [hsw] at swInv swIff swTrue swFalse
                  dsimp only at swInv swIff swTrue swFalse
                  dsimp only
                  by_cases hswv : swv = true
                  · rw [if_pos hswv]
                    by_cases hsuF : suF = true
                    · rw [if_pos hsuF]
                      dsimp only
                      intro h
                      rw [parseTail_ok fuel ((mkTok .piOpen "<?".data :: nmT ++ spT) ++
                        suT ++ [mkTok .piClose "?>".data]) swS swInv ih h]
                      have hq : remaining suS = '?' :: '>' :: remaining swS := by
                        have h2 := (swTrue hswv).2
                        simpa using h2
                      rw [hfull0, ← suBal, hq]
                      simp [litcat_append, litcat_cons, litcat_nil, mkTok]
                    · rw [if_neg hsuF]
                      dsimp only
                      exact fun h => (nomatch h)
                  · rw [if_neg hswv]
                    by_cases hsuF : suF = true
                    · rw [if_pos hsuF]
                      dsimp only
                      exact fun h => (nomatch h)
                    · rw [if_neg hsuF]
                      dsimp only
                      intro _
                      have hsuf : suF = false := by
                        cases hb : suF
                        · rfl
                        · exact absurd hb hsuF
                      have hnil : remaining suS = [] := suNil hsuf
                      rw [hfull0, ← suBal, hnil]
                      simp [litcat_append, litcat_cons, litcat_nil, mkTok]
                · rw [if_neg hspF]
                  have g2Inv := (get_spec spS spInv).1
                  have g2Rem := (get_spec spS spInv).2.1
                  have g2Rel := get_GRel spS spInv
                  rcases hg2 : get spS with ⟨g2v, g2S⟩
                  rw [hg2] at g2Inv g2Rem g2Rel
                  dsimp only at g2Inv g2Rem g2Rel
                  dsimp only
                  rcases g2v with _ | _ | c
                  · dsimp only [isChr]
                    rw [if_neg (by decide : ¬(false = true))]
                    dsimp only
                    intro _
                    have hnil : remaining g2S = [] := g2Rel.2 (fun c hc => nomatch hc)
                    rw [hfull0, ← g2Rem, hnil]
                    simp [litcat_append, litcat_cons, litcat_nil, mkTok]
                  · dsimp only [isChr]
                    rw [if_neg (by decide : ¬(false = true))]
                    dsimp only
                    intro _
                    have hnil : remaining g2S = [] := g2Rel.2 (fun c hc => nomatch hc)
                    rw [hfull0, ← g2Rem, hnil]
                    simp [litcat_append, litcat_cons, litcat_nil, mkTok]
                  · dsimp only [isChr]
                    rw [if_pos rfl]
                    obtain ⟨swInv, swIff, swTrue, swFalse⟩ :=
                      startsWith_spec "?>".data g2S g2Inv (by simp)
                    rcases hsw : startsWith "?>".data g2S with ⟨swv, swS⟩
                    rw [hsw] at swInv swIff swTrue swFalse
                    dsimp only at swInv swIff swTrue swFalse
                    dsimp only
                    by_cases hswv : swv = true
                    · rw [if_pos hswv]
                      dsimp only
                      intro h
                      rw [parseTail_ok fuel ((mkTok .piOpen "<?".data :: nmT ++ spT) ++
                        [mkTok .piClose "?>".data]) swS swInv ih h]
                      have hq : remaining g2S = '?' :: '>' :: remaining swS := by
                        have h2 := (swTrue hswv).2
                        simpa using h2
                      rw [hfull0, ← g2Rem, hq]
                      simp [litcat_append, litcat_cons, litcat_nil, mkTok]
                    · rw [if_neg hswv]
                      dsimp only
                      exact fun h => (nomatch h)
              · rw [if_neg hni]
                dsimp only
                intro h
                rw [parseTail_ok fuel [mkTok .badlyFormedLessThan "<".data,
                  mkTok .pcdata "?".data] n2S n2Inv ih h]
                rw [n2Rem, hrs, hrr2]
                simp [litcat_cons, litcat_nil, mkTok]
          · rw [if_neg hc2]
            by_cases hc3 : ch1 = '!'
            · -- comment, CDATA or declaration
              rw [if_pos hc3]
              subst hc3
              obtain ⟨n2Inv, n2Rem, n2Rel⟩ := next_step n1S n1Inv '!' r2 hr2
              rcases hn2 : next n1S with ⟨n2v, n2S⟩
              rw [hn2] at n2Inv n2Rem n2Rel
              dsimp only at n2Inv n2Rem n2Rel
              dsimp only
              rcases n2v with _ | _ | ch2
              · dsimp only
                intro h
                rw [parseTail_ok fuel [mkTok .badlyFormedLessThan "<".data,
                  mkTok .pcdata "!".data] n2S n2Inv ih h]
                rw [n2Rem, hrs, hrr2]
                simp [litcat_cons, litcat_nil, mkTok]
              · dsimp only
                intro h
                rw [parseTail_ok fuel [mkTok .badlyFormedLessThan "<".data,
                  mkTok .pcdata "!".data] n2S n2Inv ih h]
                rw [n2Rem, hrs, hrr2]
                simp [litcat_cons, litcat_nil, mkTok]
              · dsimp only
                by_cases hd : ch2 = '-'
                · -- comment
                  rw [if_pos hd]
                  subst hd
                  obtain ⟨r3, hr3⟩ := n2Rel.1 '-' rfl
                  have hrr3 : r2 = '-' :: r3 := n2Rem.symm.trans hr3
                  obtain ⟨n3Inv, n3Rem, n3Rel⟩ := next_step n2S n2Inv '-' r3 hr3
                  rcases hn3 : next n2S with ⟨n3v, n3S⟩
                  rw [hn3] at n3Inv n3Rem n3Rel
                  dsimp only at n3Inv n3Rem n3Rel
                  dsimp only
                  by_cases hd2 : n3v = GetR.chr '-'
                  · rw [if_pos hd2]
                    obtain ⟨r4, hr4⟩ := n3Rel.1 '-' hd2
                    have hrr4 : r3 = '-' :: r4 := n3Rem.symm.trans hr4
                    obtain ⟨adInv, _, ad3, _⟩ := advance_spec n3S n3Inv
                    obtain ⟨adRem, _⟩ := ad3 '-' r4 hr4
                    obtain ⟨suInv, suBal, suPre, suNil, _, _, _⟩ :=
                      sentinelRun_spec "-->".data .commentData (advance n3S) false true adInv (by simp)
                    rcases hsu : sentinelRun "-->".data .commentData false true (advance n3S)
                      with ⟨suT, suF, suS⟩
                    rw [hsu] at suInv suBal suPre suNil
                    dsimp only at suInv suBal suPre suNil
                    dsimp only
                    obtain ⟨swInv, swIff, swTrue, swFalse⟩ :=
                      startsWith_spec "-->".data suS suInv (by simp)
                    rcases hsw : startsWith "-->".data suS with ⟨swv, swS⟩
                    rw [hsw] at swInv swIff swTrue swFalse
                    dsimp only at swInv swIff swTrue swFalse
                    dsimp only
                    have hfull : remaining s =
                        '<' :: '!' :: '-' :: '-' :: (litcat suT ++ remaining suS) := by
                      rw [hrs, hrr2, hrr3, hrr4, ← adRem, ← suBal]
                    by_cases hswv : swv = true
                    · rw [if_pos hswv]
                      dsimp only
                      intro h
                      rw [parseTail_ok fuel (mkTok .commentOpen "<!--".data :: suT ++
                        [mkTok .commentClose "-->".data]) swS swInv ih h]
                      have hq : remaining suS = '-' :: '-' :: '>' :: remaining swS := by
                        have h2 := (swTrue hswv).2
                        simpa using h2
                      rw [hfull, hq]
                      simp [litcat_append, litcat_cons, litcat_nil, mkTok]
                    · rw [if_neg hswv]
                      dsimp only
                      intro _
                      have hsuf : suF = false := by
                        cases hb : suF
                        · rfl
                        · exact absurd (swIff.mpr (suPre hb)) hswv
                      have hnil : remaining suS = [] := suNil hsuf
                      rw [hfull, hnil]
                      simp [litcat_append, litcat_cons, litcat_nil, mkTok]
                  · rw [if_neg hd2]
                    dsimp only
                    intro h
                    rw [parseTail_ok fuel [mkTok .badlyFormedLessThan "<".data,
                      mkTok .pcdata "!-".data] n3S n3Inv ih h]
                    rw [n3Rem, hrs, hrr2, hrr3]
                    simp [litcat_cons, litcat_nil, mkTok]
                · rw [if_neg hd]
                  by_cases hb2 : ch2 = '['
                  · -- CDATA section
                    rw [if_pos hb2]
                    subst hb2
                    obtain ⟨r3, hr3⟩ := n2Rel.1 '[' rfl
                    have hrr3 : r2 = '[' :: r3 := n2Rem.symm.trans hr3
                    obtain ⟨adInv, _, ad3, _⟩ := advance_spec n2S n2Inv
                    obtain ⟨adRem, _⟩ := ad3 '[' r3 hr3
                    obtain ⟨swInv, swIff, swTrue, swFalse⟩ :=
                      startsWith_spec "CDATA[".data (advance n2S) adInv (by simp)
                    rcases hsw : startsWith "CDATA[".data (advance n2S) with ⟨swv, swS⟩
                    rw [hsw] at swInv swIff swTrue swFalse
                    dsimp only at swInv swIff swTrue swFalse
                    dsimp only
                    by_cases hswv : swv = true
                    · rw [if_pos hswv]
                      have hcd : remaining (advance n2S) = "CDATA[".data ++ remaining swS :=
                        (swTrue hswv).2
                      obtain ⟨suInv, suBal, suPre, suNil, _, _, _⟩ :=
                        sentinelRun_spec "]]>".data .cdata swS false true swInv (by simp)
                      rcases hsu : sentinelRun "]]>".data .cdata false true swS
                        with ⟨suT, suF, suS⟩
                      rw [hsu] at suInv suBal suPre suNil
                      dsimp only at suInv suBal suPre suNil
                      dsimp only
                      obtain ⟨sw2Inv, sw2Iff, sw2True, sw2False⟩ :=
                        startsWith_spec "]]>".data suS suInv (by simp)
                      rcases hsw2 : startsWith "]]>".data suS with ⟨sw2v, sw2S⟩
                      rw [hsw2] at sw2Inv sw2Iff sw2True sw2False
                      dsimp only at sw2Inv sw2Iff sw2True sw2False
                      dsimp only
                      have hfull : remaining s =
                          '<' :: '!' :: '[' :: ("CDATA[".data ++
                            (litcat suT ++ remaining suS)) := by
                        rw [hrs, hrr2, hrr3, ← adRem, hcd, ← suBal]
                      by_cases hsw2v : sw2v = true
                      · rw [if_pos hsw2v]
                        dsimp only
                        intro h
                        rw [parseTail_ok fuel (cdataOpenTextToken :: suT ++
                          [mkTok .cdataClose "]]>".data]) sw2S sw2Inv ih h]
                        have hq : remaining suS = ']' :: ']' :: '>' :: remaining sw2S := by
                          have h2 := (sw2True hsw2v).2
                          simpa using h2
                        rw [hfull, hq]
                        simp [litcat_append, litcat_cons, litcat_nil, mkTok,
                          cdataOpenTextToken]
                      · rw [if_neg hsw2v]
                        by_cases hsuF : suF = true
                        · rw [if_pos hsuF]
                          dsimp only
                          exact fun h => (nomatch h)
                        · rw [if_neg hsuF]
                          have hsuf : suF = false := by
                            cases hb : suF
                            · rfl
                            · exact absurd hb hsuF
                          have hnil : remaining suS = [] := suNil hsuf
                          have g2Inv := (get_spec sw2S sw2Inv).1
                          have g2Rem := (get_spec sw2S sw2Inv).2.1
                          have g2Rel := get_GRel sw2S sw2Inv
                          rcases hg2 : get sw2S with ⟨g2v, g2S⟩
                          rw [hg2] at g2Inv g2Rem g2Rel
                          dsimp only at g2Inv g2Rem g2Rel
                          dsimp only
                          rcases g2v with _ | _ | c
                          · dsimp only [isChr]
                            rw [if_neg (by decide : ¬(false = true))]
                            dsimp only
                            intro _
                            rw [hfull, hnil]
                            simp [litcat_append, litcat_cons, litcat_nil, mkTok,
                              cdataOpenTextToken]
                          · dsimp only [isChr]
                            rw [if_neg (by decide : ¬(false = true))]
                            dsimp only
                            intro _
                            rw [hfull, hnil]
                            simp [litcat_append, litcat_cons, litcat_nil, mkTok,
                              cdataOpenTextToken]
                          · dsimp only [isChr]
                            rw [if_pos rfl]
                            dsimp only
                            exact fun h => (nomatch h)
                    · rw [if_neg hswv]
                      dsimp only
                      exact fun h => (nomatch h)
                  · rw [if_neg hb2]
                    dsimp only
                    intro h
                    rw [parseTail_ok fuel [mkTok .badlyFormedLessThan "<".data,
                      mkTok .pcdata "!".data] n2S n2Inv ih h]
                    rw [n2Rem, hrs, hrr2]
                    simp [litcat_cons, litcat_nil, mkTok]
            · rw [if_neg hc3]
              by_cases hni : isNameInitial ch1 = true
              · -- start or empty tag
                rw [if_pos hni]
                obtain ⟨nmInv, nmBal⟩ := patternRun_bal isNmCh .tagName false true n1S n1Inv
                rcases hnm : parseName .tagName n1S with ⟨nmT, nmF, nmS⟩
                have hnm2 : patternRun isNmCh TK.tagName false true n1S = (nmT, nmF, nmS) := hnm
                rw [hnm2] at nmInv nmBal
                dsimp only at nmInv nmBal
                dsimp only
                by_cases hnmF : nmF = true
                · rw [if_pos hnmF]
                  obtain ⟨spInv, spBal⟩ := patternRun_bal isSpaceCh .markupWhitespace false true nmS nmInv
                  rcases hsp : parseSpace .markupWhitespace nmS with ⟨spT, spF, spS⟩
                  have hsp2 : patternRun isSpaceCh TK.markupWhitespace false true nmS = (spT, spF, spS) := hsp
                  rw [hsp2] at spInv spBal
                  dsimp only at spInv spBal
                  dsimp only
                  have g2Inv := (get_spec spS spInv).1
                  have g2Rem := (get_spec spS spInv).2.1
                  have g2Rel := get_GRel spS spInv
                  rcases hg2 : get spS with ⟨g2v, g2S⟩
                  rw [hg2] at g2Inv g2Rem g2Rel
                  dsimp only at g2Inv g2Rem g2Rel
                  dsimp only
                  have hfull0 : remaining s =
                      '<' :: (litcat nmT ++ (litcat spT ++ remaining g2S)) := by
                    rw [hrs, ← n1Rem, ← nmBal, ← spBal, ← g2Rem]
                  obtain ⟨alDone, alOk⟩ := attrLoop_ok fuel spF g2v g2S g2Inv g2Rel
                  rcases hal : attrLoop fuel spF g2v g2S with ⟨alT, alE, alS⟩
                  rw [hal] at alDone alOk
                  dsimp only at alDone alOk
                  dsimp only
                  rcases alE with gd | o
                  · -- attribute loop finished normally at gd
                    obtain ⟨alInv, alRel, alBal⟩ := alDone gd rfl
                    rcases gd with _ | _ | c2
                    · dsimp only
                      intro _
                      have hnil : remaining alS = [] := alRel.2 (fun c hc => nomatch hc)
                      rw [hfull0, ← alBal, hnil]
                      simp [litcat_append, litcat_cons, litcat_nil, mkTok]
                    · dsimp only
                      intro _
                      have hnil : remaining alS = [] := alRel.2 (fun c hc => nomatch hc)
                      rw [hfull0, ← alBal, hnil]
                      simp [litcat_append, litcat_cons, litcat_nil, mkTok]
                    · dsimp only
                      by_cases hgt : c2 = '>'
                      · rw [if_pos hgt]
                        subst hgt
                        obtain ⟨r5, hr5⟩ := alRel.1 '>' rfl
                        obtain ⟨adInv, _, ad3, _⟩ := advance_spec alS alInv
                        obtain ⟨adRem, _⟩ := ad3 '>' r5 hr5
                        dsimp only
                        intro h
                        rw [parseTail_ok fuel ((mkTok .startOrEmptyTagOpen "<".data :: nmT ++ spT) ++
                          alT ++ [mkTok .startTagClose ">".data]) (advance alS) adInv ih h]
                        rw [adRem, hfull0, ← alBal, hr5]
                        simp [litcat_append, litcat_cons, litcat_nil, mkTok]
                      · rw [if_neg hgt]
                        by_cases hsl : c2 = '/'
                        · rw [if_pos hsl]
                          subst hsl
                          obtain ⟨r5, hr5⟩ := alRel.1 '/' rfl
                          obtain ⟨n3Inv, n3Rem, n3Rel⟩ := next_step alS alInv '/' r5 hr5
                          rcases hn3 : next alS with ⟨n3v, n3S⟩
                          rw [hn3] at n3Inv n3Rem n3Rel
                          dsimp only at n3Inv n3Rem n3Rel
                          dsimp only
                          rcases n3v with _ | _ | c3
                          · dsimp only
                            intro _
                            have hr5nil : r5 = [] := by
                              rw [← n3Rem]
                              exact n3Rel.2 (fun c hc => nomatch hc)
                            have hsl1 : remaining alS = ['/'] := by rw [hr5, hr5nil]
                            rw [hfull0, ← alBal, hsl1]
                            simp [litcat_append, litcat_cons, litcat_nil, mkTok]
                          · dsimp only
                            intro _
                            have hr5nil : r5 = [] := by
                              rw [← n3Rem]
                              exact n3Rel.2 (fun c hc => nomatch hc)
                            have hsl1 : remaining alS = ['/'] := by rw [hr5, hr5nil]
                            rw [hfull0, ← alBal, hsl1]
                            simp [litcat_append, litcat_cons, litcat_nil, mkTok]
                          · dsimp only
                            by_cases hg3 : c3 = '>'
                            · rw [if_pos hg3]
                              subst hg3
                              obtain ⟨r6, hr6⟩ := n3Rel.1 '>' rfl
                              have hrr6 : r5 = '>' :: r6 := n3Rem.symm.trans hr6
                              obtain ⟨adInv, _, ad3, _⟩ := advance_spec n3S n3Inv
                              obtain ⟨adRem, _⟩ := ad3 '>' r6 hr6
                              dsimp only
                              intro h
                              rw [parseTail_ok fuel ((mkTok .startOrEmptyTagOpen "<".data :: nmT ++ spT) ++
                                alT ++ [mkTok .emptyTagClose "/>".data]) (advance n3S) adInv ih h]
                              rw [adRem, hfull0, ← alBal, hr5, hrr6]
                              simp [litcat_append, litcat_cons, litcat_nil, mkTok]
                            · rw [if_neg hg3]
                              dsimp only
                              exact fun h => (nomatch h)
                        · rw [if_neg hsl]
                          dsimp only
                          exact fun h => (nomatch h)
                  · -- attribute loop halted with outcome o
                    dsimp only
                    intro h
                    have halOk := alOk (by rw [h])
                    rw [hfull0, ← halOk]
                    simp [litcat_append, litcat_cons, litcat_nil, mkTok]
                · rw [if_neg hnmF]
                  dsimp only
                  exact fun h => (nomatch h)
              · rw [if_neg hni]
                dsimp only
                intro h
                rw [parseTail_ok fuel [mkTok .badlyFormedLessThan "<".data] n1S n1Inv ih h]
                rw [n1Rem, hrs]
                simp [litcat_cons, litcat_nil, mkTok]
    · rw [if_neg hlt]
      intro _
      have hnil : remaining s = [] := by
        rcases hpre with h | ⟨r, hr⟩
        · exact h
        · exact absurd (gChr '<' r hr) hlt
      rw [hnil]
      rfl

theorem parse_ok (fuel : Nat) (s : IterSeq) (hs : Inv s)
    (hok : (parse fuel s).2.1 = .ok) :
    litcat (parse fuel s).1 = remaining s := by
  unfold parse at hok ⊢
  dsimp only at hok ⊢
  obtain ⟨spInv, spBal⟩ := patternRun_bal isSpaceCh .markupWhitespace false true s hs
  rcases hsp : parseSpace .markupWhitespace s with ⟨spT, spF, spS⟩
  have hsp2 : patternRun isSpaceCh TK.markupWhitespace false true s = (spT, spF, spS) := hsp
  rw [hsp2] at spInv spBal
  dsimp only at spInv spBal
  rw [hsp] at hok
  obtain ⟨suInv, suBal, suPre, suNil, _, _, _⟩ :=
    sentinelRun_spec "<".data .pcdata spS false true spInv (by simp)
  rcases hsu : sentinelRun "<".data .pcdata false true spS with ⟨puT, puF, puS⟩
  rw [hsu] at suInv suBal suPre suNil
  dsimp only at suInv suBal suPre suNil
  rw [hsu] at hok
  dsimp only at hok
  dsimp only
  have hpre : remaining puS = [] ∨ (∃ r, remaining puS = '<' :: r) := by
    cases hf : puF
    · exact Or.inl (suNil hf)
    · have hp : List.isPrefixOf ['<'] (remaining puS) = true := suPre hf
      exact Or.inr (isPrefixOf_singleton_cons hp)
  have hlast := parseLoop_ok fuel puS suInv hpre hok
  rw [litcat_append, litcat_append, hlast, List.append_assoc, suBal, spBal]

/-! ## Claim C1 -/

/-- C1: literal preservation.  For every input chunk sequence, whenever
`TokenScanner.parse` ends with the normal outcome (the generator
returns, fatal errors excluded), the concatenation of `literal()` over
every emitted token piece — fixed-literal tokens contributing their
constant literal — is exactly the concatenation of the chunks, for
well-formed and malformed inputs alike. -/
theorem C1_literal_preservation (fuel : Nat) (chunks : List (List Char))
    (hok : (parse fuel (ofChunks chunks)).2.1 = .ok) :
    litcat (parse fuel (ofChunks chunks)).1 = chunks.flatten := by
  have hs0 : Inv (ofChunks chunks) := by constructor <;> simp [ofChunks]
  have hrem0 : remaining (ofChunks chunks) = chunks.flatten := by
    simp [remaining, ofChunks]
  rw [← hrem0]
  exact parse_ok fuel (ofChunks chunks) hs0 hok

theorem C1_literal_preservation_witness :
    (parse 3 (ofChunks [['a'], "<b>x</b>".data])).2.1 = .ok ∧
    litcat (parse 3 (ofChunks [['a'], "<b>x</b>".data])).1 =
      [['a'], "<b>x</b>".data].flatten :=
  ⟨by simp [parse, parseLoop, attrLoop, patternRun, sentinelRun, parseSpace,
      parseName, parseUntil, matching, matchToSentinel, ensure, ensureCore,
      readMore, get, advance, next, extract, extractL, strFind, overlapAux,
      overlapLen, startsWith, isChr, matchesInitialG, isNameInitial, isWordCh,
      isSpaceCh, isNmCh, mkTok, ofChunks],
    C1_literal_preservation 3 [['a'], "<b>x</b>".data]
      (by simp [parse, parseLoop, attrLoop, patternRun, sentinelRun, parseSpace,
        parseName, parseUntil, matching, matchToSentinel, ensure, ensureCore,
        readMore, get, advance, next, extract, extractL, strFind, overlapAux,
        overlapLen, startsWith, isChr, matchesInitialG, isNameInitial, isWordCh,
        isSpaceCh, isNmCh, mkTok, ofChunks])⟩

end Minim
